import Mathlib

/-!
Verification development for the marshal core of the repository
(packages/marshal/src/marshal.js): pass-style classification, canonical
encoding to capdata, and revival with ibid backreferences and cycle policies.

The JavaScript value universe is shallowly embedded as the inductive `JSVal`.
Object identity (which the source's ibid and slot tables key on) is made
explicit: every non-primitive node carries a numeric object id `oid`; two
occurrences of the same `oid` model two references to one JS object, so a
value with pairwise-distinct oids models a tree-shaped (unaliased) graph.
Finite JS numbers are modelled as integers (the claims under study only
discriminate NaN, the infinities and negative zero, which get their own
constructors); `JSON.parse (JSON.stringify t) = t` for the trees produced
here is a property of the host JSON, so decoding operates on the raw tree
while `serialize` still produces the textual body via a faithful
`JSON.stringify` model.
-/

namespace Marshal

/-- The sentinel property name, `QCLASS` in the source. -/
def QCLASS : String := "@qclass"

/-- A JavaScript value as seen by the marshal core. Non-primitive
constructors carry an object id modelling JS reference identity, and a
`frozen` flag modelling `Object.isFrozen`. `methodsObj` is an object all of
whose own properties are methods (only their names matter to the core);
`cycleRef` is the decoder-side stand-in for a reference to an object whose
construction is still in progress (the knot the source ties by mutation). -/
inductive JSVal where
  | undef
  | nullV
  | bool (b : Bool)
  | num (n : Int)
  | nan
  | posInf
  | negInf
  | negZero
  | bigint (i : Int)
  | str (s : String)
  | symAsync
  | record (oid : Nat) (frozen : Bool) (fields : List (String × JSVal))
  | arr (oid : Nat) (frozen : Bool) (elems : List JSVal)
  | errObj (oid : Nat) (frozen : Bool) (name : String) (msg : String)
  | methodsObj (oid : Nat) (frozen : Bool) (methods : List String)
  | promise (oid : Nat) (frozen : Bool)
  | cycleRef (idx : Nat)
deriving Repr

/-- A raw JSON tree: the `PlainJSONData` intermediate of the source's
encoder, and the result of the host's `JSON.parse` on the decoder side. -/
inductive JSON where
  | null
  | bool (b : Bool)
  | num (n : Int)
  | str (s : String)
  | arr (elems : List JSON)
  | obj (fields : List (String × JSON))
deriving Repr

/-- The pass styles assigned by `passStyleOf`. `remoteStyle` is the
source's `REMOTE_STYLE` constant (the string "presence"). -/
inductive PassStyle where
  | nullS
  | undefinedS
  | stringS
  | booleanS
  | numberS
  | bigintS
  | symbolS
  | copyRecord
  | copyArray
  | copyError
  | remoteStyle
  | promiseS
deriving Repr, DecidableEq

/-- The process-wide `remotableToInterface` WeakMap, as an association from
object ids to interface tags. -/
def Registry : Type := List (Nat × String)

/-- Association lookup used for the registry and the encoder's tables. -/
def lookupNS : List (Nat × String) → Nat → Option String
  | [], _ => none
  | (k, v) :: rest, n => if k = n then some v else lookupNS rest n

/-- Association lookup keyed by Nat with Nat values (the slot map). -/
def lookupNN : List (Nat × Nat) → Nat → Option Nat
  | [], _ => none
  | (k, v) :: rest, n => if k = n then some v else lookupNN rest n

/-- Field lookup in a record, modelling JS own-property access. -/
def lookupF : List (String × JSON) → String → Option JSON
  | [], _ => none
  | (k, v) :: rest, n => if k = n then some v else lookupF rest n

/-- Field lookup in a `JSVal` record. -/
def lookupV : List (String × JSVal) → String → Option JSVal
  | [], _ => none
  | (k, v) :: rest, n => if k = n then some v else lookupV rest n

/-- The object id of a value, when it is an object (`typeof val` is
"object" and it is not null). -/
def oidOf : JSVal → Option Nat
  | .record oid _ _ => some oid
  | .arr oid _ _ => some oid
  | .errObj oid _ _ _ => some oid
  | .methodsObj oid _ _ => some oid
  | .promise oid _ => some oid
  | _ => none

/-- The source's `getInterfaceOf`: a WeakMap `get`, total on every
argument (a WeakMap's `get` returns undefined on primitives and on
unregistered objects; it never throws). -/
def getInterfaceOf (reg : Registry) (v : JSVal) : Option String :=
  match oidOf v with
  | some oid => lookupNS reg oid
  | none => none

/-- The source's `errorConstructors` map, with each constructor
represented by its name. -/
def errorConstructorNames : List String :=
  ["Error", "EvalError", "RangeError", "ReferenceError", "SyntaxError",
   "TypeError", "URIError"]

/-- The source's `getErrorConstructor`, with constructors represented by
their names. -/
def getErrorConstructor (name : String) : Option String :=
  if name ∈ errorConstructorNames then some name else none

/-- The source's `passStyleOf`, in its decision order: for objects, the
registry is consulted first, then the reserved sentinel name, frozenness,
promises, thenables, then the copy shapes, and finally
`mustPassByRemote`. The embedding's object constructors already separate
the shapes that the source discriminates by property inspection; an empty
record reaches `mustPassByRemote` and is remote-style. -/
def passStyleOf (reg : Registry) : JSVal → Except String PassStyle
  | .undef => .ok .undefinedS
  | .nullV => .ok .nullS
  | .bool _ => .ok .booleanS
  | .num _ => .ok .numberS
  | .nan => .ok .numberS
  | .posInf => .ok .numberS
  | .negInf => .ok .numberS
  | .negZero => .ok .numberS
  | .bigint _ => .ok .bigintS
  | .str _ => .ok .stringS
  | .symAsync => .ok .symbolS
  | .record oid frozen fields =>
    if (lookupNS reg oid).isSome then .ok .remoteStyle
    else if QCLASS ∈ fields.map Prod.fst then
      .error "property \x22@qclass\x22 reserved"
    else if !frozen then .error "cannot pass non-frozen objects. Use harden()"
    else if fields.isEmpty then .ok .remoteStyle
    else .ok .copyRecord
  | .arr oid frozen _ =>
    if (lookupNS reg oid).isSome then .ok .remoteStyle
    else if !frozen then .error "cannot pass non-frozen objects. Use harden()"
    else .ok .copyArray
  | .errObj oid frozen name _ =>
    if (lookupNS reg oid).isSome then .ok .remoteStyle
    else if !frozen then .error "cannot pass non-frozen objects. Use harden()"
    else if (getErrorConstructor name).isNone then
      .error "errors must inherit from an error class .prototype"
    else .ok .copyError
  | .methodsObj oid frozen methods =>
    if (lookupNS reg oid).isSome then .ok .remoteStyle
    else if QCLASS ∈ methods then .error "property \x22@qclass\x22 reserved"
    else if !frozen then .error "cannot pass non-frozen objects. Use harden()"
    else if "then" ∈ methods then .error "cannot pass non-promise thenables"
    else .ok .remoteStyle
  | .promise oid frozen =>
    if (lookupNS reg oid).isSome then .ok .remoteStyle
    else if !frozen then .error "cannot pass non-frozen objects. Use harden()"
    else .ok .promiseS
  | .cycleRef _ => .error "cannot classify an in-construction reference"

mutual

/-- Structural size of a value, used as the encoder's termination
measure. Records weigh twice their field size so that the sorted-name
traversal (whose auxiliary measure adds the name count) still decreases. -/
def jsize : JSVal → Nat
  | .record _ _ fields => 1 + 2 * fsize fields
  | .arr _ _ elems => 1 + lsize elems
  | _ => 1

/-- Size of a field list. -/
def fsize : List (String × JSVal) → Nat
  | [] => 0
  | (_, v) :: rest => 1 + jsize v + fsize rest

/-- Size of an element list. -/
def lsize : List JSVal → Nat
  | [] => 0
  | v :: rest => 1 + jsize v + lsize rest

end

/-- Lexicographic code-point comparison of character lists, modelling the
default comparator of JS `Array.prototype.sort` on strings (code-unit
order; identical to code-point order on the property names involved). -/
def listCharLe : List Char → List Char → Bool
  | [], _ => true
  | _ :: _, [] => false
  | a :: as, b :: bs =>
    if a.toNat < b.toNat then true
    else if b.toNat < a.toNat then false
    else listCharLe as bs

/-- String comparison used to sort record property names. -/
def strLeB (a b : String) : Bool := listCharLe a.data b.data

/-- Ordered insertion for the name sort. -/
def insertName (n : String) : List String → List String
  | [] => [n]
  | m :: rest => if strLeB n m then n :: m :: rest else m :: insertName n rest

/-- The ascending sort of record property names performed by the source's
`Reflect.ownKeys(val).sort()` (an insertion sort producing the same
ascending order). -/
def sortNames : List String → List String
  | [] => []
  | n :: rest => insertName n (sortNames rest)

theorem insertName_length (n : String) (l : List String) :
    (insertName n l).length = l.length + 1 := by
  induction l with
  | nil => simp [insertName]
  | cons m rest ih =>
    simp only [insertName]
    by_cases h : strLeB n m
    · simp [h]
    · simp [h, ih]

theorem sortNames_length (l : List String) :
    (sortNames l).length = l.length := by
  induction l with
  | nil => simp [sortNames]
  | cons n rest ih => simp [sortNames, insertName_length, ih]

theorem lookupV_jsize_lt {fields : List (String × JSVal)} {n : String}
    {w : JSVal} (h : lookupV fields n = some w) : jsize w < fsize fields := by
  induction fields with
  | nil => simp [lookupV] at h
  | cons p rest ih =>
    obtain ⟨k, v⟩ := p
    by_cases hk : k = n
    · simp [lookupV, hk] at h
      subst h
      simp [fsize]
      omega
    · simp [lookupV, hk] at h
      have := ih h
      simp [fsize]
      omega

theorem length_le_fsize (fields : List (String × JSVal)) :
    fields.length ≤ fsize fields := by
  induction fields with
  | nil => simp [fsize]
  | cons p rest ih => simp [fsize]; omega

/-- The decimal digit character for a value below ten. -/
def digitChar (n : Nat) : Char := Char.ofNat (48 + n)

/-- Big-endian decimal digits of a natural number, with fuel for
structural termination; any fuel above the digit count is enough. -/
def natDigitsAux : Nat → Nat → List Char
  | 0, _ => []
  | fuel + 1, n =>
    if n < 10 then [digitChar n]
    else natDigitsAux fuel (n / 10) ++ [digitChar (n % 10)]

/-- Decimal representation of a natural number. -/
def natRepr (n : Nat) : String := String.mk (natDigitsAux (n + 1) n)

/-- The decimal string the source's `String(val)` produces for a bigint. -/
def intRepr (i : Int) : String :=
  if i < 0 then "-" ++ natRepr i.natAbs else natRepr i.natAbs

/-- The mutable state of one `serialize` call: the `slots` output list,
the `slotMap` from object id to slot index, the replacer ibid table (the
list of object ids in the order `add` was called, so an id's index in the
list is its ibid index), and the marshal instance's `errorCount`. -/
structure EncState where
  slots : List JSVal
  slotMap : List (Nat × Nat)
  ibids : List Nat
  errorCount : Nat
deriving Repr

/-- The initial state of a `serialize` call on a fresh marshal instance. -/
def initEncState : EncState := ⟨[], [], [], 0⟩

/-- Index of an object id in the replacer ibid table (`ibidMap.get`). -/
def idxOfNat : List Nat → Nat → Nat
  | [], _ => 0
  | k :: rest, n => if k = n then 0 else 1 + idxOfNat rest n

/-- The source's `serializeSlot`: dedups `val` through `slotMap`,
otherwise appends `convertValToSlot val` to `slots`, and returns the slot
envelope, with the `iface` field present exactly when an interface is
known. Envelope field order follows the source's object literals. -/
def serializeSlot (valToSlot : JSVal → JSVal) (val : JSVal) (oid : Nat)
    (iface : Option String) (st : EncState) : JSON × EncState :=
  let (slotIndex, st1) :=
    match lookupNN st.slotMap oid with
    | some i => (i, st)
    | none =>
      (st.slots.length,
       { st with slots := st.slots ++ [valToSlot val],
                 slotMap := st.slotMap ++ [(oid, st.slots.length)] })
  match iface with
  | none => (.obj [(QCLASS, .str "slot"), ("index", .num slotIndex)], st1)
  | some i =>
    (.obj [(QCLASS, .str "slot"), ("iface", .str i), ("index", .num slotIndex)],
     st1)

/-- The fresh error id `error:marshalName#count` of `nextErrorId`. -/
def nextErrorId (marshalName : String) (count : Nat) : String :=
  "error:" ++ marshalName ++ "#" ++ toString count

mutual

/-- The source's `encode`: classification first, then primitives map to
JSON directly or to sentinel envelopes, and every non-primitive is ibid
tracked before dispatching on its style. Record fields are visited in
ascending sort order of their own property names (the source's
`Reflect.ownKeys(val).sort()` followed by indexing). -/
def encode (reg : Registry) (valToSlot : JSVal → JSVal) (marshalName : String)
    (v : JSVal) (st : EncState) : Except String (JSON × EncState) :=
  match passStyleOf reg v with
  | .error e => .error e
  | .ok ps =>
    match ps with
    | .nullS => .ok (.null, st)
    | .undefinedS => .ok (.obj [(QCLASS, .str "undefined")], st)
    | .stringS =>
      match v with
      | .str s => .ok (.str s, st)
      | _ => .error "invariant: string style on a non-string"
    | .booleanS =>
      match v with
      | .bool b => .ok (.bool b, st)
      | _ => .error "invariant: boolean style on a non-boolean"
    | .numberS =>
      match v with
      | .nan => .ok (.obj [(QCLASS, .str "NaN")], st)
      | .negZero => .ok (.num 0, st)
      | .posInf => .ok (.obj [(QCLASS, .str "Infinity")], st)
      | .negInf => .ok (.obj [(QCLASS, .str "-Infinity")], st)
      | .num n => .ok (.num n, st)
      | _ => .error "invariant: number style on a non-number"
    | .bigintS =>
      match v with
      | .bigint i =>
        .ok (.obj [(QCLASS, .str "bigint"), ("digits", .str (intRepr i))], st)
      | _ => .error "invariant: bigint style on a non-bigint"
    | .symbolS => .ok (.obj [(QCLASS, .str "@@asyncIterator")], st)
    | _ =>
      match oidOf v with
      | none => .error "invariant: object style on a primitive"
      | some oid =>
        if st.ibids.contains oid then
          .ok (.obj [(QCLASS, .str "ibid"),
                     ("index", .num (idxOfNat st.ibids oid))], st)
        else
          let st0 := { st with ibids := st.ibids ++ [oid] }
          match ps, v with
          | .copyRecord, .record _ _ fields =>
            match encodeNamedFields reg valToSlot marshalName fields
                (sortNames (fields.map Prod.fst)) st0 with
            | .error e => .error e
            | .ok (jfields, st1) => .ok (.obj jfields, st1)
          | .copyArray, .arr _ _ elems =>
            match encodeList reg valToSlot marshalName elems st0 with
            | .error e => .error e
            | .ok (jelems, st1) => .ok (.arr jelems, st1)
          | .copyError, .errObj _ _ name msg =>
            let errorId := nextErrorId marshalName (st0.errorCount + 1)
            .ok (.obj [(QCLASS, .str "error"), ("errorId", .str errorId),
                       ("message", .str msg), ("name", .str name)],
                 { st0 with errorCount := st0.errorCount + 1 })
          | .remoteStyle, _ =>
            .ok (serializeSlot valToSlot v oid (getInterfaceOf reg v) st0)
          | .promiseS, _ => .ok (serializeSlot valToSlot v oid none st0)
          | _, _ => .error "invariant: unrecognized passStyle"
termination_by jsize v
decreasing_by
  all_goals simp_wf
  all_goals simp [jsize, lsize, fsize]
  all_goals try omega
  all_goals
    (have h1 := length_le_fsize fields
     have h2 : (sortNames (fields.map Prod.fst)).length = fields.length := by
       rw [sortNames_length, List.length_map]
     omega)

/-- Encodes the record fields named by `names` (already sorted), looking
each name up in the record, as the source's
`names.map(name => [name, encode(val[name])])`. -/
def encodeNamedFields (reg : Registry) (valToSlot : JSVal → JSVal)
    (marshalName : String) (fields : List (String × JSVal)) (names : List String)
    (st : EncState) : Except String (List (String × JSON) × EncState) :=
  match names with
  | [] => .ok ([], st)
  | n :: rest =>
    match hw : lookupV fields n with
    | none => .error "invariant: own property name lookup failed"
    | some w =>
      match encode reg valToSlot marshalName w st with
      | .error e => .error e
      | .ok (j, st1) =>
        match encodeNamedFields reg valToSlot marshalName fields rest st1 with
        | .error e => .error e
        | .ok (jrest, st2) => .ok ((n, j) :: jrest, st2)
termination_by fsize fields + names.length
decreasing_by
  all_goals simp_wf
  all_goals try (have h9 := lookupV_jsize_lt hw; omega)
  all_goals simp [List.length_cons]
  all_goals omega

/-- Encodes the elements of a copyArray in order (the source's
`val.map(encode)`). -/
def encodeList (reg : Registry) (valToSlot : JSVal → JSVal)
    (marshalName : String) (elems : List JSVal) (st : EncState) :
    Except String (List JSON × EncState) :=
  match elems with
  | [] => .ok ([], st)
  | v :: rest =>
    match encode reg valToSlot marshalName v st with
    | .error e => .error e
    | .ok (j, st1) =>
      match encodeList reg valToSlot marshalName rest st1 with
      | .error e => .error e
      | .ok (jrest, st2) => .ok (j :: jrest, st2)
termination_by lsize elems
decreasing_by
  all_goals simp_wf
  all_goals simp [lsize]
  all_goals omega

end

/-- The hexadecimal digit character used in a JSON \x5cu escape. -/
def hexChar (n : Nat) : Char :=
  if n < 10 then Char.ofNat (48 + n) else Char.ofNat (87 + n)

/-- The escape `JSON.stringify` applies to one character of a string:
quote and backslash are escaped, the named control escapes are used for
backspace, tab, newline, form feed and carriage return, other control
characters become \x5cu00XX, and everything else is passed through. -/
def escapeChar (c : Char) : String :=
  if c = Char.ofNat 34 then "\x5c\x22"
  else if c = Char.ofNat 92 then "\x5c\x5c"
  else if c = Char.ofNat 8 then "\x5cb"
  else if c = Char.ofNat 9 then "\x5ct"
  else if c = Char.ofNat 10 then "\x5cn"
  else if c = Char.ofNat 12 then "\x5cf"
  else if c = Char.ofNat 13 then "\x5cr"
  else if c.toNat < 32 then
    String.mk ['\x5c', 'u', '0', '0', hexChar (c.toNat / 16), hexChar (c.toNat % 16)]
  else String.mk [c]

/-- The body text of a JSON string literal. -/
def escapeString (s : String) : String :=
  String.join (s.data.map escapeChar)

mutual

/-- The host's `JSON.stringify` on the encoder's raw trees: object fields
in insertion order, no whitespace. -/
def stringify : JSON → String
  | .null => "null"
  | .bool true => "true"
  | .bool false => "false"
  | .num n => intRepr n
  | .str s => "\x22" ++ escapeString s ++ "\x22"
  | .arr elems => "[" ++ stringifyElems elems ++ "]"
  | .obj fields => "\x7b" ++ stringifyFields fields ++ "\x7d"

/-- Comma-separated stringification of array elements. -/
def stringifyElems : List JSON → String
  | [] => ""
  | [j] => stringify j
  | j :: rest => stringify j ++ "," ++ stringifyElems rest

/-- Comma-separated stringification of object members. -/
def stringifyFields : List (String × JSON) → String
  | [] => ""
  | [(n, j)] => "\x22" ++ escapeString n ++ "\x22:" ++ stringify j
  | (n, j) :: rest =>
    "\x22" ++ escapeString n ++ "\x22:" ++ stringify j ++ "," ++
      stringifyFields rest

end

/-- The wire form `\x7bbody, slots\x7d` produced by `serialize`. -/
structure CapData where
  body : String
  slots : List JSVal
deriving Repr

/-- The source's `serialize` up to the final `JSON.stringify`: runs the
encoder on a fresh ibid table and slot map and returns the raw tree
together with the slot list. -/
def serializeTree (reg : Registry) (valToSlot : JSVal → JSVal)
    (marshalName : String) (root : JSVal) : Except String (JSON × List JSVal) :=
  match encode reg valToSlot marshalName root initEncState with
  | .error e => .error e
  | .ok (j, st) => .ok (j, st.slots)

/-- The source's `serialize`: the capdata whose body is the canonical
textual serialization of the raw tree. -/
def serialize (reg : Registry) (valToSlot : JSVal → JSVal)
    (marshalName : String) (root : JSVal) : Except String CapData :=
  match serializeTree reg valToSlot marshalName root with
  | .error e => .error e
  | .ok (j, slots) => .ok ⟨stringify j, slots⟩

/-- The reviver ibid table of `makeReviverIbidTable`: a positional list
where an entry is `none` while its object is in construction (the
source's `unfinishedIbids` membership) and holds the finished value
afterwards, together with the fresh-object-id counter of the embedding. -/
structure DecState where
  ibids : List (Option JSVal)
  nextOid : Nat
deriving Repr

/-- The initial reviver state. -/
def initDecState : DecState := ⟨[], 1000⟩

/-- The table's `get`: `Nat(allegedIndex)` rejects negatives, an index at
or beyond the table length is a RangeError, and a hit on an unfinished
entry consults the cycle policy — unknown policies fail here and only
here. Under the permissive policies the source returns the partially
built object itself; the embedding returns the `cycleRef` stand-in. -/
def ibidGet (cyclePolicy : String) (dst : DecState) (idx : Int) :
    Except String JSVal :=
  if idx < 0 then .error "index must be a natural number"
  else
    match dst.ibids.get? idx.toNat with
    | none => .error "ibid out of range"
    | some (some v) => .ok v
    | some none =>
      if cyclePolicy = "allowCycles" then .ok (.cycleRef idx.toNat)
      else if cyclePolicy = "warnOfCycles" then .ok (.cycleRef idx.toNat)
      else if cyclePolicy = "forbidCycles" then .error "ibid cycle"
      else .error ("unrecognized cycle policy: " ++ cyclePolicy)

/-- The numeric value of a decimal digit character, if it is one. -/
def digitVal (c : Char) : Option Nat :=
  if 48 ≤ c.toNat ∧ c.toNat ≤ 57 then some (c.toNat - 48) else none

/-- Accumulating decimal parse of a digit list. -/
def parseNatAux (acc : Nat) : List Char → Option Nat
  | [] => some acc
  | c :: rest =>
    match digitVal c with
    | some d => parseNatAux (acc * 10 + d) rest
    | none => none

/-- Parse of a nonempty all-digit list. -/
def parseNatDigits : List Char → Option Nat
  | [] => none
  | cs => parseNatAux 0 cs

/-- The host's `BigInt(string)` on the digit strings at issue: an
optional sign followed by decimal digits. -/
def intParse (s : String) : Option Int :=
  match s.data with
  | '-' :: rest => (parseNatDigits rest).map (fun n => -(n : Int))
  | cs => (parseNatDigits cs).map (fun n => (n : Int))

mutual

/-- The source's `fullRevive`: primitives pass through; an object with
the sentinel field dispatches on its (string) value; an array or plain
record is started in the ibid table, its children revived in order, and
finished. Errors and slot values are registered as finished entries. The
whole result is hardened after revival, so constructed objects carry
`frozen := true`. -/
def fullRevive (slotToVal : JSVal → Option JSON → JSVal) (slots : List JSVal)
    (cyclePolicy : String) (rawTree : JSON) (dst : DecState) :
    Except String (JSVal × DecState) :=
  match rawTree with
  | .null => .ok (.nullV, dst)
  | .bool b => .ok (.bool b, dst)
  | .num n => .ok (.num n, dst)
  | .str s => .ok (.str s, dst)
  | .arr elems =>
    let idx := dst.ibids.length
    let dst0 := { dst with ibids := dst.ibids ++ [none],
                           nextOid := dst.nextOid + 1 }
    match fullReviveElems slotToVal slots cyclePolicy elems dst0 with
    | .error e => .error e
    | .ok (velems, dst1) =>
      let result := JSVal.arr dst.nextOid true velems
      .ok (result, { dst1 with ibids := dst1.ibids.set idx (some result) })
  | .obj fields =>
    match lookupF fields QCLASS with
    | none =>
      let idx := dst.ibids.length
      let dst0 := { dst with ibids := dst.ibids ++ [none],
                             nextOid := dst.nextOid + 1 }
      match fullReviveFields slotToVal slots cyclePolicy fields dst0 with
      | .error e => .error e
      | .ok (vfields, dst1) =>
        let result := JSVal.record dst.nextOid true vfields
        .ok (result, { dst1 with ibids := dst1.ibids.set idx (some result) })
    | some qclassVal =>
      match qclassVal with
      | .str qclass =>
        if qclass = "undefined" then .ok (.undef, dst)
        else if qclass = "NaN" then .ok (.nan, dst)
        else if qclass = "Infinity" then .ok (.posInf, dst)
        else if qclass = "-Infinity" then .ok (.negInf, dst)
        else if qclass = "bigint" then
          match lookupF fields "digits" with
          | some (.str digits) =>
            match intParse digits with
            | some i => .ok (.bigint i, dst)
            | none => .error "cannot convert digits to a BigInt"
          | _ => .error "invalid digits typeof"
        else if qclass = "@@asyncIterator" then .ok (.symAsync, dst)
        else if qclass = "ibid" then
          match lookupF fields "index" with
          | some (.num idx) =>
            match ibidGet cyclePolicy dst idx with
            | .error e => .error e
            | .ok v => .ok (v, dst)
          | _ => .error "index must be a natural number"
        else if qclass = "error" then
          match lookupF fields "name" with
          | some (.str name) =>
            match lookupF fields "message" with
            | some (.str message) =>
              let ecName := (getErrorConstructor name).getD "Error"
              let error := JSVal.errObj dst.nextOid true ecName message
              .ok (error, { dst with ibids := dst.ibids ++ [some error],
                                     nextOid := dst.nextOid + 1 })
            | _ => .error "invalid error message typeof"
          | _ => .error "invalid error name typeof"
        else if qclass = "slot" then
          match lookupF fields "index" with
          | some (.num idx) =>
            if idx < 0 then .error "index must be a natural number"
            else
              let slot := (slots.get? idx.toNat).getD .undef
              let v := slotToVal slot (lookupF fields "iface")
              .ok (v, { dst with ibids := dst.ibids ++ [some v] })
          | _ => .error "index must be a natural number"
        else .error ("unrecognized @qclass " ++ qclass)
      | _ => .error "invalid qclass typeof"

/-- Revival of array elements in order. -/
def fullReviveElems (slotToVal : JSVal → Option JSON → JSVal)
    (slots : List JSVal) (cyclePolicy : String) (elems : List JSON)
    (dst : DecState) : Except String (List JSVal × DecState) :=
  match elems with
  | [] => .ok ([], dst)
  | j :: rest =>
    match fullRevive slotToVal slots cyclePolicy j dst with
    | .error e => .error e
    | .ok (v, dst1) =>
      match fullReviveElems slotToVal slots cyclePolicy rest dst1 with
      | .error e => .error e
      | .ok (vrest, dst2) => .ok (v :: vrest, dst2)

/-- Revival of record fields in `getOwnPropertyNames` order, which for a
tree produced by `JSON.parse` is the textual member order. -/
def fullReviveFields (slotToVal : JSVal → Option JSON → JSVal)
    (slots : List JSVal) (cyclePolicy : String)
    (fields : List (String × JSON)) (dst : DecState) :
    Except String (List (String × JSVal) × DecState) :=
  match fields with
  | [] => .ok ([], dst)
  | (n, j) :: rest =>
    match fullRevive slotToVal slots cyclePolicy j dst with
    | .error e => .error e
    | .ok (v, dst1) =>
      match fullReviveFields slotToVal slots cyclePolicy rest dst1 with
      | .error e => .error e
      | .ok (vrest, dst2) => .ok ((n, v) :: vrest, dst2)

end

/-- The identity `convertValToSlot` default. -/
def defaultValToSlot : JSVal → JSVal := fun x => x

/-- The `convertSlotToVal` default, returning its first argument. -/
def defaultSlotToVal : JSVal → Option JSON → JSVal := fun x _ => x

/-- The source's `unserialize` after the host's `JSON.parse` of the body:
the raw tree is revived against the given slots under the given cycle
policy, on a fresh reviver ibid table. -/
def unserialize (slotToVal : JSVal → Option JSON → JSVal) (rawTree : JSON)
    (slots : List JSVal) (cyclePolicy : String) : Except String JSVal :=
  match fullRevive slotToVal slots cyclePolicy rawTree initDecState with
  | .error e => .error e
  | .ok (v, _) => .ok v

mutual

/-- Structural equality of values under sameValueZero semantics: negative
zero is identified with zero and NaN equals NaN; copy data is compared by
content (object ids and frozen flags are ignored, record fields are
compared as a name-keyed set); remotables and promises are compared by
identity (their constructor data, which in JS is determined by the
object's identity). -/
def structEq : JSVal → JSVal → Bool
  | .undef, .undef => true
  | .nullV, .nullV => true
  | .bool b1, .bool b2 => b1 = b2
  | .nan, .nan => true
  | .posInf, .posInf => true
  | .negInf, .negInf => true
  | .negZero, .negZero => true
  | .negZero, .num n => n = 0
  | .num n, .negZero => n = 0
  | .num n1, .num n2 => n1 = n2
  | .bigint i1, .bigint i2 => i1 = i2
  | .str s1, .str s2 => s1 = s2
  | .symAsync, .symAsync => true
  | .record _ _ f1, .record _ _ f2 => f1.length = f2.length && fieldsSub f1 f2
  | .arr _ _ e1, .arr _ _ e2 => structEqList e1 e2
  | .errObj _ _ n1 m1, .errObj _ _ n2 m2 => n1 = n2 && m1 = m2
  | .methodsObj o1 fr1 m1, .methodsObj o2 fr2 m2 =>
    o1 = o2 && fr1 = fr2 && m1 = m2
  | .promise o1 fr1, .promise o2 fr2 => o1 = o2 && fr1 = fr2
  | .cycleRef i1, .cycleRef i2 => i1 = i2
  | _, _ => false

/-- Every field of the first list occurs (by name) in the second with a
structurally equal value. -/
def fieldsSub : List (String × JSVal) → List (String × JSVal) → Bool
  | [], _ => true
  | (n, x) :: rest, f2 =>
    (match lookupV f2 n with
     | some y => structEq x y
     | none => false) && fieldsSub rest f2

/-- Pointwise structural equality of element lists. -/
def structEqList : List JSVal → List JSVal → Bool
  | [], [] => true
  | x :: xs, y :: ys => structEq x y && structEqList xs ys
  | _, _ => false

end

/-- No string occurs twice (record property names are unique in JS). -/
def nodupStr : List String → Bool
  | [] => true
  | s :: rest => !(rest.contains s) && nodupStr rest

mutual

/-- Pure data in the sense of the round-trip claim: the value contains no
remote-style object and no future. Because the classifier makes empty
records, all-method objects and registered objects remote-style and
rejects unfrozen objects, records with the sentinel name and errors of
unknown class, purity requires: frozen non-empty records without the
sentinel name and with unique property names, frozen arrays, frozen
errors of a known error class — and no object registered as a remotable. -/
def pureVal (reg : Registry) : JSVal → Bool
  | .undef => true
  | .nullV => true
  | .bool _ => true
  | .num _ => true
  | .nan => true
  | .posInf => true
  | .negInf => true
  | .negZero => true
  | .bigint _ => true
  | .str _ => true
  | .symAsync => true
  | .record oid frozen fields =>
    (lookupNS reg oid).isNone && frozen && !fields.isEmpty &&
      !((fields.map Prod.fst).contains QCLASS) &&
      nodupStr (fields.map Prod.fst) && pureFields reg fields
  | .arr oid frozen elems =>
    (lookupNS reg oid).isNone && frozen && pureList reg elems
  | .errObj oid frozen name _ =>
    (lookupNS reg oid).isNone && frozen && (getErrorConstructor name).isSome
  | .methodsObj _ _ _ => false
  | .promise _ _ => false
  | .cycleRef _ => false

/-- Purity of a record's field values. -/
def pureFields (reg : Registry) : List (String × JSVal) → Bool
  | [] => true
  | (_, v) :: rest => pureVal reg v && pureFields reg rest

/-- Purity of an array's elements. -/
def pureList (reg : Registry) : List JSVal → Bool
  | [] => true
  | v :: rest => pureVal reg v && pureList reg rest

end

mutual

/-- The object ids occurring in a value, in insertion order. A value whose
oids are pairwise distinct models an unaliased (tree-shaped) object
graph, the shape on which the encoder never emits an ibid. -/
def oids : JSVal → List Nat
  | .record oid _ fields => oid :: oidsF fields
  | .arr oid _ elems => oid :: oidsL elems
  | .errObj oid _ _ _ => [oid]
  | .methodsObj oid _ _ => [oid]
  | .promise oid _ => [oid]
  | _ => []

/-- Object ids of a field list. -/
def oidsF : List (String × JSVal) → List Nat
  | [] => []
  | (_, v) :: rest => oids v ++ oidsF rest

/-- Object ids of an element list. -/
def oidsL : List JSVal → List Nat
  | [] => []
  | v :: rest => oids v ++ oidsL rest

end

mutual

/-- Every object occurrence of a value, as a pair of its object id and
the occurrence itself (the value in the root position included when it is
an object). A real JS heap is oid-consistent: two occurrences with the
same object id are the same object, hence equal — the hypothesis under
which an ibid backreference faithfully stands for its referent. -/
def allOccs : JSVal → List (Nat × JSVal)
  | .record oid fr fields => (oid, .record oid fr fields) :: allOccsF fields
  | .arr oid fr elems => (oid, .arr oid fr elems) :: allOccsL elems
  | .errObj oid fr name msg => [(oid, .errObj oid fr name msg)]
  | .methodsObj oid fr ms => [(oid, .methodsObj oid fr ms)]
  | .promise oid fr => [(oid, .promise oid fr)]
  | _ => []

/-- Object occurrences of a field list. -/
def allOccsF : List (String × JSVal) → List (Nat × JSVal)
  | [] => []
  | (_, v) :: rest => allOccs v ++ allOccsF rest

/-- Object occurrences of an element list. -/
def allOccsL : List JSVal → List (Nat × JSVal)
  | [] => []
  | v :: rest => allOccs v ++ allOccsL rest

end

mutual

/-- Unique property names at every record level of a value. -/
def wfNames : JSVal → Bool
  | .record _ _ fields => nodupStr (fields.map Prod.fst) && wfNamesF fields
  | .arr _ _ elems => wfNamesL elems
  | _ => true

/-- Name well-formedness of a field list. -/
def wfNamesF : List (String × JSVal) → Bool
  | [] => true
  | (_, v) :: rest => wfNames v && wfNamesF rest

/-- Name well-formedness of an element list. -/
def wfNamesL : List JSVal → Bool
  | [] => true
  | v :: rest => wfNames v && wfNamesL rest

end

mutual

/-- Whether the encoder's traversal of the value reaches an unregistered
record owning the sentinel property name. Registered objects are
remote-style and their contents are never traversed, so they do not
count. -/
def reachesReserved (reg : Registry) : JSVal → Bool
  | .record oid _ fields =>
    (lookupNS reg oid).isNone &&
      ((fields.map Prod.fst).contains QCLASS || reachesReservedF reg fields)
  | .arr oid _ elems =>
    (lookupNS reg oid).isNone && reachesReservedL reg elems
  | _ => false

/-- Reachability of a reserved-name record through a field list. -/
def reachesReservedF (reg : Registry) : List (String × JSVal) → Bool
  | [] => false
  | (_, v) :: rest => reachesReserved reg v || reachesReservedF reg rest

/-- Reachability of a reserved-name record through an element list. -/
def reachesReservedL (reg : Registry) : List JSVal → Bool
  | [] => false
  | v :: rest => reachesReserved reg v || reachesReservedL reg rest

end

mutual

/-- No copy-shaped object (record, array, error) of the value is
registered as a remotable. In a real heap this always holds: the
`Remotable` constructor only registers all-method objects, so registry
entries never point at copy-shaped objects. -/
def regOK (reg : Registry) : JSVal → Bool
  | .record oid _ fields => (lookupNS reg oid).isNone && regOKF reg fields
  | .arr oid _ elems => (lookupNS reg oid).isNone && regOKL reg elems
  | .errObj oid _ _ _ => (lookupNS reg oid).isNone
  | _ => true

/-- Registry sanity of a field list. -/
def regOKF (reg : Registry) : List (String × JSVal) → Bool
  | [] => true
  | (_, v) :: rest => regOK reg v && regOKF reg rest

/-- Registry sanity of an element list. -/
def regOKL (reg : Registry) : List JSVal → Bool
  | [] => true
  | v :: rest => regOK reg v && regOKL reg rest

end

/-- Boolean string prefix test (the kernel-reducible model of
`String.startsWith`). -/
def startsWithB (s p : String) : Bool := p.data.isPrefixOf s.data

/-- The source's `assertCanBeRemotable`: the candidate must be an object,
not an array, not null, and all of its own properties must be methods. A
non-empty record has data properties and is rejected; an error object
owns its non-method `message` property and is rejected. -/
def assertCanBeRemotable : JSVal → Except String Unit
  | .methodsObj _ _ _ => .ok ()
  | .record _ _ fields =>
    if fields.isEmpty then .ok ()
    else .error "cannot serialize objects with non-methods"
  | .promise _ _ => .ok ()
  | .arr _ _ _ => .error "Arrays cannot be pass-by-remote"
  | .nullV => .error "null cannot be pass-by-remote"
  | .errObj _ _ _ _ => .error "cannot serialize objects with non-methods"
  | _ => .error "cannot serialize non-objects"

/-- The source's `Remotable` constructor: validates the interface tag,
checks the target can be a remotable, rejects re-registration, snapshots
the method props onto the hardened target, and records the interface in
the registry. The returned value is the registered remotable. -/
def Remotable (iface : String) (props : List String) (target : JSVal)
    (reg : Registry) : Except String (JSVal × Registry) :=
  if !(iface = "Remotable" || startsWithB iface "Alleged: ") then
    .error "iface must be \x22Remotable\x22 or begin with \x22Alleged: \x22"
  else
    match assertCanBeRemotable target with
    | .error e => .error e
    | .ok () =>
      match oidOf target with
      | none => .error "cannot serialize non-objects"
      | some oid =>
        if (lookupNS reg oid).isSome then
          .error "remotable is already mapped to an interface"
        else
          let names :=
            match target with
            | .methodsObj _ _ ms => ms ++ props
            | _ => props
          let target1 := JSVal.methodsObj oid true names
          match assertCanBeRemotable target1 with
          | .error e => .error e
          | .ok () => .ok (target1, (oid, iface) :: reg)

theorem jsize_pos (v : JSVal) : 1 ≤ jsize v := by
  cases v <;> simp [jsize]

theorem passStyleOf_record_style {reg : Registry} {oid : Nat} {fr : Bool}
    {fields : List (String × JSVal)} {ps : PassStyle}
    (h : passStyleOf reg (.record oid fr fields) = .ok ps) :
    ps = .remoteStyle ∨ ps = .copyRecord := by
  simp only [passStyleOf] at h
  split_ifs at h <;> simp_all <;> tauto

theorem passStyleOf_arr_style {reg : Registry} {oid : Nat} {fr : Bool}
    {elems : List JSVal} {ps : PassStyle}
    (h : passStyleOf reg (.arr oid fr elems) = .ok ps) :
    ps = .remoteStyle ∨ ps = .copyArray := by
  simp only [passStyleOf] at h
  split_ifs at h <;> simp_all <;> tauto

theorem passStyleOf_errObj_style {reg : Registry} {oid : Nat} {fr : Bool}
    {name msg : String} {ps : PassStyle}
    (h : passStyleOf reg (.errObj oid fr name msg) = .ok ps) :
    ps = .remoteStyle ∨ ps = .copyError := by
  simp only [passStyleOf] at h
  split_ifs at h <;> simp_all <;> tauto

theorem passStyleOf_methodsObj_style {reg : Registry} {oid : Nat} {fr : Bool}
    {methods : List String} {ps : PassStyle}
    (h : passStyleOf reg (.methodsObj oid fr methods) = .ok ps) :
    ps = .remoteStyle := by
  simp only [passStyleOf] at h
  split_ifs at h <;> simp_all

theorem passStyleOf_promise_style {reg : Registry} {oid : Nat} {fr : Bool}
    {ps : PassStyle} (h : passStyleOf reg (.promise oid fr) = .ok ps) :
    ps = .remoteStyle ∨ ps = .promiseS := by
  simp only [passStyleOf] at h
  split_ifs at h <;> simp_all <;> tauto

theorem serializeSlot_state (vts : JSVal → JSVal) (v : JSVal) (oid : Nat)
    (iface : Option String) (st : EncState) :
    ((serializeSlot vts v oid iface st).2).ibids = st.ibids ∧
    ((serializeSlot vts v oid iface st).2).errorCount = st.errorCount := by
  cases hl : lookupNN st.slotMap oid <;> cases iface <;>
    simp [serializeSlot, hl]

theorem oids_lookup_sub {fields : List (String × JSVal)} {n : String}
    {w : JSVal} (hw : lookupV fields n = some w) {o : Nat}
    (ho : o ∈ oids w) : o ∈ oidsF fields := by
  induction fields with
  | nil => simp [lookupV] at hw
  | cons p rest ih =>
    obtain ⟨k, v⟩ := p
    by_cases hk : k = n
    · simp only [lookupV, hk, if_true, Option.some.injEq] at hw
      subst hw
      simp only [oidsF, List.mem_append]
      exact Or.inl ho
    · simp only [lookupV, hk, if_false] at hw
      simp only [oidsF, List.mem_append]
      exact Or.inr (ih hw)

/-- A successful encoder call only ever appends to the replacer ibid
table, and every appended entry is an object id of the encoded value. -/
theorem encode_growth (reg : Registry) (vts : JSVal → JSVal) (mn : String) :
    ∀ N : Nat,
      (∀ v st j st1, jsize v ≤ N →
        encode reg vts mn v st = .ok (j, st1) →
        ∃ δ, st1.ibids = st.ibids ++ δ ∧ ∀ o ∈ δ, o ∈ oids v) ∧
      (∀ fields names st jfs st1, fsize fields + names.length ≤ N →
        encodeNamedFields reg vts mn fields names st = .ok (jfs, st1) →
        ∃ δ, st1.ibids = st.ibids ++ δ ∧ ∀ o ∈ δ, o ∈ oidsF fields) ∧
      (∀ elems st js st1, lsize elems ≤ N →
        encodeList reg vts mn elems st = .ok (js, st1) →
        ∃ δ, st1.ibids = st.ibids ++ δ ∧ ∀ o ∈ δ, o ∈ oidsL elems) := by
  intro N
  induction N using Nat.strong_induction_on with
  | _ N IH =>
  refine ⟨?_, ?_, ?_⟩
  · intro v st j st1 hsz h
    cases v with
    | undef =>
      simp only [encode, passStyleOf, Except.ok.injEq, Prod.mk.injEq] at h
      exact ⟨[], by simp [← h.2]⟩
    | nullV =>
      simp only [encode, passStyleOf, Except.ok.injEq, Prod.mk.injEq] at h
      exact ⟨[], by simp [← h.2]⟩
    | bool b =>
      simp only [encode, passStyleOf, Except.ok.injEq, Prod.mk.injEq] at h
      exact ⟨[], by simp [← h.2]⟩
    | num n =>
      simp only [encode, passStyleOf, Except.ok.injEq, Prod.mk.injEq] at h
      exact ⟨[], by simp [← h.2]⟩
    | nan =>
      simp only [encode, passStyleOf, Except.ok.injEq, Prod.mk.injEq] at h
      exact ⟨[], by simp [← h.2]⟩
    | posInf =>
      simp only [encode, passStyleOf, Except.ok.injEq, Prod.mk.injEq] at h
      exact ⟨[], by simp [← h.2]⟩
    | negInf =>
      simp only [encode, passStyleOf, Except.ok.injEq, Prod.mk.injEq] at h
      exact ⟨[], by simp [← h.2]⟩
    | negZero =>
      simp only [encode, passStyleOf, Except.ok.injEq, Prod.mk.injEq] at h
      exact ⟨[], by simp [← h.2]⟩
    | bigint i =>
      simp only [encode, passStyleOf, Except.ok.injEq, Prod.mk.injEq] at h
      exact ⟨[], by simp [← h.2]⟩
    | str s =>
      simp only [encode, passStyleOf, Except.ok.injEq, Prod.mk.injEq] at h
      exact ⟨[], by simp [← h.2]⟩
    | symAsync =>
      simp only [encode, passStyleOf, Except.ok.injEq, Prod.mk.injEq] at h
      exact ⟨[], by simp [← h.2]⟩
    | cycleRef i =>
      simp only [encode, passStyleOf] at h
      exact absurd h (by simp)
    | record oid fr fields =>
      cases hps : passStyleOf reg (.record oid fr fields) with
      | error e =>
        simp only [encode, hps] at h
        exact absurd h (by simp)
      | ok ps =>
        rcases passStyleOf_record_style hps with hr | hr <;> subst hr <;>
          simp only [encode, hps, oidOf] at h
        · by_cases hc : st.ibids.contains oid
          · simp only [hc, if_true, Except.ok.injEq, Prod.mk.injEq] at h
            exact ⟨[], by simp [← h.2]⟩
          · simp only [hc, if_false, Bool.false_eq_true] at h
            have hpair := Except.ok.inj h
            have hst : (serializeSlot vts _ oid _ _).2 = st1 :=
              congrArg Prod.snd hpair
            refine ⟨[oid], ?_, by simp [oids]⟩
            rw [← hst, (serializeSlot_state vts _ oid _ _).1]
        · by_cases hc : st.ibids.contains oid
          · simp only [hc, if_true, Except.ok.injEq, Prod.mk.injEq] at h
            exact ⟨[], by simp [← h.2]⟩
          · simp only [hc, if_false, Bool.false_eq_true] at h
            cases henc : encodeNamedFields reg vts mn fields
                (sortNames (fields.map Prod.fst))
                { st with ibids := st.ibids ++ [oid] } with
            | error e => rw [henc] at h; exact absurd h (by simp)
            | ok p =>
              obtain ⟨jfs, st2⟩ := p
              rw [henc] at h
              simp only [Except.ok.injEq, Prod.mk.injEq] at h
              obtain ⟨-, hst⟩ := h
              have hm : fsize fields + (sortNames (fields.map Prod.fst)).length
                  ≤ N - 1 := by
                have := length_le_fsize fields
                have h2 : (sortNames (fields.map Prod.fst)).length =
                    fields.length := by rw [sortNames_length, List.length_map]
                simp only [jsize] at hsz
                omega
              have hN : N - 1 < N := by
                have := jsize_pos (.record oid fr fields)
                omega
              obtain ⟨δ, hδ, hsub⟩ := ((IH (N - 1) hN).2.1) fields _ _ _ _ hm henc
              refine ⟨oid :: δ, ?_, ?_⟩
              · rw [← hst, hδ]
                simp
              · intro o ho
                rcases List.mem_cons.mp ho with rfl | ho
                · simp [oids]
                · simp only [oids, List.mem_cons]
                  exact Or.inr (hsub o ho)
    | arr oid fr elems =>
      cases hps : passStyleOf reg (.arr oid fr elems) with
      | error e =>
        simp only [encode, hps] at h
        exact absurd h (by simp)
      | ok ps =>
        rcases passStyleOf_arr_style hps with hr | hr <;> subst hr <;>
          simp only [encode, hps, oidOf] at h
        · by_cases hc : st.ibids.contains oid
          · simp only [hc, if_true, Except.ok.injEq, Prod.mk.injEq] at h
            exact ⟨[], by simp [← h.2]⟩
          · simp only [hc, if_false, Bool.false_eq_true] at h
            have hpair := Except.ok.inj h
            have hst : (serializeSlot vts _ oid _ _).2 = st1 :=
              congrArg Prod.snd hpair
            refine ⟨[oid], ?_, by simp [oids]⟩
            rw [← hst, (serializeSlot_state vts _ oid _ _).1]
        · by_cases hc : st.ibids.contains oid
          · simp only [hc, if_true, Except.ok.injEq, Prod.mk.injEq] at h
            exact ⟨[], by simp [← h.2]⟩
          · simp only [hc, if_false, Bool.false_eq_true] at h
            cases henc : encodeList reg vts mn elems
                { st with ibids := st.ibids ++ [oid] } with
            | error e => rw [henc] at h; exact absurd h (by simp)
            | ok p =>
              obtain ⟨js2, st2⟩ := p
              rw [henc] at h
              simp only [Except.ok.injEq, Prod.mk.injEq] at h
              obtain ⟨-, hst⟩ := h
              have hm : lsize elems ≤ N - 1 := by
                simp only [jsize] at hsz
                omega
              have hN : N - 1 < N := by
                have := jsize_pos (.arr oid fr elems)
                omega
              obtain ⟨δ, hδ, hsub⟩ := ((IH (N - 1) hN).2.2) elems _ _ _ hm henc
              refine ⟨oid :: δ, ?_, ?_⟩
              · rw [← hst, hδ]
                simp
              · intro o ho
                rcases List.mem_cons.mp ho with rfl | ho
                · simp [oids]
                · simp only [oids, List.mem_cons]
                  exact Or.inr (hsub o ho)
    | errObj oid fr name msg =>
      cases hps : passStyleOf reg (.errObj oid fr name msg) with
      | error e =>
        simp only [encode, hps] at h
        exact absurd h (by simp)
      | ok ps =>
        rcases passStyleOf_errObj_style hps with hr | hr <;> subst hr <;>
          simp only [encode, hps, oidOf] at h <;>
          by_cases hc : st.ibids.contains oid
        · simp only [hc, if_true, Except.ok.injEq, Prod.mk.injEq] at h
          exact ⟨[], by simp [← h.2]⟩
        · simp only [hc, if_false, Bool.false_eq_true] at h
          have hpair := Except.ok.inj h
          have hst : (serializeSlot vts _ oid _ _).2 = st1 :=
            congrArg Prod.snd hpair
          refine ⟨[oid], ?_, by simp [oids]⟩
          rw [← hst, (serializeSlot_state vts _ oid _ _).1]
        · simp only [hc, if_true, Except.ok.injEq, Prod.mk.injEq] at h
          exact ⟨[], by simp [← h.2]⟩
        · simp only [hc, if_false, Bool.false_eq_true] at h
          simp only [Except.ok.injEq, Prod.mk.injEq] at h
          obtain ⟨-, hst⟩ := h
          exact ⟨[oid], by rw [← hst], by simp [oids]⟩
    | methodsObj oid fr methods =>
      cases hps : passStyleOf reg (.methodsObj oid fr methods) with
      | error e =>
        simp only [encode, hps] at h
        exact absurd h (by simp)
      | ok ps =>
        have hr := passStyleOf_methodsObj_style hps
        subst hr
        simp only [encode, hps, oidOf] at h
        by_cases hc : st.ibids.contains oid
        · simp only [hc, if_true, Except.ok.injEq, Prod.mk.injEq] at h
          exact ⟨[], by simp [← h.2]⟩
        · simp only [hc, if_false, Bool.false_eq_true] at h
          have hpair := Except.ok.inj h
          have hst : (serializeSlot vts _ oid _ _).2 = st1 :=
            congrArg Prod.snd hpair
          refine ⟨[oid], ?_, by simp [oids]⟩
          rw [← hst, (serializeSlot_state vts _ oid _ _).1]
    | promise oid fr =>
      cases hps : passStyleOf reg (.promise oid fr) with
      | error e =>
        simp only [encode, hps] at h
        exact absurd h (by simp)
      | ok ps =>
        rcases passStyleOf_promise_style hps with hr | hr <;> subst hr <;>
          simp only [encode, hps, oidOf] at h <;>
          by_cases hc : st.ibids.contains oid
        · simp only [hc, if_true, Except.ok.injEq, Prod.mk.injEq] at h
          exact ⟨[], by simp [← h.2]⟩
        · simp only [hc, if_false, Bool.false_eq_true] at h
          have hpair := Except.ok.inj h
          have hst : (serializeSlot vts _ oid _ _).2 = st1 :=
            congrArg Prod.snd hpair
          refine ⟨[oid], ?_, by simp [oids]⟩
          rw [← hst, (serializeSlot_state vts _ oid _ _).1]
        · simp only [hc, if_true, Except.ok.injEq, Prod.mk.injEq] at h
          exact ⟨[], by simp [← h.2]⟩
        · simp only [hc, if_false, Bool.false_eq_true] at h
          have hpair := Except.ok.inj h
          have hst : (serializeSlot vts _ oid _ _).2 = st1 :=
            congrArg Prod.snd hpair
          refine ⟨[oid], ?_, by simp [oids]⟩
          rw [← hst, (serializeSlot_state vts _ oid _ _).1]
  · intro fields names st jfs st1 hsz h
    cases names with
    | nil =>
      simp only [encodeNamedFields, Except.ok.injEq, Prod.mk.injEq] at h
      exact ⟨[], by simp [← h.2]⟩
    | cons n rest =>
      rw [encodeNamedFields] at h
      cases hw : lookupV fields n with
      | none => rw [hw] at h; exact absurd h (by simp)
      | some w =>
        rw [hw] at h
        simp only [] at h
        cases henc : encode reg vts mn w st with
        | error e =>
          rw [henc] at h
          exact absurd h (by simp)
        | ok p =>
          obtain ⟨j0, stA⟩ := p
          rw [henc] at h
          simp only [] at h
          cases hrest : encodeNamedFields reg vts mn fields rest stA with
          | error e =>
            rw [hrest] at h
            exact absurd h (by simp)
          | ok p2 =>
            obtain ⟨jrest, stB⟩ := p2
            rw [hrest] at h
            simp only [Except.ok.injEq, Prod.mk.injEq] at h
            obtain ⟨-, hst⟩ := h
            have hwlt := lookupV_jsize_lt hw
            have hN : N - 1 < N := by
              simp only [List.length_cons] at hsz
              omega
            have hm1 : jsize w ≤ N - 1 := by
              simp only [List.length_cons] at hsz
              omega
            have hm2 : fsize fields + rest.length ≤ N - 1 := by
              simp only [List.length_cons] at hsz
              omega
            obtain ⟨δ1, hδ1, hsub1⟩ := ((IH (N - 1) hN).1) w st _ _ hm1 henc
            obtain ⟨δ2, hδ2, hsub2⟩ :=
              ((IH (N - 1) hN).2.1) fields rest stA _ _ hm2 hrest
            refine ⟨δ1 ++ δ2, ?_, ?_⟩
            · rw [← hst, hδ2, hδ1, List.append_assoc]
            · intro o ho
              rcases List.mem_append.mp ho with ho | ho
              · exact oids_lookup_sub hw (hsub1 o ho)
              · exact hsub2 o ho
  · intro elems st js st1 hsz h
    cases elems with
    | nil =>
      simp only [encodeList, Except.ok.injEq, Prod.mk.injEq] at h
      exact ⟨[], by simp [← h.2]⟩
    | cons w rest =>
      rw [encodeList] at h
      cases henc : encode reg vts mn w st with
      | error e =>
        rw [henc] at h
        exact absurd h (by simp)
      | ok p =>
        obtain ⟨j0, stA⟩ := p
        rw [henc] at h
        simp only [] at h
        cases hrest : encodeList reg vts mn rest stA with
        | error e =>
          rw [hrest] at h
          exact absurd h (by simp)
        | ok p2 =>
          obtain ⟨jrest, stB⟩ := p2
          rw [hrest] at h
          simp only [Except.ok.injEq, Prod.mk.injEq] at h
          obtain ⟨-, hst⟩ := h
          have hN : N - 1 < N := by
            have := jsize_pos w
            simp only [lsize] at hsz
            omega
          have hm1 : jsize w ≤ N - 1 := by
            simp only [lsize] at hsz
            omega
          have hm2 : lsize rest ≤ N - 1 := by
            simp only [lsize] at hsz
            have := jsize_pos w
            omega
          obtain ⟨δ1, hδ1, hsub1⟩ := ((IH (N - 1) hN).1) w st _ _ hm1 henc
          obtain ⟨δ2, hδ2, hsub2⟩ := ((IH (N - 1) hN).2.2) rest stA _ _ hm2 hrest
          refine ⟨δ1 ++ δ2, ?_, ?_⟩
          · rw [← hst, hδ2, hδ1, List.append_assoc]
          · intro o ho
            simp only [oidsL, List.mem_append]
            rcases List.mem_append.mp ho with ho | ho
            · exact Or.inl (hsub1 o ho)
            · exact Or.inr (hsub2 o ho)

theorem nodupStr_iff (l : List String) : nodupStr l = true ↔ l.Nodup := by
  induction l with
  | nil => simp [nodupStr]
  | cons s rest ih =>
    simp [nodupStr, ih, List.contains_iff_exists_mem_beq]

theorem insertName_perm (n : String) (l : List String) :
    List.Perm (insertName n l) (n :: l) := by
  induction l with
  | nil => simp [insertName]
  | cons m rest ih =>
    simp only [insertName]
    by_cases h : strLeB n m
    · simp [h]
    · simp only [h, Bool.false_eq_true, if_false]
      exact (ih.cons m).trans (List.Perm.swap n m rest)

theorem sortNames_perm (l : List String) : List.Perm (sortNames l) l := by
  induction l with
  | nil => simp [sortNames]
  | cons n rest ih =>
    exact (insertName_perm n (sortNames rest)).trans (ih.cons n)

theorem lookupV_mem {fields : List (String × JSVal)} {n : String} {w : JSVal}
    (h : lookupV fields n = some w) : (n, w) ∈ fields := by
  induction fields with
  | nil => simp [lookupV] at h
  | cons p rest ih =>
    obtain ⟨k, v⟩ := p
    by_cases hk : k = n
    · simp only [lookupV, hk, if_true, Option.some.injEq] at h
      subst h hk
      exact List.mem_cons_self _ _
    · simp only [lookupV, hk, if_false] at h
      exact List.mem_cons_of_mem _ (ih h)

theorem mem_lookupV {fields : List (String × JSVal)} {n : String} {w : JSVal}
    (hnd : nodupStr (fields.map Prod.fst) = true) (h : (n, w) ∈ fields) :
    lookupV fields n = some w := by
  induction fields with
  | nil => simp at h
  | cons p rest ih =>
    obtain ⟨k, v⟩ := p
    simp only [nodupStr, List.map_cons, Bool.and_eq_true, Bool.not_eq_true'] at hnd
    rcases List.mem_cons.mp h with heq | hmem
    · obtain ⟨rfl, rfl⟩ := Prod.mk.injEq .. ▸ heq
      simp [lookupV]
    · by_cases hk : k = n
      · exfalso
        subst hk
        have : k ∈ rest.map Prod.fst := List.mem_map_of_mem Prod.fst hmem
        have hc : (rest.map Prod.fst).contains k = true :=
          List.contains_iff_exists_mem_beq.mpr ⟨k, this, by simp⟩
        rw [hnd.1] at hc
        exact Bool.false_ne_true hc
      · simp only [lookupV, hk, if_false]
        exact ih hnd.2 hmem

theorem lookupV_of_mem_names {fields : List (String × JSVal)} {n : String}
    (h : n ∈ fields.map Prod.fst) : ∃ w, lookupV fields n = some w := by
  induction fields with
  | nil => simp at h
  | cons p rest ih =>
    obtain ⟨k, v⟩ := p
    by_cases hk : k = n
    · exact ⟨v, by simp [lookupV, hk]⟩
    · simp only [List.map_cons, List.mem_cons] at h
      rcases h with rfl | h

      · exact absurd rfl hk
      · obtain ⟨w, hw⟩ := ih h
        exact ⟨w, by simp [lookupV, hk, hw]⟩

theorem wfNamesF_mem {fields : List (String × JSVal)} {n : String} {w : JSVal}
    (hwf : wfNamesF fields = true) (h : (n, w) ∈ fields) : wfNames w = true := by
  induction fields with
  | nil => simp at h
  | cons p rest ih =>
    simp only [wfNamesF, Bool.and_eq_true] at hwf
    rcases List.mem_cons.mp h with heq | hmem
    · cases heq
      exact hwf.1
    · exact ih hwf.2 hmem

theorem pureFields_mem {reg : Registry} {fields : List (String × JSVal)}
    {n : String} {w : JSVal} (hp : pureFields reg fields = true)
    (h : (n, w) ∈ fields) : pureVal reg w = true := by
  induction fields with
  | nil => simp at h
  | cons p rest ih =>
    simp only [pureFields, Bool.and_eq_true] at hp
    rcases List.mem_cons.mp h with heq | hmem
    · cases heq
      exact hp.1
    · exact ih hp.2 hmem

theorem oidsF_nodup_lookup {fields : List (String × JSVal)} {n : String}
    {w : JSVal} (hnd : (oidsF fields).Nodup) (h : lookupV fields n = some w) :
    (oids w).Nodup := by
  induction fields with
  | nil => simp [lookupV] at h
  | cons p rest ih =>
    obtain ⟨k, v⟩ := p
    simp only [oidsF, List.nodup_append] at hnd
    by_cases hk : k = n
    · simp only [lookupV, hk, if_true, Option.some.injEq] at h
      subst h
      exact hnd.1
    · simp only [lookupV, hk, if_false] at h
      exact ih hnd.2.1 h

theorem lookup_oids_disjoint {fields : List (String × JSVal)}
    (hnd : nodupStr (fields.map Prod.fst) = true)
    (hoid : (oidsF fields).Nodup) {n n' : String} {w w' : JSVal}
    (hne : n ≠ n') (hw : lookupV fields n = some w)
    (hw' : lookupV fields n' = some w') :
    ∀ o ∈ oids w, o ∉ oids w' := by
  induction fields with
  | nil => simp [lookupV] at hw
  | cons p rest ih =>
    obtain ⟨k, v⟩ := p
    simp only [nodupStr, List.map_cons, Bool.and_eq_true, Bool.not_eq_true'] at hnd
    simp only [oidsF, List.nodup_append] at hoid
    by_cases hk : k = n
    · subst hk
      simp only [lookupV, if_true, Option.some.injEq] at hw
      subst hw
      have hk' : ¬(k = n') := fun he => hne (he ▸ rfl)
      simp only [lookupV, hk', if_false] at hw'
      intro o ho
      exact fun hmem => hoid.2.2 ho (oids_lookup_sub hw' hmem)
    · simp only [lookupV, hk, if_false] at hw
      by_cases hk' : k = n'
      · subst hk'
        simp only [lookupV, if_true, Option.some.injEq] at hw'
        subst hw'
        intro o ho hmem
        exact hoid.2.2 hmem (oids_lookup_sub hw ho)
      · simp only [lookupV, hk', if_false] at hw'
        exact ih hnd.2 hoid.2.1 hw hw'

theorem reachesReservedF_exists {reg : Registry}
    {fields : List (String × JSVal)}
    (h : reachesReservedF reg fields = true) :
    ∃ p ∈ fields, reachesReserved reg p.2 = true := by
  induction fields with
  | nil => simp [reachesReservedF] at h
  | cons p rest ih =>
    simp only [reachesReservedF, Bool.or_eq_true] at h
    rcases h with h | h
    · exact ⟨p, List.mem_cons_self _ _, h⟩
    · obtain ⟨q, hq, hr⟩ := ih h
      exact ⟨q, List.mem_cons_of_mem _ hq, hr⟩

theorem contains_eq_false_nat {l : List Nat} {a : Nat} (h : a ∉ l) :
    l.contains a = false := by
  rw [← Bool.not_eq_true]
  intro hc
  obtain ⟨b, hb, he⟩ := List.contains_iff_exists_mem_beq.mp hc
  exact h ((eq_of_beq he).symm ▸ hb)

theorem reachesReservedF_ne_nil {reg : Registry}
    {fields : List (String × JSVal)}
    (h : reachesReservedF reg fields = true) : fields ≠ [] := by
  intro he
  subst he
  simp [reachesReservedF] at h

/-- The encoder fails on every root from which its traversal reaches an
unregistered record owning the sentinel property name, provided the root
models a JS value graph: unique property names per record and, in this
unaliased fragment, pairwise distinct object ids. -/
theorem encode_reserved_fails (reg : Registry) (vts : JSVal → JSVal)
    (mn : String) :
    ∀ N : Nat,
      (∀ v st, jsize v ≤ N → reachesReserved reg v = true →
        wfNames v = true → (oids v).Nodup → (∀ o ∈ oids v, o ∉ st.ibids) →
        ∀ j st1, encode reg vts mn v st ≠ .ok (j, st1)) ∧
      (∀ fields names st, fsize fields + names.length ≤ N →
        nodupStr (fields.map Prod.fst) = true → (oidsF fields).Nodup →
        wfNamesF fields = true → names.Nodup →
        (∃ n ∈ names, ∃ w, lookupV fields n = some w ∧
          reachesReserved reg w = true) →
        (∀ n' ∈ names, ∀ w', lookupV fields n' = some w' →
          ∀ o ∈ oids w', o ∉ st.ibids) →
        ∀ res, encodeNamedFields reg vts mn fields names st ≠ .ok res) ∧
      (∀ elems st, lsize elems ≤ N →
        reachesReservedL reg elems = true → wfNamesL elems = true →
        (oidsL elems).Nodup → (∀ o ∈ oidsL elems, o ∉ st.ibids) →
        ∀ res, encodeList reg vts mn elems st ≠ .ok res) := by
  intro N
  induction N using Nat.strong_induction_on with
  | _ N IH =>
  refine ⟨?_, ?_, ?_⟩
  · intro v st hsz hrr hwf hnd hfresh j st1 h
    cases v with
    | record oid fr fields =>
      simp only [reachesReserved, Bool.and_eq_true, Bool.or_eq_true] at hrr
      obtain ⟨hregn, hq⟩ := hrr
      have hregn2 : lookupNS reg oid = none :=
        Option.isNone_iff_eq_none.mp hregn
      by_cases hqm : QCLASS ∈ fields.map Prod.fst
      · have hps : passStyleOf reg (.record oid fr fields) =
            .error "property \x22@qclass\x22 reserved" := by
          simp [passStyleOf, hregn2, hqm]
        simp only [encode, hps] at h
        exact absurd h (by simp)
      · rcases hq with hq | hf
        · exact hqm (by simpa using hq)
        · cases fr with
          | false =>
            have hps : passStyleOf reg (.record oid false fields) =
                .error "cannot pass non-frozen objects. Use harden()" := by
              simp [passStyleOf, hregn2, hqm]
            simp only [encode, hps] at h
            exact absurd h (by simp)
          | true =>
            have hne : fields ≠ [] := reachesReservedF_ne_nil hf
            have hps : passStyleOf reg (.record oid true fields) =
                .ok .copyRecord := by
              simp [passStyleOf, hregn2, hqm, hne]
            simp only [encode, hps, oidOf] at h
            have hoidf : oid ∉ st.ibids := hfresh oid (by simp [oids])
            have hc : st.ibids.contains oid = false :=
              contains_eq_false_nat hoidf
            simp only [hc, Bool.false_eq_true, if_false] at h
            simp only [wfNames, Bool.and_eq_true] at hwf
            simp only [oids, List.nodup_cons] at hnd
            cases henc : encodeNamedFields reg vts mn fields
                (sortNames (fields.map Prod.fst))
                { st with ibids := st.ibids ++ [oid] } with
            | error e => rw [henc] at h; exact absurd h (by simp)
            | ok res =>
              refine absurd henc (((IH (N - 1) ?_).2.1) fields _ _ ?_
                hwf.1 hnd.2 hwf.2 ?_ ?_ ?_ res)
              · have := jsize_pos (JSVal.record oid true fields)
                omega
              · have h1 := length_le_fsize fields
                have h2 : (sortNames (fields.map Prod.fst)).length =
                    fields.length := by rw [sortNames_length, List.length_map]
                simp only [jsize] at hsz
                omega
              · exact ((sortNames_perm _).nodup_iff).mpr
                  ((nodupStr_iff _).mp hwf.1)
              · obtain ⟨p, hpmem, hpr⟩ := reachesReservedF_exists hf
                obtain ⟨k, w⟩ := p
                refine ⟨k, ?_, w, mem_lookupV hwf.1 hpmem, hpr⟩
                exact ((sortNames_perm _).mem_iff).mpr
                  (List.mem_map_of_mem Prod.fst hpmem)
              · intro n' hn' w' hw' o ho
                have hsub : o ∈ oidsF fields := oids_lookup_sub hw' ho
                simp only [EncState.mk.injEq]
                simp only [List.mem_append, List.mem_singleton]
                rintro (hin | rfl)
                · exact hfresh o (by simp [oids, hsub]) hin
                · exact hnd.1 hsub
    | arr oid fr elems =>
      simp only [reachesReserved, Bool.and_eq_true] at hrr
      obtain ⟨hregn, hl⟩ := hrr
      have hregn2 : lookupNS reg oid = none :=
        Option.isNone_iff_eq_none.mp hregn
      cases fr with
      | false =>
        have hps : passStyleOf reg (.arr oid false elems) =
            .error "cannot pass non-frozen objects. Use harden()" := by
          simp [passStyleOf, hregn2]
        simp only [encode, hps] at h
        exact absurd h (by simp)
      | true =>
        have hps : passStyleOf reg (.arr oid true elems) = .ok .copyArray := by
          simp [passStyleOf, hregn2]
        simp only [encode, hps, oidOf] at h
        have hoidf : oid ∉ st.ibids := hfresh oid (by simp [oids])
        have hc : st.ibids.contains oid = false := contains_eq_false_nat hoidf
        simp only [hc, Bool.false_eq_true, if_false] at h
        simp only [wfNames] at hwf
        simp only [oids, List.nodup_cons] at hnd
        cases henc : encodeList reg vts mn elems
            { st with ibids := st.ibids ++ [oid] } with
        | error e => rw [henc] at h; exact absurd h (by simp)
        | ok res =>
          refine absurd henc (((IH (N - 1) ?_).2.2) elems _ ?_ hl hwf hnd.2
            ?_ res)
          · have := jsize_pos (JSVal.arr oid true elems)
            omega
          · simp only [jsize] at hsz
            omega
          · intro o ho
            simp only [List.mem_append, List.mem_singleton]
            rintro (hin | rfl)
            · exact hfresh o (by simp [oids, ho]) hin
            · exact hnd.1 ho
    | _ => simp [reachesReserved] at hrr
  · intro fields names st hsz hnd hoids hwfF hnames hex hfresh res h
    cases names with
    | nil =>
      obtain ⟨n, hn, -⟩ := hex
      simp at hn
    | cons n rest =>
      rw [encodeNamedFields] at h
      cases hw : lookupV fields n with
      | none =>
        rw [hw] at h
        simp only [] at h
        exact absurd h (by simp)
      | some w =>
        rw [hw] at h
        simp only [] at h
        have hszw := lookupV_jsize_lt hw
        by_cases hbad : reachesReserved reg w = true
        · cases henc : encode reg vts mn w st with
          | error e => rw [henc] at h; exact absurd h (by simp)
          | ok p =>
            obtain ⟨j0, stA⟩ := p
            refine absurd henc (((IH (N - 1) ?_).1) w st ?_ hbad
              (wfNamesF_mem hwfF (lookupV_mem hw))
              (oidsF_nodup_lookup hoids hw)
              (hfresh n (List.mem_cons_self _ _) w hw) j0 stA)
            · simp only [List.length_cons] at hsz
              omega
            · simp only [List.length_cons] at hsz
              omega
        · obtain ⟨n0, hn0, w0, hw0, hr0⟩ := hex
          have hn0rest : n0 ∈ rest := by
            rcases List.mem_cons.mp hn0 with rfl | hmem
            · rw [hw0] at hw
              cases hw
              exact absurd hr0 hbad
            · exact hmem
          cases henc : encode reg vts mn w st with
          | error e => rw [henc] at h; exact absurd h (by simp)
          | ok p =>
            obtain ⟨j0, stA⟩ := p
            rw [henc] at h
            simp only [] at h
            cases hrest : encodeNamedFields reg vts mn fields rest stA with
            | error e => rw [hrest] at h; exact absurd h (by simp)
            | ok res2 =>
              have hN : N - 1 < N := by
                simp only [List.length_cons] at hsz
                have := jsize_pos w
                omega
              obtain ⟨δ, hδ, hδsub⟩ := ((encode_growth reg vts mn (N - 1)).1)
                w st j0 stA (by simp only [List.length_cons] at hsz; omega) henc
              refine absurd hrest (((IH (N - 1) hN).2.1) fields rest stA ?_
                hnd hoids hwfF (List.nodup_cons.mp hnames).2
                ⟨n0, hn0rest, w0, hw0, hr0⟩ ?_ res2)
              · simp only [List.length_cons] at hsz
                have := jsize_pos w
                omega
              · intro n' hn' w' hw' o ho
                rw [hδ]
                simp only [List.mem_append]
                rintro (hin | hδin)
                · exact hfresh n' (List.mem_cons_of_mem _ hn') w' hw' o ho hin
                · have hne : n' ≠ n := by
                    rintro rfl
                    exact (List.nodup_cons.mp hnames).1 hn'
                  exact lookup_oids_disjoint hnd hoids hne hw' hw o ho
                    (hδsub o hδin)
  · intro elems st hsz hrrL hwfL hndL hfresh res h
    cases elems with
    | nil => simp [reachesReservedL] at hrrL
    | cons w rest =>
      rw [encodeList] at h
      simp only [reachesReservedL, Bool.or_eq_true] at hrrL
      simp only [wfNamesL, Bool.and_eq_true] at hwfL
      simp only [oidsL, List.nodup_append] at hndL
      by_cases hbad : reachesReserved reg w = true
      · cases henc : encode reg vts mn w st with
        | error e => rw [henc] at h; exact absurd h (by simp)
        | ok p =>
          obtain ⟨j0, stA⟩ := p
          refine absurd henc (((IH (N - 1) ?_).1) w st ?_ hbad hwfL.1 hndL.1
            (fun o ho => hfresh o (by simp [oidsL, ho])) j0 stA)
          · simp only [lsize] at hsz
            omega
          · simp only [lsize] at hsz
            omega
      · have hrest0 : reachesReservedL reg rest = true := by
          rcases hrrL with hh | hh
          · exact absurd hh hbad
          · exact hh
        cases henc : encode reg vts mn w st with
        | error e => rw [henc] at h; exact absurd h (by simp)
        | ok p =>
          obtain ⟨j0, stA⟩ := p
          rw [henc] at h
          simp only [] at h
          cases hrest : encodeList reg vts mn rest stA with
          | error e => rw [hrest] at h; exact absurd h (by simp)
          | ok res2 =>
            have hN : N - 1 < N := by
              simp only [lsize] at hsz
              have := jsize_pos w
              omega
            obtain ⟨δ, hδ, hδsub⟩ := ((encode_growth reg vts mn (N - 1)).1)
              w st j0 stA (by simp only [lsize] at hsz; omega) henc
            refine absurd hrest (((IH (N - 1) hN).2.2) rest stA ?_ hrest0
              hwfL.2 hndL.2.1 ?_ res2)
            · simp only [lsize] at hsz
              have := jsize_pos w
              omega
            · intro o ho
              rw [hδ]
              simp only [List.mem_append]
              rintro (hin | hδin)
              · exact hfresh o (by simp [oidsL, ho]) hin
              · exact hndL.2.2 (hδsub o hδin) ho

/-- C5: classification fails with the reserved-name error on every
unregistered record owning the sentinel property name '@qclass', and
serialize fails on every root whose traversal reaches such a record (in
the unaliased, name-wellformed value fragment). -/
theorem reserved_qclass_classification_and_serialize_fail :
    (∀ (reg : Registry) (oid : Nat) (frozen : Bool)
        (fields : List (String × JSVal)), lookupNS reg oid = none →
        QCLASS ∈ fields.map Prod.fst →
        passStyleOf reg (.record oid frozen fields) =
          .error "property \x22@qclass\x22 reserved") ∧
    (∀ (reg : Registry) (vts : JSVal → JSVal) (mn : String) (v : JSVal),
        reachesReserved reg v = true → wfNames v = true →
        (oids v).Nodup → ∃ e, serialize reg vts mn v = .error e) := by
  constructor
  · intro reg oid frozen fields hreg hq
    simp [passStyleOf, hreg, hq]
  · intro reg vts mn v hrr hwf hnd
    cases henc : encode reg vts mn v initEncState with
    | error e => exact ⟨e, by simp [serialize, serializeTree, henc]⟩
    | ok p =>
      obtain ⟨j, st1⟩ := p
      exact absurd henc (((encode_reserved_fails reg vts mn (jsize v)).1) v
        initEncState le_rfl hrr hwf hnd (by simp [initEncState]) j st1)

/-- Witness for C5: the record with the own property '@qclass' fails
classification with the reserved-name error, and serializing a frozen
record containing it fails. -/
theorem reserved_qclass_fail_witness :
    passStyleOf [] (.record 4 true [("@qclass", .num 1)]) =
      .error "property \x22@qclass\x22 reserved" ∧
    ∃ e, serialize [] defaultValToSlot "anon-marshal"
      (.record 1 true [("k", .record 4 true [("@qclass", .num 1)])]) =
        .error e :=
  ⟨reserved_qclass_classification_and_serialize_fail.1 [] 4 true
     [("@qclass", .num 1)] rfl (by simp [QCLASS]),
   reserved_qclass_classification_and_serialize_fail.2 [] defaultValToSlot
     "anon-marshal" (.record 1 true [("k", .record 4 true [("@qclass", .num 1)])])
     (by decide) (by decide) (by decide)⟩

theorem digitVal_digitChar {d : Nat} (h : d < 10) :
    digitVal (digitChar d) = some d := by
  interval_cases d <;> decide

theorem digitChar_ne_neg {d : Nat} (h : d < 10) : digitChar d ≠ '-' := by
  interval_cases d <;> decide

theorem natDigitsAux_fuel : ∀ n f1 f2, n < f1 → n < f2 →
    natDigitsAux f1 n = natDigitsAux f2 n := by
  intro n
  induction n using Nat.strong_induction_on with
  | _ n IH =>
  intro f1 f2 h1 h2
  match f1, f2 with
  | a + 1, b + 1 =>
    by_cases hd : n < 10
    · simp [natDigitsAux, hd]
    · simp only [natDigitsAux, hd, if_false]
      have hlt : n / 10 < n := Nat.div_lt_self (by omega) (by omega)
      rw [IH (n / 10) hlt a b (by omega) (by omega)]

theorem parseNatAux_append (acc : Nat) (ds1 ds2 : List Char) :
    parseNatAux acc (ds1 ++ ds2) =
      match parseNatAux acc ds1 with
      | some a => parseNatAux a ds2
      | none => none := by
  induction ds1 generalizing acc with
  | nil => simp [parseNatAux]
  | cons c rest ih =>
    simp only [List.cons_append, parseNatAux]
    cases digitVal c with
    | none => simp
    | some d => simp [ih]

theorem parseNatAux_natDigits : ∀ n acc,
    parseNatAux acc (natDigitsAux (n + 1) n) =
      some (acc * 10 ^ (natDigitsAux (n + 1) n).length + n) := by
  intro n
  induction n using Nat.strong_induction_on with
  | _ n IH =>
  intro acc
  by_cases hd : n < 10
  · simp [natDigitsAux, hd, parseNatAux, digitVal_digitChar hd]
  · have hlt : n / 10 < n := Nat.div_lt_self (by omega) (by omega)
    have hstep : natDigitsAux (n + 1) n =
        natDigitsAux (n / 10 + 1) (n / 10) ++ [digitChar (n % 10)] := by
      have h1 : natDigitsAux (n + 1) n =
          natDigitsAux n (n / 10) ++ [digitChar (n % 10)] := by
        simp [natDigitsAux, hd]
      rw [h1, natDigitsAux_fuel (n / 10) n (n / 10 + 1) (by omega) (by omega)]
    rw [hstep, parseNatAux_append, IH (n / 10) hlt acc]
    have hm : n % 10 < 10 := Nat.mod_lt _ (by omega)
    simp only [parseNatAux, digitVal_digitChar hm]
    rw [List.length_append, List.length_singleton]
    congr 1
    have := Nat.div_add_mod n 10
    rw [pow_succ]
    ring_nf
    omega

theorem natDigitsAux_ne_nil (n : Nat) : natDigitsAux (n + 1) n ≠ [] := by
  by_cases hd : n < 10
  · simp [natDigitsAux, hd]
  · simp [natDigitsAux, hd]

theorem natDigitsAux_head_digit (n : Nat) :
    ∀ c ∈ natDigitsAux (n + 1) n, ∃ d, d < 10 ∧ c = digitChar d := by
  induction n using Nat.strong_induction_on with
  | _ n IH =>
  intro c hc
  by_cases hd : n < 10
  · simp [natDigitsAux, hd] at hc
    exact ⟨n, hd, hc⟩
  · simp only [natDigitsAux, hd, if_false] at hc
    rw [natDigitsAux_fuel (n / 10) n (n / 10 + 1) (by omega) (by omega)] at hc
    rcases List.mem_append.mp hc with hmem | hmem
    · exact IH (n / 10) (Nat.div_lt_self (by omega) (by omega)) c hmem
    · simp at hmem
      exact ⟨n % 10, Nat.mod_lt _ (by omega), hmem⟩

theorem parseNatDigits_natRepr (n : Nat) :
    parseNatDigits (natDigitsAux (n + 1) n) = some n := by
  cases he : natDigitsAux (n + 1) n with
  | nil => exact absurd he (natDigitsAux_ne_nil n)
  | cons c cs =>
    have := parseNatAux_natDigits n 0
    rw [he] at this
    simp only [Nat.zero_mul, Nat.zero_add] at this
    simpa [parseNatDigits] using this

theorem intParse_intRepr (i : Int) : intParse (intRepr i) = some i := by
  by_cases hneg : i < 0
  · have hrepr : intRepr i = "-" ++ natRepr i.natAbs := by
      simp [intRepr, hneg]
    rw [hrepr]
    have hdata : ("-" ++ natRepr i.natAbs).data =
        '-' :: natDigitsAux (i.natAbs + 1) i.natAbs := by
      simp [natRepr, String.data_append]
    simp only [intParse, hdata, parseNatDigits_natRepr, Option.map_some']
    simp [abs_of_neg hneg]
  · have hrepr : intRepr i = natRepr i.natAbs := by
      simp [intRepr, hneg]
    rw [hrepr]
    cases he : natDigitsAux (i.natAbs + 1) i.natAbs with
    | nil => exact absurd he (natDigitsAux_ne_nil _)
    | cons c cs =>
      obtain ⟨d, hd, rfl⟩ := natDigitsAux_head_digit i.natAbs c
        (he ▸ List.mem_cons_self c cs)
      have hdata : (natRepr i.natAbs).data = digitChar d :: cs := by
        simp [natRepr, he]
      have hp := parseNatDigits_natRepr i.natAbs
      rw [he] at hp
      simp only [intParse, hdata]
      have hne := digitChar_ne_neg hd
      rw [show (match digitChar d :: cs with
            | '-' :: rest => (parseNatDigits rest).map (fun n => -(n : Int))
            | cs => (parseNatDigits cs).map (fun n => (n : Int))) =
          (parseNatDigits (digitChar d :: cs)).map (fun n => (n : Int)) from by
        split
        · rename_i heq
          rw [List.cons.injEq] at heq
          exact absurd heq.1 hne
        · rfl]
      rw [hp]
      simp [Int.natAbs_of_nonneg (not_lt.mp hneg)]

theorem fieldsSub_of_forall {wfs fields : List (String × JSVal)}
    (h : ∀ p ∈ wfs, ∃ x, lookupV fields p.1 = some x ∧ structEq p.2 x = true) :
    fieldsSub wfs fields = true := by
  induction wfs with
  | nil => simp [fieldsSub]
  | cons p rest ih =>
    obtain ⟨n, w⟩ := p
    obtain ⟨x, hx, hs⟩ := h (n, w) (List.mem_cons_self _ _)
    simp only [fieldsSub, hx, hs, Bool.and_eq_true, true_and]
    exact ih (fun q hq => h q (List.mem_cons_of_mem _ hq))

theorem lookupF_none_of_not_mem {jfs : List (String × JSON)} {n : String}
    (h : n ∉ jfs.map Prod.fst) : lookupF jfs n = none := by
  induction jfs with
  | nil => simp [lookupF]
  | cons p rest ih =>
    obtain ⟨k, v⟩ := p
    simp only [List.map_cons, List.mem_cons, not_or] at h
    have hk : ¬(k = n) := fun he => h.1 he.symm
    simp only [lookupF, hk, if_false]
    exact ih h.2

theorem pureFields_lookup {reg : Registry} {fields : List (String × JSVal)}
    {n : String} {w : JSVal} (hp : pureFields reg fields = true)
    (h : lookupV fields n = some w) : pureVal reg w = true :=
  pureFields_mem hp (lookupV_mem h)

theorem lt_of_getElem_some {α : Type} {l : List α} {k : Nat} {a : α}
    (h : l[k]? = some a) : k < l.length := by
  by_contra hk
  rw [List.getElem?_eq_none_iff.mpr (Nat.le_of_not_lt hk)] at h
  exact absurd h (by simp)

theorem mem_of_getElem_some {α : Type} {l : List α} {k : Nat} {a : α}
    (h : l[k]? = some a) : a ∈ l := by
  obtain ⟨hlt, rfl⟩ := List.getElem?_eq_some_iff.mp h
  exact List.getElem_mem hlt

theorem mem_of_contains_nat {l : List Nat} {a : Nat}
    (h : l.contains a = true) : a ∈ l := by
  obtain ⟨b, hb, he⟩ := List.contains_iff_exists_mem_beq.mp h
  exact (eq_of_beq he) ▸ hb

theorem idxOfNat_lt {l : List Nat} {o : Nat} (h : o ∈ l) :
    idxOfNat l o < l.length := by
  induction l with
  | nil => simp at h
  | cons k rest ih =>
    by_cases hk : k = o
    · simp [idxOfNat, hk]
    · rcases List.mem_cons.mp h with rfl | hm
      · exact absurd rfl hk
      · simp only [idxOfNat, hk, if_false, List.length_cons]
        have := ih hm
        omega

theorem idxOfNat_getElem {l : List Nat} {o : Nat} (h : o ∈ l) :
    l[idxOfNat l o]? = some o := by
  induction l with
  | nil => simp at h
  | cons k rest ih =>
    by_cases hk : k = o
    · simp [idxOfNat, hk]
    · rcases List.mem_cons.mp h with rfl | hm
      · exact absurd rfl hk
      · simp only [idxOfNat, hk, if_false]
        have h1 : 1 + idxOfNat rest o = idxOfNat rest o + 1 := by omega
        rw [h1]
        simpa using ih hm

theorem allOccs_lookup_sub {fields : List (String × JSVal)} {n : String}
    {w : JSVal} (hw : lookupV fields n = some w) {q : Nat × JSVal}
    (hq : q ∈ allOccs w) : q ∈ allOccsF fields := by
  induction fields with
  | nil => simp [lookupV] at hw
  | cons p rest ih =>
    obtain ⟨k, v⟩ := p
    by_cases hk : k = n
    · simp only [lookupV, hk, if_true, Option.some.injEq] at hw
      subst hw
      simp only [allOccsF, List.mem_append]
      exact Or.inl hq
    · simp only [lookupV, hk, if_false] at hw
      simp only [allOccsF, List.mem_append]
      exact Or.inr (ih hw)

theorem jsize_le_lsize {elems : List JSVal} {w : JSVal} (h : w ∈ elems) :
    jsize w ≤ lsize elems := by
  induction elems with
  | nil => simp at h
  | cons a rest ih =>
    rcases List.mem_cons.mp h with rfl | h
    · simp only [lsize]
      omega
    · have := ih h
      simp only [lsize]
      omega

/-- Reviving an ibid envelope whose index is the replacer table's index of
an already entered object id: under the table-matching invariants the
referenced reviver entry is finished (an unfinished hit would make the
current value a proper subterm of itself, impossible in an oid-consistent
heap), the stored value is structurally equal to the envelope's referent,
and the reviver state is untouched — for every cycle policy. -/
theorem ibid_envelope_revive {v : JSVal} {st : EncState} {B : Nat}
    {env : List (Nat × JSVal)}
    (hB : jsize v ≤ B)
    (hconsenv : ∀ q ∈ allOccs v, ∀ p ∈ env, p.1 = q.1 → p.2 = q.2)
    (hmapenv : env.map Prod.fst = st.ibids)
    (oid : Nat) (hocc : (oid, v) ∈ allOccs v) (hmem : oid ∈ st.ibids)
    (s2v : JSVal → Option JSON → JSVal) (slots : List JSVal)
    (policy : String) (dst : DecState)
    (hdlen : dst.ibids.length = st.ibids.length)
    (hINV2 : ∀ (k : Nat) (w : JSVal), dst.ibids[k]? = some (some w) →
      ∃ p : Nat × JSVal, env[k]? = some p ∧ structEq w p.2 = true)
    (hINV3 : ∀ k : Nat, dst.ibids[k]? = some none →
      ∃ p : Nat × JSVal, env[k]? = some p ∧ B < jsize p.2) :
    ∃ w, fullRevive s2v slots policy
        (.obj [(QCLASS, .str "ibid"),
               ("index", .num (idxOfNat st.ibids oid))]) dst =
        .ok (w, dst) ∧ structEq w v = true := by
  have hlt : idxOfNat st.ibids oid < st.ibids.length := idxOfNat_lt hmem
  have hsget : st.ibids[idxOfNat st.ibids oid]? = some oid :=
    idxOfNat_getElem hmem
  have hmget : (env.map Prod.fst)[idxOfNat st.ibids oid]? = some oid := by
    rw [hmapenv]
    exact hsget
  rw [List.getElem?_map] at hmget
  obtain ⟨p, hp, hp1⟩ := Option.map_eq_some'.mp hmget
  have hpv : p.2 = v := hconsenv (oid, v) hocc p (mem_of_getElem_some hp) hp1
  have hdlt : idxOfNat st.ibids oid < dst.ibids.length := by
    rw [hdlen]
    exact hlt
  cases hdk : dst.ibids[idxOfNat st.ibids oid]? with
  | none =>
    have := List.getElem?_eq_none_iff.mp hdk
    omega
  | some entry =>
    cases entry with
    | none =>
      obtain ⟨p', hp', hBp⟩ := hINV3 _ hdk
      rw [hp] at hp'
      obtain rfl : p = p' := Option.some.inj hp'
      rw [hpv] at hBp
      omega
    | some w =>
      obtain ⟨p', hp', hseq⟩ := hINV2 _ w hdk
      rw [hp] at hp'
      obtain rfl : p = p' := Option.some.inj hp'
      refine ⟨w, ?_, by rw [← hpv]; exact hseq⟩
      have hg : dst.ibids.get?
          ((idxOfNat st.ibids oid : Int)).toNat = some (some w) := by
        rw [Int.toNat_natCast, List.get?_eq_getElem?]
        exact hdk
      have hnn : ¬((idxOfNat st.ibids oid : Int) < 0) := by omega
      simp [fullRevive, lookupF, QCLASS, ibidGet, hg, hnn, hdk]

set_option maxHeartbeats 4000000 in
/-- The encoder succeeds on every pure-data value drawn from an
oid-consistent heap (two object occurrences with the same object id are
the same object), touches neither the slot list nor the slot map, grows
the replacer ibid table by the ids of the value's newly entered
occurrences, and its raw tree revives — against any slots, any cycle
policy, and any reviver state whose ibid table matches the replacer's —
into a value structurally equal to the input, reproducing the table
match. Shared subobjects round-trip through the ibid encode/decode path;
the cycle policy is never consulted because an oid-consistent acyclic
heap never dereferences an unfinished entry. -/
theorem encode_pure_roundtrip (reg : Registry) (vts : JSVal → JSVal)
    (mn : String) :
    ∀ N : Nat,
      (∀ (v : JSVal) (st : EncState) (B : Nat)
          (env : List (Nat × JSVal)),
        jsize v ≤ N → jsize v ≤ B → pureVal reg v = true →
        (∀ p ∈ allOccs v, ∀ q ∈ allOccs v, p.1 = q.1 → p.2 = q.2) →
        (∀ q ∈ allOccs v, ∀ p ∈ env, p.1 = q.1 → p.2 = q.2) →
        env.map Prod.fst = EncState.ibids st →
        ∃ j st1 δenv, encode reg vts mn v st = .ok (j, st1) ∧
          st1.slots = st.slots ∧ st1.slotMap = st.slotMap ∧
          st1.ibids = st.ibids ++ δenv.map Prod.fst ∧
          (∀ p ∈ δenv, p ∈ allOccs v) ∧
          (∀ (s2v : JSVal → Option JSON → JSVal) (slots : List JSVal)
              (policy : String) (dst : DecState),
            (DecState.ibids dst).length = (EncState.ibids st).length →
            (∀ (k : Nat) (w : JSVal), (DecState.ibids dst)[k]? = some (some w) →
              ∃ p : Nat × JSVal, env[k]? = some p ∧ structEq w p.2 = true) →
            (∀ k : Nat, (DecState.ibids dst)[k]? = some none →
              ∃ p : Nat × JSVal, env[k]? = some p ∧ B < jsize p.2) →
            ∃ w dst1, fullRevive s2v slots policy j dst = .ok (w, dst1) ∧
              structEq w v = true ∧
              dst1.ibids.length = st1.ibids.length ∧
              (∀ (k : Nat) (w2 : JSVal), dst1.ibids[k]? = some (some w2) →
                ∃ p : Nat × JSVal, (env ++ δenv)[k]? = some p ∧
                  structEq w2 p.2 = true) ∧
              (∀ k : Nat, dst1.ibids[k]? = some none →
                (DecState.ibids dst)[k]? = some none))) ∧
      (∀ (fields : List (String × JSVal)) (names : List String)
          (st : EncState) (B : Nat) (env : List (Nat × JSVal)),
        fsize fields + names.length ≤ N →
        (∀ n ∈ names, ∀ w, lookupV fields n = some w → jsize w ≤ B) →
        nodupStr (fields.map Prod.fst) = true → pureFields reg fields = true →
        (∀ p ∈ allOccsF fields, ∀ q ∈ allOccsF fields,
          p.1 = q.1 → p.2 = q.2) →
        (∀ n ∈ names, n ∈ fields.map Prod.fst) →
        (∀ q ∈ allOccsF fields, ∀ p ∈ env, p.1 = q.1 → p.2 = q.2) →
        env.map Prod.fst = EncState.ibids st →
        ∃ jfs st1 δenv, encodeNamedFields reg vts mn fields names st =
            .ok (jfs, st1) ∧
          st1.slots = st.slots ∧ st1.slotMap = st.slotMap ∧
          st1.ibids = st.ibids ++ δenv.map Prod.fst ∧
          (∀ p ∈ δenv, p ∈ allOccsF fields) ∧
          jfs.map Prod.fst = names ∧
          (∀ (s2v : JSVal → Option JSON → JSVal) (slots : List JSVal)
              (policy : String) (dst : DecState),
            (DecState.ibids dst).length = (EncState.ibids st).length →
            (∀ (k : Nat) (w : JSVal), (DecState.ibids dst)[k]? = some (some w) →
              ∃ p : Nat × JSVal, env[k]? = some p ∧ structEq w p.2 = true) →
            (∀ k : Nat, (DecState.ibids dst)[k]? = some none →
              ∃ p : Nat × JSVal, env[k]? = some p ∧ B < jsize p.2) →
            ∃ wfs dst1, fullReviveFields s2v slots policy jfs dst =
                .ok (wfs, dst1) ∧
              wfs.map Prod.fst = names ∧
              (∀ p ∈ wfs, ∃ x, lookupV fields p.1 = some x ∧
                structEq p.2 x = true) ∧
              dst1.ibids.length = st1.ibids.length ∧
              (∀ (k : Nat) (w2 : JSVal), dst1.ibids[k]? = some (some w2) →
                ∃ p : Nat × JSVal, (env ++ δenv)[k]? = some p ∧
                  structEq w2 p.2 = true) ∧
              (∀ k : Nat, dst1.ibids[k]? = some none →
                (DecState.ibids dst)[k]? = some none))) ∧
      (∀ (elems : List JSVal) (st : EncState) (B : Nat)
          (env : List (Nat × JSVal)),
        lsize elems ≤ N →
        (∀ w ∈ elems, jsize w ≤ B) →
        pureList reg elems = true →
        (∀ p ∈ allOccsL elems, ∀ q ∈ allOccsL elems,
          p.1 = q.1 → p.2 = q.2) →
        (∀ q ∈ allOccsL elems, ∀ p ∈ env, p.1 = q.1 → p.2 = q.2) →
        env.map Prod.fst = EncState.ibids st →
        ∃ js st1 δenv, encodeList reg vts mn elems st = .ok (js, st1) ∧
          st1.slots = st.slots ∧ st1.slotMap = st.slotMap ∧
          st1.ibids = st.ibids ++ δenv.map Prod.fst ∧
          (∀ p ∈ δenv, p ∈ allOccsL elems) ∧
          (∀ (s2v : JSVal → Option JSON → JSVal) (slots : List JSVal)
              (policy : String) (dst : DecState),
            (DecState.ibids dst).length = (EncState.ibids st).length →
            (∀ (k : Nat) (w : JSVal), (DecState.ibids dst)[k]? = some (some w) →
              ∃ p : Nat × JSVal, env[k]? = some p ∧ structEq w p.2 = true) →
            (∀ k : Nat, (DecState.ibids dst)[k]? = some none →
              ∃ p : Nat × JSVal, env[k]? = some p ∧ B < jsize p.2) →
            ∃ ws dst1, fullReviveElems s2v slots policy js dst =
                .ok (ws, dst1) ∧
              structEqList ws elems = true ∧
              dst1.ibids.length = st1.ibids.length ∧
              (∀ (k : Nat) (w2 : JSVal), dst1.ibids[k]? = some (some w2) →
                ∃ p : Nat × JSVal, (env ++ δenv)[k]? = some p ∧
                  structEq w2 p.2 = true) ∧
              (∀ k : Nat, dst1.ibids[k]? = some none →
                (DecState.ibids dst)[k]? = some none))) := by
  intro N
  induction N using Nat.strong_induction_on with
  | _ N IH =>
  refine ⟨?_, ?_, ?_⟩
  · intro v st B env hsz hB hpure hcons hconsenv hmapenv
    have henvlen : env.length = st.ibids.length := by
      rw [← hmapenv, List.length_map]
    cases v with
    | undef =>
      refine ⟨.obj [(QCLASS, .str "undefined")], st, [],
        by simp [encode, passStyleOf], rfl, rfl, by simp, by simp, ?_⟩
      intro s2v slots policy dst hdlen hINV2 hINV3
      exact ⟨.undef, dst, by simp [fullRevive, lookupF, QCLASS], by decide,
        hdlen, by simpa using hINV2, fun k hk => hk⟩
    | nullV =>
      refine ⟨.null, st, [], by simp [encode, passStyleOf], rfl, rfl,
        by simp, by simp, ?_⟩
      intro s2v slots policy dst hdlen hINV2 hINV3
      exact ⟨.nullV, dst, by simp [fullRevive], by decide, hdlen,
        by simpa using hINV2, fun k hk => hk⟩
    | bool b =>
      refine ⟨.bool b, st, [], by simp [encode, passStyleOf], rfl, rfl,
        by simp, by simp, ?_⟩
      intro s2v slots policy dst hdlen hINV2 hINV3
      exact ⟨.bool b, dst, by simp [fullRevive], by simp [structEq], hdlen,
        by simpa using hINV2, fun k hk => hk⟩
    | num n =>
      refine ⟨.num n, st, [], by simp [encode, passStyleOf], rfl, rfl,
        by simp, by simp, ?_⟩
      intro s2v slots policy dst hdlen hINV2 hINV3
      exact ⟨.num n, dst, by simp [fullRevive], by simp [structEq], hdlen,
        by simpa using hINV2, fun k hk => hk⟩
    | nan =>
      refine ⟨.obj [(QCLASS, .str "NaN")], st, [],
        by simp [encode, passStyleOf], rfl, rfl, by simp, by simp, ?_⟩
      intro s2v slots policy dst hdlen hINV2 hINV3
      exact ⟨.nan, dst, by simp [fullRevive, lookupF, QCLASS], by decide,
        hdlen, by simpa using hINV2, fun k hk => hk⟩
    | posInf =>
      refine ⟨.obj [(QCLASS, .str "Infinity")], st, [],
        by simp [encode, passStyleOf], rfl, rfl, by simp, by simp, ?_⟩
      intro s2v slots policy dst hdlen hINV2 hINV3
      exact ⟨.posInf, dst, by simp [fullRevive, lookupF, QCLASS], by decide,
        hdlen, by simpa using hINV2, fun k hk => hk⟩
    | negInf =>
      refine ⟨.obj [(QCLASS, .str "-Infinity")], st, [],
        by simp [encode, passStyleOf], rfl, rfl, by simp, by simp, ?_⟩
      intro s2v slots policy dst hdlen hINV2 hINV3
      exact ⟨.negInf, dst, by simp [fullRevive, lookupF, QCLASS], by decide,
        hdlen, by simpa using hINV2, fun k hk => hk⟩
    | negZero =>
      refine ⟨.num 0, st, [], by simp [encode, passStyleOf], rfl, rfl,
        by simp, by simp, ?_⟩
      intro s2v slots policy dst hdlen hINV2 hINV3
      exact ⟨.num 0, dst, by simp [fullRevive], by decide, hdlen,
        by simpa using hINV2, fun k hk => hk⟩
    | bigint i =>
      refine ⟨.obj [(QCLASS, .str "bigint"), ("digits", .str (intRepr i))],
        st, [], by simp [encode, passStyleOf], rfl, rfl, by simp, by simp, ?_⟩
      intro s2v slots policy dst hdlen hINV2 hINV3
      refine ⟨.bigint i, dst, ?_, by simp [structEq], hdlen,
        by simpa using hINV2, fun k hk => hk⟩
      simp [fullRevive, lookupF, QCLASS, intParse_intRepr i]
    | str s =>
      refine ⟨.str s, st, [], by simp [encode, passStyleOf], rfl, rfl,
        by simp, by simp, ?_⟩
      intro s2v slots policy dst hdlen hINV2 hINV3
      exact ⟨.str s, dst, by simp [fullRevive], by simp [structEq], hdlen,
        by simpa using hINV2, fun k hk => hk⟩
    | symAsync =>
      refine ⟨.obj [(QCLASS, .str "@@asyncIterator")], st, [],
        by simp [encode, passStyleOf], rfl, rfl, by simp, by simp, ?_⟩
      intro s2v slots policy dst hdlen hINV2 hINV3
      exact ⟨.symAsync, dst, by simp [fullRevive, lookupF, QCLASS], by decide,
        hdlen, by simpa using hINV2, fun k hk => hk⟩
    | methodsObj oid fr methods => simp [pureVal] at hpure
    | promise oid fr => simp [pureVal] at hpure
    | cycleRef i => simp [pureVal] at hpure
    | errObj oid fr name msg =>
      simp only [pureVal, Bool.and_eq_true] at hpure
      obtain ⟨⟨hregn, hfr⟩, hec⟩ := hpure
      have hregn2 : lookupNS reg oid = none := Option.isNone_iff_eq_none.mp hregn
      cases fr with
      | false => simp at hfr
      | true =>
        have hecn : getErrorConstructor name = some name := by
          by_cases hm : name ∈ errorConstructorNames
          · simp [getErrorConstructor, hm]
          · simp [getErrorConstructor, hm] at hec
        have hps : passStyleOf reg (.errObj oid true name msg) =
            .ok .copyError := by
          simp [passStyleOf, hregn2, hecn]
        by_cases hc : st.ibids.contains oid = true
        · refine ⟨.obj [(QCLASS, .str "ibid"),
              ("index", .num (idxOfNat st.ibids oid))], st, [], ?_, rfl, rfl,
            by simp, by simp, ?_⟩
          · simp only [encode, hps, oidOf, hc, if_true]
          · intro s2v slots policy dst hdlen hINV2 hINV3
            obtain ⟨w, heval, hseq⟩ := ibid_envelope_revive hB hconsenv
              hmapenv oid (by simp [allOccs]) (mem_of_contains_nat hc)
              s2v slots policy dst hdlen hINV2 hINV3
            exact ⟨w, dst, heval, hseq, hdlen, by simpa using hINV2,
              fun k hk => hk⟩
        · have hcf : st.ibids.contains oid = false := by
            simpa using hc
          refine ⟨.obj [(QCLASS, .str "error"),
              ("errorId", .str (nextErrorId mn (st.errorCount + 1))),
              ("message", .str msg), ("name", .str name)],
            { st with ibids := st.ibids ++ [oid],
                      errorCount := st.errorCount + 1 },
            [(oid, .errObj oid true name msg)], ?_, rfl, rfl, by simp,
            by simp [allOccs], ?_⟩
          · simp only [encode, hps, oidOf, hcf, Bool.false_eq_true, if_false]
          · intro s2v slots policy dst hdlen hINV2 hINV3
            refine ⟨.errObj dst.nextOid true name msg,
              { dst with
                  ibids := dst.ibids ++
                    [some (.errObj dst.nextOid true name msg)],
                  nextOid := dst.nextOid + 1 },
              ?_, by simp [structEq], by simp [hdlen], ?_, ?_⟩
            · simp [fullRevive, lookupF, QCLASS, hecn]
            · intro k w2 hk
              have hklt : k < dst.ibids.length + 1 := by
                have := lt_of_getElem_some hk
                simpa using this
              by_cases hke : k < dst.ibids.length
              · rw [List.getElem?_append_left hke] at hk
                obtain ⟨p, hp, hs⟩ := hINV2 k w2 hk
                refine ⟨p, ?_, hs⟩
                rw [List.getElem?_append_left (by omega : k < env.length)]
                exact hp
              · have hkeq : k = dst.ibids.length := by omega
                subst hkeq
                rw [List.getElem?_concat_length] at hk
                have hw2 : JSVal.errObj dst.nextOid true name msg = w2 :=
                  Option.some.inj (Option.some.inj hk)
                refine ⟨(oid, .errObj oid true name msg), ?_, ?_⟩
                · have hkeq2 : dst.ibids.length = env.length := by omega
                  rw [hkeq2, List.getElem?_concat_length]
                · rw [← hw2]
                  simp [structEq]
            · intro k hk
              have hklt : k < dst.ibids.length + 1 := by
                have := lt_of_getElem_some hk
                simpa using this
              by_cases hke : k < dst.ibids.length
              · rw [List.getElem?_append_left hke] at hk
                exact hk
              · have hkeq : k = dst.ibids.length := by omega
                subst hkeq
                rw [List.getElem?_concat_length] at hk
                exact absurd (Option.some.inj hk) (by simp)
    | record oid fr fields =>
      simp only [pureVal, Bool.and_eq_true] at hpure
      obtain ⟨⟨⟨⟨⟨hregn, hfr⟩, hne⟩, hq⟩, hndn⟩, hpf⟩ := hpure
      have hregn2 : lookupNS reg oid = none := Option.isNone_iff_eq_none.mp hregn
      cases fr with
      | false => simp at hfr
      | true =>
        have hq2 : (fields.map Prod.fst).contains QCLASS = false := by
          simpa using hq
        have hqm : QCLASS ∉ fields.map Prod.fst := by
          intro hmem
          have hc3 : (fields.map Prod.fst).contains QCLASS = true := by
            rw [List.contains_iff_exists_mem_beq]
            exact ⟨QCLASS, hmem, by simp⟩
          rw [hc3] at hq2
          simp at hq2
        have hps : passStyleOf reg (.record oid true fields) =
            .ok .copyRecord := by
          have hne2 : ¬(fields.isEmpty = true) := by
            simpa using hne
          simp [passStyleOf, hregn2, hqm, hne2]
        by_cases hc : st.ibids.contains oid = true
        · refine ⟨.obj [(QCLASS, .str "ibid"),
              ("index", .num (idxOfNat st.ibids oid))], st, [], ?_, rfl, rfl,
            by simp, by simp, ?_⟩
          · simp only [encode, hps, oidOf, hc, if_true]
          · intro s2v slots policy dst hdlen hINV2 hINV3
            obtain ⟨w, heval, hseq⟩ := ibid_envelope_revive hB hconsenv
              hmapenv oid (by simp [allOccs]) (mem_of_contains_nat hc)
              s2v slots policy dst hdlen hINV2 hINV3
            exact ⟨w, dst, heval, hseq, hdlen, by simpa using hINV2,
              fun k hk => hk⟩
        · have hcf : st.ibids.contains oid = false := by
            simpa using hc
          have hsort_sub : ∀ n ∈ sortNames (fields.map Prod.fst),
              n ∈ fields.map Prod.fst :=
            fun n hn => (sortNames_perm _).mem_iff.mp hn
          have hmeas : fsize fields +
              (sortNames (fields.map Prod.fst)).length ≤ N - 1 := by
            have h1 := length_le_fsize fields
            have h2 : (sortNames (fields.map Prod.fst)).length =
                fields.length := by
              rw [sortNames_length, List.length_map]
            simp only [jsize] at hsz
            omega
          have hN : N - 1 < N := by
            have := jsize_pos (JSVal.record oid true fields)
            omega
          have hBf : ∀ n ∈ sortNames (fields.map Prod.fst), ∀ w,
              lookupV fields n = some w → jsize w ≤ 2 * fsize fields := by
            intro n hn w hw
            have := lookupV_jsize_lt hw
            omega
          have hconsF : ∀ p ∈ allOccsF fields, ∀ q ∈ allOccsF fields,
              p.1 = q.1 → p.2 = q.2 := by
            intro p hp q hq
            have hpm : p ∈ allOccs (JSVal.record oid true fields) := by
              simp only [allOccs]
              exact List.mem_cons_of_mem _ hp
            have hqm : q ∈ allOccs (JSVal.record oid true fields) := by
              simp only [allOccs]
              exact List.mem_cons_of_mem _ hq
            exact hcons p hpm q hqm
          have hconsenvF : ∀ q ∈ allOccsF fields,
              ∀ p ∈ env ++ [(oid, JSVal.record oid true fields)],
              p.1 = q.1 → p.2 = q.2 := by
            intro q hq p hp h
            have hqv : q ∈ allOccs (JSVal.record oid true fields) := by
              simp only [allOccs]
              exact List.mem_cons_of_mem _ hq
            rcases List.mem_append.mp hp with hp | hp
            · exact hconsenv q hqv p hp h
            · have hpe : p = (oid, JSVal.record oid true fields) := by
                simpa using hp
              subst hpe
              exact hcons _ (by simp [allOccs]) q hqv h
          have hmapenv' : (env ++ [(oid, JSVal.record oid true fields)]).map
              Prod.fst = st.ibids ++ [oid] := by
            rw [List.map_append, hmapenv]
            rfl
          obtain ⟨jfs, stB, δF, hencF, hslotsF, hsmapF, hibidsF, hδFsub,
              hnamesEq, hdecF⟩ :=
            ((IH (N - 1) hN).2.1) fields (sortNames (fields.map Prod.fst))
              { st with ibids := st.ibids ++ [oid] } (2 * fsize fields)
              (env ++ [(oid, JSVal.record oid true fields)])
              hmeas hBf hndn hpf hconsF hsort_sub hconsenvF hmapenv'
          have hstBlen : stB.ibids.length =
              st.ibids.length + 1 + δF.length := by
            have h1 := congrArg List.length hibidsF
            simp at h1
            omega
          have hassoc : env ++ ((oid, JSVal.record oid true fields) :: δF) =
              (env ++ [(oid, JSVal.record oid true fields)]) ++ δF := by
            simp
          refine ⟨.obj jfs, stB,
            (oid, JSVal.record oid true fields) :: δF, ?_, hslotsF, hsmapF,
            ?_, ?_, ?_⟩
          · simp only [encode, hps, oidOf, hcf, Bool.false_eq_true,
              if_false, hencF]
          · rw [hibidsF]
            simp
          · intro p hp
            rcases List.mem_cons.mp hp with rfl | hp
            · simp [allOccs]
            · simp only [allOccs]
              exact List.mem_cons_of_mem _ (hδFsub p hp)
          · intro s2v slots policy dst hdlen hINV2 hINV3
            have hnoq : lookupF jfs QCLASS = none := by
              apply lookupF_none_of_not_mem
              rw [hnamesEq]
              intro hmem
              exact hqm (hsort_sub QCLASS hmem)
            have hdlen' : (dst.ibids ++ [none]).length =
                (st.ibids ++ [oid]).length := by
              simp [hdlen]
            have hINV2' : ∀ (k : Nat) (w : JSVal), (dst.ibids ++ [none])[k]? =
                some (some w) →
                ∃ p : Nat × JSVal, (env ++ [(oid, JSVal.record oid true fields)])[k]? =
                  some p ∧ structEq w p.2 = true := by
              intro k w hk
              have hklt : k < dst.ibids.length + 1 := by
                have := lt_of_getElem_some hk
                simpa using this
              by_cases hke : k < dst.ibids.length
              · rw [List.getElem?_append_left hke] at hk
                obtain ⟨p, hp, hs⟩ := hINV2 k w hk
                refine ⟨p, ?_, hs⟩
                rw [List.getElem?_append_left (by omega : k < env.length)]
                exact hp
              · have hkeq : k = dst.ibids.length := by omega
                subst hkeq
                rw [List.getElem?_concat_length] at hk
                exact absurd (Option.some.inj hk) (by simp)
            have hINV3' : ∀ k : Nat, (dst.ibids ++ [none])[k]? = some none →
                ∃ p : Nat × JSVal, (env ++ [(oid, JSVal.record oid true fields)])[k]? =
                  some p ∧ 2 * fsize fields < jsize p.2 := by
              intro k hk
              have hklt : k < dst.ibids.length + 1 := by
                have := lt_of_getElem_some hk
                simpa using this
              by_cases hke : k < dst.ibids.length
              · rw [List.getElem?_append_left hke] at hk
                obtain ⟨p, hp, hBp⟩ := hINV3 k hk
                refine ⟨p, ?_, ?_⟩
                · rw [List.getElem?_append_left (by omega : k < env.length)]
                  exact hp
                · have hj : jsize (JSVal.record oid true fields) =
                      1 + 2 * fsize fields := by simp [jsize]
                  omega
              · have hkeq : k = dst.ibids.length := by omega
                subst hkeq
                refine ⟨(oid, JSVal.record oid true fields), ?_, ?_⟩
                · have hkeq2 : dst.ibids.length = env.length := by omega
                  rw [hkeq2, List.getElem?_concat_length]
                · simp [jsize]
            obtain ⟨wfs, dst1, hrev, hwnames, hwprop, hdlen1, hINV2B,
                hUNFINB⟩ :=
              hdecF s2v slots policy
                { dst with ibids := dst.ibids ++ [none],
                           nextOid := dst.nextOid + 1 }
                hdlen' hINV2' hINV3'
            have hrecEq : structEq (.record dst.nextOid true wfs)
                (.record oid true fields) = true := by
              simp only [structEq, Bool.and_eq_true]
              constructor
              · have hl1 : wfs.length = fields.length := by
                  have := congrArg List.length hwnames
                  simp only [List.length_map, sortNames_length] at this
                  simpa using this
                simp [hl1]
              · exact fieldsSub_of_forall hwprop
            have hposlt : dst.ibids.length < dst1.ibids.length := by
              rw [hdlen1]
              omega
            refine ⟨.record dst.nextOid true wfs,
              { dst1 with ibids := dst1.ibids.set dst.ibids.length (some (JSVal.record dst.nextOid true wfs)) },
              ?_, hrecEq, ?_, ?_, ?_⟩
            · simp only [fullRevive, hnoq, hrev]
            · simp [List.length_set, hdlen1]
            · intro k w2 hk
              by_cases hke : dst.ibids.length = k
              · subst hke
                rw [List.getElem?_set_eq_of_lt _ hposlt] at hk
                have hw2 : some (JSVal.record dst.nextOid true wfs) =
                    some w2 := Option.some.inj hk
                refine ⟨(oid, JSVal.record oid true fields), ?_, ?_⟩
                · have hlt2 : dst.ibids.length <
                      (env ++ [(oid, JSVal.record oid true fields)]).length := by
                    simp
                    omega
                  rw [hassoc, List.getElem?_append_left hlt2]
                  have hkeq2 : dst.ibids.length = env.length := by omega
                  rw [hkeq2, List.getElem?_concat_length]
                · rw [← Option.some.inj hw2]
                  exact hrecEq
              · rw [List.getElem?_set_ne hke] at hk
                obtain ⟨p, hp, hs⟩ := hINV2B k w2 hk
                refine ⟨p, ?_, hs⟩
                rw [hassoc]
                exact hp
            · intro k hk
              by_cases hke : dst.ibids.length = k
              · subst hke
                rw [List.getElem?_set_eq_of_lt _ hposlt] at hk
                exact absurd (Option.some.inj hk) (by simp)
              · rw [List.getElem?_set_ne hke] at hk
                have hk' := hUNFINB k hk
                have hklt : k < dst.ibids.length + 1 := by
                  have := lt_of_getElem_some hk'
                  simpa using this
                have hklt2 : k < dst.ibids.length := by omega
                rw [List.getElem?_append_left hklt2] at hk'
                exact hk'
    | arr oid fr elems =>
      simp only [pureVal, Bool.and_eq_true] at hpure
      obtain ⟨⟨hregn, hfr⟩, hpl⟩ := hpure
      have hregn2 : lookupNS reg oid = none := Option.isNone_iff_eq_none.mp hregn
      cases fr with
      | false => simp at hfr
      | true =>
        have hps : passStyleOf reg (.arr oid true elems) = .ok .copyArray := by
          simp [passStyleOf, hregn2]
        by_cases hc : st.ibids.contains oid = true
        · refine ⟨.obj [(QCLASS, .str "ibid"),
              ("index", .num (idxOfNat st.ibids oid))], st, [], ?_, rfl, rfl,
            by simp, by simp, ?_⟩
          · simp only [encode, hps, oidOf, hc, if_true]
          · intro s2v slots policy dst hdlen hINV2 hINV3
            obtain ⟨w, heval, hseq⟩ := ibid_envelope_revive hB hconsenv
              hmapenv oid (by simp [allOccs]) (mem_of_contains_nat hc)
              s2v slots policy dst hdlen hINV2 hINV3
            exact ⟨w, dst, heval, hseq, hdlen, by simpa using hINV2,
              fun k hk => hk⟩
        · have hcf : st.ibids.contains oid = false := by
            simpa using hc
          have hN : N - 1 < N := by
            have := jsize_pos (JSVal.arr oid true elems)
            omega
          have hBl : ∀ w ∈ elems, jsize w ≤ lsize elems :=
            fun w hw => jsize_le_lsize hw
          have hconsL : ∀ p ∈ allOccsL elems, ∀ q ∈ allOccsL elems,
              p.1 = q.1 → p.2 = q.2 := by
            intro p hp q hq
            have hpm : p ∈ allOccs (JSVal.arr oid true elems) := by
              simp only [allOccs]
              exact List.mem_cons_of_mem _ hp
            have hqm : q ∈ allOccs (JSVal.arr oid true elems) := by
              simp only [allOccs]
              exact List.mem_cons_of_mem _ hq
            exact hcons p hpm q hqm
          have hconsenvL : ∀ q ∈ allOccsL elems,
              ∀ p ∈ env ++ [(oid, JSVal.arr oid true elems)],
              p.1 = q.1 → p.2 = q.2 := by
            intro q hq p hp h
            have hqv : q ∈ allOccs (JSVal.arr oid true elems) := by
              simp only [allOccs]
              exact List.mem_cons_of_mem _ hq
            rcases List.mem_append.mp hp with hp | hp
            · exact hconsenv q hqv p hp h
            · have hpe : p = (oid, JSVal.arr oid true elems) := by
                simpa using hp
              subst hpe
              exact hcons _ (by simp [allOccs]) q hqv h
          have hmapenv' : (env ++ [(oid, JSVal.arr oid true elems)]).map
              Prod.fst = st.ibids ++ [oid] := by
            rw [List.map_append, hmapenv]
            rfl
          obtain ⟨js, stB, δL, hencL, hslotsL, hsmapL, hibidsL, hδLsub,
              hdecL⟩ :=
            ((IH (N - 1) hN).2.2) elems
              { st with ibids := st.ibids ++ [oid] } (lsize elems)
              (env ++ [(oid, JSVal.arr oid true elems)])
              (by simp only [jsize] at hsz; omega) hBl hpl hconsL
              hconsenvL hmapenv'
          have hstBlen : stB.ibids.length =
              st.ibids.length + 1 + δL.length := by
            have h1 := congrArg List.length hibidsL
            simp at h1
            omega
          have hassoc : env ++ ((oid, JSVal.arr oid true elems) :: δL) =
              (env ++ [(oid, JSVal.arr oid true elems)]) ++ δL := by
            simp
          refine ⟨.arr js, stB, (oid, JSVal.arr oid true elems) :: δL, ?_,
            hslotsL, hsmapL, ?_, ?_, ?_⟩
          · simp only [encode, hps, oidOf, hcf, Bool.false_eq_true,
              if_false, hencL]
          · rw [hibidsL]
            simp
          · intro p hp
            rcases List.mem_cons.mp hp with rfl | hp
            · simp [allOccs]
            · simp only [allOccs]
              exact List.mem_cons_of_mem _ (hδLsub p hp)
          · intro s2v slots policy dst hdlen hINV2 hINV3
            have hdlen' : (dst.ibids ++ [none]).length =
                (st.ibids ++ [oid]).length := by
              simp [hdlen]
            have hINV2' : ∀ (k : Nat) (w : JSVal), (dst.ibids ++ [none])[k]? =
                some (some w) →
                ∃ p : Nat × JSVal, (env ++ [(oid, JSVal.arr oid true elems)])[k]? =
                  some p ∧ structEq w p.2 = true := by
              intro k w hk
              have hklt : k < dst.ibids.length + 1 := by
                have := lt_of_getElem_some hk
                simpa using this
              by_cases hke : k < dst.ibids.length
              · rw [List.getElem?_append_left hke] at hk
                obtain ⟨p, hp, hs⟩ := hINV2 k w hk
                refine ⟨p, ?_, hs⟩
                rw [List.getElem?_append_left (by omega : k < env.length)]
                exact hp
              · have hkeq : k = dst.ibids.length := by omega
                subst hkeq
                rw [List.getElem?_concat_length] at hk
                exact absurd (Option.some.inj hk) (by simp)
            have hINV3' : ∀ k : Nat, (dst.ibids ++ [none])[k]? = some none →
                ∃ p : Nat × JSVal, (env ++ [(oid, JSVal.arr oid true elems)])[k]? =
                  some p ∧ lsize elems < jsize p.2 := by
              intro k hk
              have hklt : k < dst.ibids.length + 1 := by
                have := lt_of_getElem_some hk
                simpa using this
              by_cases hke : k < dst.ibids.length
              · rw [List.getElem?_append_left hke] at hk
                obtain ⟨p, hp, hBp⟩ := hINV3 k hk
                refine ⟨p, ?_, ?_⟩
                · rw [List.getElem?_append_left (by omega : k < env.length)]
                  exact hp
                · have hj : jsize (JSVal.arr oid true elems) =
                      1 + lsize elems := by simp [jsize]
                  omega
              · have hkeq : k = dst.ibids.length := by omega
                subst hkeq
                refine ⟨(oid, JSVal.arr oid true elems), ?_, ?_⟩
                · have hkeq2 : dst.ibids.length = env.length := by omega
                  rw [hkeq2, List.getElem?_concat_length]
                · simp [jsize]
            obtain ⟨ws, dst1, hrev, hsl, hdlen1, hINV2B, hUNFINB⟩ :=
              hdecL s2v slots policy
                { dst with ibids := dst.ibids ++ [none],
                           nextOid := dst.nextOid + 1 }
                hdlen' hINV2' hINV3'
            have harrEq : structEq (.arr dst.nextOid true ws)
                (.arr oid true elems) = true := by
              simpa [structEq] using hsl
            have hposlt : dst.ibids.length < dst1.ibids.length := by
              rw [hdlen1]
              omega
            refine ⟨.arr dst.nextOid true ws,
              { dst1 with ibids := dst1.ibids.set dst.ibids.length (some (JSVal.arr dst.nextOid true ws)) },
              ?_, harrEq, ?_, ?_, ?_⟩
            · simp only [fullRevive, hrev]
            · simp [List.length_set, hdlen1]
            · intro k w2 hk
              by_cases hke : dst.ibids.length = k
              · subst hke
                rw [List.getElem?_set_eq_of_lt _ hposlt] at hk
                have hw2 : some (JSVal.arr dst.nextOid true ws) =
                    some w2 := Option.some.inj hk
                refine ⟨(oid, JSVal.arr oid true elems), ?_, ?_⟩
                · have hlt2 : dst.ibids.length <
                      (env ++ [(oid, JSVal.arr oid true elems)]).length := by
                    simp
                    omega
                  rw [hassoc, List.getElem?_append_left hlt2]
                  have hkeq2 : dst.ibids.length = env.length := by omega
                  rw [hkeq2, List.getElem?_concat_length]
                · rw [← Option.some.inj hw2]
                  exact harrEq
              · rw [List.getElem?_set_ne hke] at hk
                obtain ⟨p, hp, hs⟩ := hINV2B k w2 hk
                refine ⟨p, ?_, hs⟩
                rw [hassoc]
                exact hp
            · intro k hk
              by_cases hke : dst.ibids.length = k
              · subst hke
                rw [List.getElem?_set_eq_of_lt _ hposlt] at hk
                exact absurd (Option.some.inj hk) (by simp)
              · rw [List.getElem?_set_ne hke] at hk
                have hk' := hUNFINB k hk
                have hklt : k < dst.ibids.length + 1 := by
                  have := lt_of_getElem_some hk'
                  simpa using this
                have hklt2 : k < dst.ibids.length := by omega
                rw [List.getElem?_append_left hklt2] at hk'
                exact hk'
  · intro fields names st B env hsz hBn hndn hpf hconsF hsub hconsenvF hmapenv
    cases names with
    | nil =>
      refine ⟨[], st, [], by simp [encodeNamedFields], rfl, rfl, by simp,
        by simp, by simp, ?_⟩
      intro s2v slots policy dst hdlen hINV2 hINV3
      exact ⟨[], dst, by simp [fullReviveFields], by simp, by simp, hdlen,
        by simpa using hINV2, fun k hk => hk⟩
    | cons n rest =>
      obtain ⟨w, hw⟩ := lookupV_of_mem_names (hsub n (List.mem_cons_self _ _))
      have hszw := lookupV_jsize_lt hw
      have hN : N - 1 < N := by
        simp only [List.length_cons] at hsz
        omega
      obtain ⟨j0, stA, δ1, henc, hslotsA, hsmapA, hibidsA, hδ1sub, hdecA⟩ :=
        ((IH (N - 1) hN).1) w st B env
          (by simp only [List.length_cons] at hsz; omega)
          (hBn n (List.mem_cons_self _ _) w hw)
          (pureFields_lookup hpf hw)
          (fun p hp q hq => hconsF p (allOccs_lookup_sub hw hp) q
            (allOccs_lookup_sub hw hq))
          (fun q hq p hp => hconsenvF q (allOccs_lookup_sub hw hq) p hp)
          hmapenv
      obtain ⟨jrest, stB, δ2, hrest, hslotsB, hsmapB, hibidsB, hδ2sub,
          hnamesB, hdecB⟩ :=
        ((IH (N - 1) hN).2.1) fields rest stA B (env ++ δ1)
          (by simp only [List.length_cons] at hsz; have := jsize_pos w; omega)
          (fun m hm w' hw' => hBn m (List.mem_cons_of_mem _ hm) w' hw')
          hndn hpf hconsF
          (fun m hm => hsub m (List.mem_cons_of_mem _ hm))
          (fun q hq p hp h => by
            rcases List.mem_append.mp hp with hp' | hp'
            · exact hconsenvF q hq p hp' h
            · exact hconsF p (allOccs_lookup_sub hw (hδ1sub p hp')) q hq h)
          (by rw [List.map_append, hmapenv, hibidsA])
      refine ⟨(n, j0) :: jrest, stB, δ1 ++ δ2, ?_,
        by rw [hslotsB, hslotsA], by rw [hsmapB, hsmapA], ?_, ?_,
        by simp [hnamesB], ?_⟩
      · rw [encodeNamedFields, hw]
        simp only [henc, hrest]
      · rw [hibidsB, hibidsA, List.map_append, List.append_assoc]
      · intro p hp
        rcases List.mem_append.mp hp with hp | hp
        · exact allOccs_lookup_sub hw (hδ1sub p hp)
        · exact hδ2sub p hp
      · intro s2v slots policy dst hdlen hINV2 hINV3
        obtain ⟨w0, dstA, hrev0, hseq0, hdlenA, hINV2A, hUNFINA⟩ :=
          hdecA s2v slots policy dst hdlen hINV2 hINV3
        obtain ⟨wrest, dstB2, hrevR, hwnamesR, hwpropR, hdlenB, hINV2B,
            hUNFINB⟩ :=
          hdecB s2v slots policy dstA hdlenA hINV2A
            (fun k hk => by
              have hk' := hUNFINA k hk
              obtain ⟨p, hp, hBp⟩ := hINV3 k hk'
              refine ⟨p, ?_, hBp⟩
              rw [List.getElem?_append_left (lt_of_getElem_some hp)]
              exact hp)
        refine ⟨(n, w0) :: wrest, dstB2, ?_, by simp [hwnamesR], ?_,
          hdlenB, ?_, fun k hk => hUNFINA k (hUNFINB k hk)⟩
        · simp only [fullReviveFields, hrev0, hrevR]
        · intro p hp
          rcases List.mem_cons.mp hp with rfl | hmem
          · exact ⟨w, hw, hseq0⟩
          · exact hwpropR p hmem
        · intro k w2 hk
          obtain ⟨p, hp, hs⟩ := hINV2B k w2 hk
          refine ⟨p, ?_, hs⟩
          rw [← List.append_assoc]
          exact hp
  · intro elems st B env hsz hBl hpl hconsL hconsenvL hmapenv
    cases elems with
    | nil =>
      refine ⟨[], st, [], by simp [encodeList], rfl, rfl, by simp,
        by simp, ?_⟩
      intro s2v slots policy dst hdlen hINV2 hINV3
      exact ⟨[], dst, by simp [fullReviveElems], by simp [structEqList],
        hdlen, by simpa using hINV2, fun k hk => hk⟩
    | cons w rest =>
      simp only [pureList, Bool.and_eq_true] at hpl
      have hN : N - 1 < N := by
        simp only [lsize] at hsz
        have := jsize_pos w
        omega
      obtain ⟨j0, stA, δ1, henc, hslotsA, hsmapA, hibidsA, hδ1sub, hdecA⟩ :=
        ((IH (N - 1) hN).1) w st B env
          (by simp only [lsize] at hsz; omega)
          (hBl w (List.mem_cons_self _ _)) hpl.1
          (fun p hp q hq => hconsL p
            (by simp only [allOccsL, List.mem_append]; exact Or.inl hp) q
            (by simp only [allOccsL, List.mem_append]; exact Or.inl hq))
          (fun q hq p hp => hconsenvL q
            (by simp only [allOccsL, List.mem_append]; exact Or.inl hq) p hp)
          hmapenv
      obtain ⟨js, stB, δ2, hrest, hslotsB, hsmapB, hibidsB, hδ2sub,
          hdecB⟩ :=
        ((IH (N - 1) hN).2.2) rest stA B (env ++ δ1)
          (by simp only [lsize] at hsz; have := jsize_pos w; omega)
          (fun w' hw' => hBl w' (List.mem_cons_of_mem _ hw')) hpl.2
          (fun p hp q hq => hconsL p
            (by simp only [allOccsL, List.mem_append]; exact Or.inr hp) q
            (by simp only [allOccsL, List.mem_append]; exact Or.inr hq))
          (fun q hq p hp h => by
            have hqL : q ∈ allOccsL (w :: rest) := by
              simp only [allOccsL, List.mem_append]
              exact Or.inr hq
            rcases List.mem_append.mp hp with hp' | hp'
            · exact hconsenvL q hqL p hp' h
            · have hpL : p ∈ allOccsL (w :: rest) := by
                simp only [allOccsL, List.mem_append]
                exact Or.inl (hδ1sub p hp')
              exact hconsL p hpL q hqL h)
          (by rw [List.map_append, hmapenv, hibidsA])
      refine ⟨j0 :: js, stB, δ1 ++ δ2, ?_, by rw [hslotsB, hslotsA],
        by rw [hsmapB, hsmapA], ?_, ?_, ?_⟩
      · rw [encodeList]
        simp only [henc, hrest]
      · rw [hibidsB, hibidsA, List.map_append, List.append_assoc]
      · intro p hp
        simp only [allOccsL, List.mem_append]
        rcases List.mem_append.mp hp with hp | hp
        · exact Or.inl (hδ1sub p hp)
        · exact Or.inr (hδ2sub p hp)
      · intro s2v slots policy dst hdlen hINV2 hINV3
        obtain ⟨w0, dstA, hrev0, hseq0, hdlenA, hINV2A, hUNFINA⟩ :=
          hdecA s2v slots policy dst hdlen hINV2 hINV3
        obtain ⟨ws, dstB2, hrevR, hslR, hdlenB, hINV2B, hUNFINB⟩ :=
          hdecB s2v slots policy dstA hdlenA hINV2A
            (fun k hk => by
              have hk' := hUNFINA k hk
              obtain ⟨p, hp, hBp⟩ := hINV3 k hk'
              refine ⟨p, ?_, hBp⟩
              rw [List.getElem?_append_left (lt_of_getElem_some hp)]
              exact hp)
        refine ⟨w0 :: ws, dstB2, ?_, ?_, hdlenB, ?_,
          fun k hk => hUNFINA k (hUNFINB k hk)⟩
        · simp only [fullReviveElems, hrev0, hrevR]
        · simp [structEqList, hseq0, hslR]
        · intro k w2 hk
          obtain ⟨p, hp, hs⟩ := hINV2B k w2 hk
          refine ⟨p, ?_, hs⟩
          rw [← List.append_assoc]
          exact hp

theorem serializeSlot_slotMap (vts : JSVal → JSVal) (v : JSVal) (oid : Nat)
    (iface : Option String) (st : EncState) :
    ∃ γ, ((serializeSlot vts v oid iface st).2).slotMap = st.slotMap ++ γ ∧
      ∀ p ∈ γ, p.1 = oid := by
  cases hl : lookupNN st.slotMap oid <;> cases iface <;>
    simp [serializeSlot, hl]

/-- A successful encoder call only appends to the slot map, and every
appended entry's object id has been entered into the ibid table. -/
theorem encode_slotMap_growth (reg : Registry) (vts : JSVal → JSVal)
    (mn : String) :
    ∀ N : Nat,
      (∀ v st j st1, jsize v ≤ N →
        encode reg vts mn v st = .ok (j, st1) →
        ∃ γ, st1.slotMap = st.slotMap ++ γ ∧ ∀ p ∈ γ, p.1 ∈ st1.ibids) ∧
      (∀ fields names st jfs st1, fsize fields + names.length ≤ N →
        encodeNamedFields reg vts mn fields names st = .ok (jfs, st1) →
        ∃ γ, st1.slotMap = st.slotMap ++ γ ∧ ∀ p ∈ γ, p.1 ∈ st1.ibids) ∧
      (∀ elems st js st1, lsize elems ≤ N →
        encodeList reg vts mn elems st = .ok (js, st1) →
        ∃ γ, st1.slotMap = st.slotMap ++ γ ∧ ∀ p ∈ γ, p.1 ∈ st1.ibids) := by
  intro N
  induction N using Nat.strong_induction_on with
  | _ N IH =>
  have remoteCase : ∀ (v : JSVal) (oid : Nat) (iface : Option String)
      (st : EncState) (j : JSON) (st1 : EncState),
      .ok (serializeSlot vts v oid iface
          { st with ibids := st.ibids ++ [oid] }) =
        (Except.ok (j, st1) : Except String (JSON × EncState)) →
      ∃ γ, st1.slotMap = st.slotMap ++ γ ∧ ∀ p ∈ γ, p.1 ∈ st1.ibids := by
    intro v oid iface st j st1 h
    have hpair := Except.ok.inj h
    have hst : (serializeSlot vts v oid iface
        { st with ibids := st.ibids ++ [oid] }).2 = st1 :=
      congrArg Prod.snd hpair
    obtain ⟨γ, hγ, hkeys⟩ := serializeSlot_slotMap vts v oid iface
      { st with ibids := st.ibids ++ [oid] }
    rw [hst] at hγ
    refine ⟨γ, hγ, ?_⟩
    intro p hp
    rw [← hst, (serializeSlot_state vts v oid iface _).1]
    simp only [List.mem_append, List.mem_singleton]
    exact Or.inr (hkeys p hp)
  refine ⟨?_, ?_, ?_⟩
  · intro v st j st1 hsz h
    cases v with
    | undef =>
      simp only [encode, passStyleOf, Except.ok.injEq, Prod.mk.injEq] at h
      exact ⟨[], by simp [← h.2]⟩
    | nullV =>
      simp only [encode, passStyleOf, Except.ok.injEq, Prod.mk.injEq] at h
      exact ⟨[], by simp [← h.2]⟩
    | bool b =>
      simp only [encode, passStyleOf, Except.ok.injEq, Prod.mk.injEq] at h
      exact ⟨[], by simp [← h.2]⟩
    | num n =>
      simp only [encode, passStyleOf, Except.ok.injEq, Prod.mk.injEq] at h
      exact ⟨[], by simp [← h.2]⟩
    | nan =>
      simp only [encode, passStyleOf, Except.ok.injEq, Prod.mk.injEq] at h
      exact ⟨[], by simp [← h.2]⟩
    | posInf =>
      simp only [encode, passStyleOf, Except.ok.injEq, Prod.mk.injEq] at h
      exact ⟨[], by simp [← h.2]⟩
    | negInf =>
      simp only [encode, passStyleOf, Except.ok.injEq, Prod.mk.injEq] at h
      exact ⟨[], by simp [← h.2]⟩
    | negZero =>
      simp only [encode, passStyleOf, Except.ok.injEq, Prod.mk.injEq] at h
      exact ⟨[], by simp [← h.2]⟩
    | bigint i =>
      simp only [encode, passStyleOf, Except.ok.injEq, Prod.mk.injEq] at h
      exact ⟨[], by simp [← h.2]⟩
    | str s =>
      simp only [encode, passStyleOf, Except.ok.injEq, Prod.mk.injEq] at h
      exact ⟨[], by simp [← h.2]⟩
    | symAsync =>
      simp only [encode, passStyleOf, Except.ok.injEq, Prod.mk.injEq] at h
      exact ⟨[], by simp [← h.2]⟩
    | cycleRef i =>
      simp only [encode, passStyleOf] at h
      exact absurd h (by simp)
    | record oid fr fields =>
      cases hps : passStyleOf reg (.record oid fr fields) with
      | error e =>
        simp only [encode, hps] at h
        exact absurd h (by simp)
      | ok ps =>
        rcases passStyleOf_record_style hps with hr | hr <;> subst hr <;>
          simp only [encode, hps, oidOf] at h
        · by_cases hc : st.ibids.contains oid
          · simp only [hc, if_true, Except.ok.injEq, Prod.mk.injEq] at h
            exact ⟨[], by simp [← h.2]⟩
          · simp only [hc, if_false, Bool.false_eq_true] at h
            exact remoteCase _ oid _ st j st1 h
        · by_cases hc : st.ibids.contains oid
          · simp only [hc, if_true, Except.ok.injEq, Prod.mk.injEq] at h
            exact ⟨[], by simp [← h.2]⟩
          · simp only [hc, if_false, Bool.false_eq_true] at h
            cases henc : encodeNamedFields reg vts mn fields
                (sortNames (fields.map Prod.fst))
                { st with ibids := st.ibids ++ [oid] } with
            | error e => rw [henc] at h; exact absurd h (by simp)
            | ok p =>
              obtain ⟨jfs, st2⟩ := p
              rw [henc] at h
              simp only [Except.ok.injEq, Prod.mk.injEq] at h
              obtain ⟨-, hst⟩ := h
              have hm : fsize fields + (sortNames (fields.map Prod.fst)).length
                  ≤ N - 1 := by
                have := length_le_fsize fields
                have h2 : (sortNames (fields.map Prod.fst)).length =
                    fields.length := by rw [sortNames_length, List.length_map]
                simp only [jsize] at hsz
                omega
              have hN : N - 1 < N := by
                have := jsize_pos (.record oid fr fields)
                omega
              obtain ⟨γ, hγ, hk⟩ := ((IH (N - 1) hN).2.1) fields _ _ _ _ hm henc
              exact ⟨γ, by rw [← hst, hγ], by rw [← hst]; exact hk⟩
    | arr oid fr elems =>
      cases hps : passStyleOf reg (.arr oid fr elems) with
      | error e =>
        simp only [encode, hps] at h
        exact absurd h (by simp)
      | ok ps =>
        rcases passStyleOf_arr_style hps with hr | hr <;> subst hr <;>
          simp only [encode, hps, oidOf] at h
        · by_cases hc : st.ibids.contains oid
          · simp only [hc, if_true, Except.ok.injEq, Prod.mk.injEq] at h
            exact ⟨[], by simp [← h.2]⟩
          · simp only [hc, if_false, Bool.false_eq_true] at h
            exact remoteCase _ oid _ st j st1 h
        · by_cases hc : st.ibids.contains oid
          · simp only [hc, if_true, Except.ok.injEq, Prod.mk.injEq] at h
            exact ⟨[], by simp [← h.2]⟩
          · simp only [hc, if_false, Bool.false_eq_true] at h
            cases henc : encodeList reg vts mn elems
                { st with ibids := st.ibids ++ [oid] } with
            | error e => rw [henc] at h; exact absurd h (by simp)
            | ok p =>
              obtain ⟨js2, st2⟩ := p
              rw [henc] at h
              simp only [Except.ok.injEq, Prod.mk.injEq] at h
              obtain ⟨-, hst⟩ := h
              have hN : N - 1 < N := by
                have := jsize_pos (.arr oid fr elems)
                omega
              obtain ⟨γ, hγ, hk⟩ := ((IH (N - 1) hN).2.2) elems _ _ _
                (by simp only [jsize] at hsz; omega) henc
              exact ⟨γ, by rw [← hst, hγ], by rw [← hst]; exact hk⟩
    | errObj oid fr name msg =>
      cases hps : passStyleOf reg (.errObj oid fr name msg) with
      | error e =>
        simp only [encode, hps] at h
        exact absurd h (by simp)
      | ok ps =>
        rcases passStyleOf_errObj_style hps with hr | hr <;> subst hr <;>
          simp only [encode, hps, oidOf] at h <;>
          by_cases hc : st.ibids.contains oid
        · simp only [hc, if_true, Except.ok.injEq, Prod.mk.injEq] at h
          exact ⟨[], by simp [← h.2]⟩
        · simp only [hc, if_false, Bool.false_eq_true] at h
          exact remoteCase _ oid _ st j st1 h
        · simp only [hc, if_true, Except.ok.injEq, Prod.mk.injEq] at h
          exact ⟨[], by simp [← h.2]⟩
        · simp only [hc, if_false, Bool.false_eq_true] at h
          simp only [Except.ok.injEq, Prod.mk.injEq] at h
          obtain ⟨-, hst⟩ := h
          exact ⟨[], by simp [← hst], by simp⟩
    | methodsObj oid fr methods =>
      cases hps : passStyleOf reg (.methodsObj oid fr methods) with
      | error e =>
        simp only [encode, hps] at h
        exact absurd h (by simp)
      | ok ps =>
        have hr := passStyleOf_methodsObj_style hps
        subst hr
        simp only [encode, hps, oidOf] at h
        by_cases hc : st.ibids.contains oid
        · simp only [hc, if_true, Except.ok.injEq, Prod.mk.injEq] at h
          exact ⟨[], by simp [← h.2]⟩
        · simp only [hc, if_false, Bool.false_eq_true] at h
          exact remoteCase _ oid _ st j st1 h
    | promise oid fr =>
      cases hps : passStyleOf reg (.promise oid fr) with
      | error e =>
        simp only [encode, hps] at h
        exact absurd h (by simp)
      | ok ps =>
        rcases passStyleOf_promise_style hps with hr | hr <;> subst hr <;>
          simp only [encode, hps, oidOf] at h <;>
          by_cases hc : st.ibids.contains oid
        · simp only [hc, if_true, Except.ok.injEq, Prod.mk.injEq] at h
          exact ⟨[], by simp [← h.2]⟩
        · simp only [hc, if_false, Bool.false_eq_true] at h
          exact remoteCase _ oid _ st j st1 h
        · simp only [hc, if_true, Except.ok.injEq, Prod.mk.injEq] at h
          exact ⟨[], by simp [← h.2]⟩
        · simp only [hc, if_false, Bool.false_eq_true] at h
          exact remoteCase _ oid _ st j st1 h
  · intro fields names st jfs st1 hsz h
    cases names with
    | nil =>
      simp only [encodeNamedFields, Except.ok.injEq, Prod.mk.injEq] at h
      exact ⟨[], by simp [← h.2]⟩
    | cons n rest =>
      rw [encodeNamedFields] at h
      cases hw : lookupV fields n with
      | none =>
        rw [hw] at h
        simp only [] at h
        exact absurd h (by simp)
      | some w =>
        rw [hw] at h
        simp only [] at h
        cases henc : encode reg vts mn w st with
        | error e =>
          rw [henc] at h
          exact absurd h (by simp)
        | ok p =>
          obtain ⟨j0, stA⟩ := p
          rw [henc] at h
          simp only [] at h
          cases hrest : encodeNamedFields reg vts mn fields rest stA with
          | error e =>
            rw [hrest] at h
            exact absurd h (by simp)
          | ok p2 =>
            obtain ⟨jrest, stB⟩ := p2
            rw [hrest] at h
            simp only [Except.ok.injEq, Prod.mk.injEq] at h
            obtain ⟨-, hst⟩ := h
            have hwlt := lookupV_jsize_lt hw
            have hN : N - 1 < N := by
              simp only [List.length_cons] at hsz
              omega
            obtain ⟨γ1, hγ1, hk1⟩ := ((IH (N - 1) hN).1) w st _ _
              (by simp only [List.length_cons] at hsz; omega) henc
            obtain ⟨γ2, hγ2, hk2⟩ := ((IH (N - 1) hN).2.1) fields rest stA _ _
              (by simp only [List.length_cons] at hsz; omega) hrest
            obtain ⟨δ2, hδ2, -⟩ := ((encode_growth reg vts mn (N - 1)).2.1)
              fields rest stA _ _
              (by simp only [List.length_cons] at hsz; omega) hrest
            refine ⟨γ1 ++ γ2, ?_, ?_⟩
            · rw [← hst, hγ2, hγ1, List.append_assoc]
            · intro p hp
              rw [← hst]
              rcases List.mem_append.mp hp with hp | hp
              · rw [hδ2]
                exact List.mem_append.mpr (Or.inl (hk1 p hp))
              · exact hk2 p hp
  · intro elems st js st1 hsz h
    cases elems with
    | nil =>
      simp only [encodeList, Except.ok.injEq, Prod.mk.injEq] at h
      exact ⟨[], by simp [← h.2]⟩
    | cons w rest =>
      rw [encodeList] at h
      cases henc : encode reg vts mn w st with
      | error e =>
        rw [henc] at h
        exact absurd h (by simp)
      | ok p =>
        obtain ⟨j0, stA⟩ := p
        rw [henc] at h
        simp only [] at h
        cases hrest : encodeList reg vts mn rest stA with
        | error e =>
          rw [hrest] at h
          exact absurd h (by simp)
        | ok p2 =>
          obtain ⟨jrest, stB⟩ := p2
          rw [hrest] at h
          simp only [Except.ok.injEq, Prod.mk.injEq] at h
          obtain ⟨-, hst⟩ := h
          have hN : N - 1 < N := by
            have := jsize_pos w
            simp only [lsize] at hsz
            omega
          obtain ⟨γ1, hγ1, hk1⟩ := ((IH (N - 1) hN).1) w st _ _
            (by simp only [lsize] at hsz; omega) henc
          obtain ⟨γ2, hγ2, hk2⟩ := ((IH (N - 1) hN).2.2) rest stA _ _
            (by simp only [lsize] at hsz; have := jsize_pos w; omega) hrest
          obtain ⟨δ2, hδ2, -⟩ := ((encode_growth reg vts mn (N - 1)).2.2)
            rest stA _ _
            (by simp only [lsize] at hsz; have := jsize_pos w; omega) hrest
          refine ⟨γ1 ++ γ2, ?_, ?_⟩
          · rw [← hst, hγ2, hγ1, List.append_assoc]
          · intro p hp
            rw [← hst]
            rcases List.mem_append.mp hp with hp | hp
            · rw [hδ2]
              exact List.mem_append.mpr (Or.inl (hk1 p hp))
            · exact hk2 p hp

theorem charToNat_inj {a b : Char} (h : a.toNat = b.toNat) : a = b := by
  have ha := Char.ofNat_toNat a
  have hb := Char.ofNat_toNat b
  rw [← ha, ← hb, h]

theorem listCharLe_trans : ∀ a b c : List Char, listCharLe a b = true →
    listCharLe b c = true → listCharLe a c = true := by
  intro a
  induction a with
  | nil => intro b c hab hbc; simp [listCharLe]
  | cons x xs ih =>
    intro b c hab hbc
    cases b with
    | nil => simp [listCharLe] at hab
    | cons y ys =>
      cases c with
      | nil => simp [listCharLe] at hbc
      | cons z zs =>
        simp only [listCharLe] at hab hbc ⊢
        by_cases hxy1 : x.toNat < y.toNat
        · by_cases hyz1 : y.toNat < z.toNat
          · have hlt : x.toNat < z.toNat := lt_trans hxy1 hyz1
            simp [hlt]
          · by_cases hyz2 : z.toNat < y.toNat
            · simp [hyz1, hyz2] at hbc
            · have hlt : x.toNat < z.toNat := by omega
              simp [hlt]
        · by_cases hxy2 : y.toNat < x.toNat
          · simp [hxy1, hxy2] at hab
          · simp only [hxy1, hxy2, if_false] at hab
            by_cases hyz1 : y.toNat < z.toNat
            · have hlt : x.toNat < z.toNat := by omega
              simp [hlt]
            · by_cases hyz2 : z.toNat < y.toNat
              · simp [hyz1, hyz2] at hbc
              · simp only [hyz1, hyz2, if_false] at hbc
                have hxz1 : ¬(x.toNat < z.toNat) := by omega
                have hxz2 : ¬(z.toNat < x.toNat) := by omega
                simp only [hxz1, hxz2, if_false]
                exact ih ys zs hab hbc

theorem listCharLe_antisymm : ∀ a b : List Char, listCharLe a b = true →
    listCharLe b a = true → a = b := by
  intro a
  induction a with
  | nil =>
    intro b hab hba
    cases b with
    | nil => rfl
    | cons y ys => simp [listCharLe] at hba
  | cons x xs ih =>
    intro b hab hba
    cases b with
    | nil => simp [listCharLe] at hab
    | cons y ys =>
      simp only [listCharLe] at hab hba
      by_cases hxy1 : x.toNat < y.toNat
      · have h2 : ¬(y.toNat < x.toNat) := by omega
        simp [h2, hxy1] at hba
      · by_cases hxy2 : y.toNat < x.toNat
        · simp [hxy1, hxy2] at hab
        · simp only [hxy1, hxy2, if_false] at hab hba
          have hchar : x = y := charToNat_inj (by omega)
          rw [hchar, ih ys hab hba]

theorem listCharLe_total : ∀ a b : List Char,
    listCharLe a b = true ∨ listCharLe b a = true := by
  intro a
  induction a with
  | nil => intro b; left; simp [listCharLe]
  | cons x xs ih =>
    intro b
    cases b with
    | nil => right; simp [listCharLe]
    | cons y ys =>
      simp only [listCharLe]
      by_cases hxy1 : x.toNat < y.toNat
      · left; simp [hxy1]
      · by_cases hxy2 : y.toNat < x.toNat
        · right; simp [hxy2, hxy1]
        · simp only [hxy1, hxy2, if_false]
          exact ih ys

theorem strLeB_trans {a b c : String} (h1 : strLeB a b = true)
    (h2 : strLeB b c = true) : strLeB a c = true :=
  listCharLe_trans a.data b.data c.data h1 h2

theorem strLeB_antisymm {a b : String} (h1 : strLeB a b = true)
    (h2 : strLeB b a = true) : a = b := by
  have := listCharLe_antisymm a.data b.data h1 h2
  cases a
  cases b
  exact congrArg String.mk this

theorem strLeB_total (a b : String) : strLeB a b = true ∨ strLeB b a = true :=
  listCharLe_total a.data b.data

theorem insertName_sorted {l : List String} {n : String}
    (h : List.Pairwise (fun a b => strLeB a b = true) l) :
    List.Pairwise (fun a b => strLeB a b = true) (insertName n l) := by
  induction l with
  | nil => simp [insertName]
  | cons m rest ih =>
    simp only [insertName]
    by_cases hle : strLeB n m
    · simp only [hle, if_true]
      refine List.Pairwise.cons ?_ h
      intro x hx
      rcases List.mem_cons.mp hx with rfl | hx
      · exact hle
      · exact strLeB_trans hle ((List.pairwise_cons.mp h).1 x hx)
    · simp only [hle, Bool.false_eq_true, if_false]
      obtain ⟨hm, hrest⟩ := List.pairwise_cons.mp h
      refine List.Pairwise.cons ?_ (ih hrest)
      intro x hx
      have hx2 : x ∈ n :: rest := (insertName_perm n rest).mem_iff.mp hx
      rcases List.mem_cons.mp hx2 with rfl | hx2
      · rcases strLeB_total m x with hh | hh
        · exact hh
        · exact absurd hh hle
      · exact hm x hx2

theorem sortNames_sorted (l : List String) :
    List.Pairwise (fun a b => strLeB a b = true) (sortNames l) := by
  induction l with
  | nil => simp [sortNames]
  | cons n rest ih => exact insertName_sorted ih

theorem sortNames_eq_of_perm {l1 l2 : List String} (h : List.Perm l1 l2) :
    sortNames l1 = sortNames l2 := by
  haveI : IsAntisymm String (fun a b => strLeB a b = true) :=
    ⟨fun a b => strLeB_antisymm⟩
  exact List.eq_of_perm_of_sorted
    ((sortNames_perm l1).trans (h.trans (sortNames_perm l2).symm))
    (sortNames_sorted l1) (sortNames_sorted l2)

theorem fieldsSub_lookup {f1 f2 : List (String × JSVal)} {n : String}
    {x : JSVal} (h : fieldsSub f1 f2 = true) (hm : (n, x) ∈ f1) :
    ∃ y, lookupV f2 n = some y ∧ structEq x y = true := by
  induction f1 with
  | nil => simp at hm
  | cons p rest ih =>
    obtain ⟨k, v⟩ := p
    simp only [fieldsSub, Bool.and_eq_true] at h
    rcases List.mem_cons.mp hm with heq | hmem
    · cases heq
      rcases hy : lookupV f2 n with - | y
      · rw [hy] at h
        simp at h
      · rw [hy] at h
        exact ⟨y, rfl, h.1⟩
    · exact ih h.2 hmem

theorem lookupNN_none_of_keys {sm : List (Nat × Nat)} {o : Nat}
    (h : ∀ p ∈ sm, p.1 ≠ o) : lookupNN sm o = none := by
  induction sm with
  | nil => rfl
  | cons p rest ih =>
    obtain ⟨k, v⟩ := p
    have hk : ¬(k = o) := h (k, v) (List.mem_cons_self _ _)
    simp only [lookupNN]
    rw [if_neg hk]
    exact ih fun q hq => h q (List.mem_cons_of_mem _ hq)

theorem encode_smOK {reg : Registry} {vts : JSVal → JSVal} {mn : String}
    {v : JSVal} {st : EncState} {j : JSON} {st1 : EncState}
    (h : encode reg vts mn v st = .ok (j, st1))
    (hsm : ∀ p ∈ st.slotMap, p.1 ∈ st.ibids) :
    ∀ p ∈ st1.slotMap, p.1 ∈ st1.ibids := by
  obtain ⟨γ, hγ, hk⟩ :=
    (encode_slotMap_growth reg vts mn (jsize v)).1 v st j st1 le_rfl h
  obtain ⟨δ, hδ, -⟩ :=
    (encode_growth reg vts mn (jsize v)).1 v st j st1 le_rfl h
  intro p hp
  rw [hγ] at hp
  rcases List.mem_append.mp hp with hp | hp
  · rw [hδ]
    exact List.mem_append.mpr (Or.inl (hsm p hp))
  · exact hk p hp

theorem regOKF_mem {reg : Registry} {fields : List (String × JSVal)}
    {n : String} {w : JSVal} (h : regOKF reg fields = true)
    (hm : (n, w) ∈ fields) : regOK reg w = true := by
  induction fields with
  | nil => simp at hm
  | cons p rest ih =>
    simp only [regOKF, Bool.and_eq_true] at h
    rcases List.mem_cons.mp hm with heq | hmem
    · cases heq
      exact h.1
    · exact ih h.2 hmem

theorem passStyleOf_record_facts {reg : Registry} {oid : Nat} {fr : Bool}
    {fields : List (String × JSVal)} {ps : PassStyle}
    (hreg : lookupNS reg oid = none)
    (hps : passStyleOf reg (.record oid fr fields) = .ok ps) :
    QCLASS ∉ fields.map Prod.fst ∧ fr = true ∧
      (fields.isEmpty = true ∧ ps = .remoteStyle ∨
       fields.isEmpty = false ∧ ps = .copyRecord) := by
  simp only [passStyleOf, hreg, Option.isSome_none, Bool.false_eq_true,
    if_false] at hps
  by_cases hq : QCLASS ∈ fields.map Prod.fst
  · rw [if_pos hq] at hps
    exact absurd hps (by simp)
  · rw [if_neg hq] at hps
    cases fr with
    | false => simp at hps
    | true =>
      simp only [Bool.not_true, Bool.false_eq_true, if_false] at hps
      by_cases he : fields.isEmpty
      · rw [if_pos he] at hps
        exact ⟨hq, rfl, Or.inl ⟨he, (Except.ok.inj hps).symm⟩⟩
      · rw [if_neg he] at hps
        exact ⟨hq, rfl,
          Or.inr ⟨Bool.not_eq_true _ ▸ he, (Except.ok.inj hps).symm⟩⟩

theorem passStyleOf_arr_facts {reg : Registry} {oid : Nat} {fr : Bool}
    {elems : List JSVal} {ps : PassStyle}
    (hreg : lookupNS reg oid = none)
    (hps : passStyleOf reg (.arr oid fr elems) = .ok ps) :
    fr = true ∧ ps = .copyArray := by
  simp only [passStyleOf, hreg, Option.isSome_none, Bool.false_eq_true,
    if_false] at hps
  cases fr with
  | false => simp at hps
  | true =>
    simp only [Bool.not_true, Bool.false_eq_true, if_false] at hps
    exact ⟨rfl, (Except.ok.inj hps).symm⟩

theorem passStyleOf_errObj_facts {reg : Registry} {oid : Nat} {fr : Bool}
    {name msg : String} {ps : PassStyle}
    (hreg : lookupNS reg oid = none)
    (hps : passStyleOf reg (.errObj oid fr name msg) = .ok ps) :
    fr = true ∧ getErrorConstructor name = some name ∧ ps = .copyError := by
  simp only [passStyleOf, hreg, Option.isSome_none, Bool.false_eq_true,
    if_false] at hps
  cases fr with
  | false => simp at hps
  | true =>
    simp only [Bool.not_true, Bool.false_eq_true, if_false] at hps
    by_cases hm : name ∈ errorConstructorNames
    · have hec : getErrorConstructor name = some name := by
        simp [getErrorConstructor, hm]
      rw [hec] at hps
      simp only [Option.isNone_some, Bool.false_eq_true, if_false] at hps
      exact ⟨rfl, hec, (Except.ok.inj hps).symm⟩
    · have hec : getErrorConstructor name = none := by
        simp [getErrorConstructor, hm]
      rw [hec] at hps
      simp at hps

theorem serializeSlot_sim (vts : JSVal → JSVal) (v1 v2 : JSVal)
    (oid1 oid2 : Nat) (iface : Option String) (st1 st2 : EncState)
    (hnn1 : lookupNN st1.slotMap oid1 = none)
    (hnn2 : lookupNN st2.slotMap oid2 = none)
    (hlen : st1.slots.length = st2.slots.length) :
    (serializeSlot vts v1 oid1 iface st1).1 =
      (serializeSlot vts v2 oid2 iface st2).1 ∧
    ((serializeSlot vts v1 oid1 iface st1).2).slots.length =
      ((serializeSlot vts v2 oid2 iface st2).2).slots.length := by
  cases iface <;> simp [serializeSlot, hnn1, hnn2, hlen]

theorem pair_eq_parts {α β : Type} {p : α × β} {a : α} {b : β}
    (h : p = (a, b)) : p.1 = a ∧ p.2 = b := by
  rw [h]
  exact ⟨rfl, rfl⟩

set_option maxHeartbeats 4000000 in
/-- Two structurally equal values, each an unaliased graph with unique
record property names, no copy-shaped object registered as a remotable,
and all object ids fresh for the encoder state, encode to the same raw
tree whenever both encoder runs succeed; the runs also stay related
(equal slot counts and error counts). -/
theorem encode_structEq_sim (reg : Registry) (vts : JSVal → JSVal)
    (mn : String) :
    ∀ N : Nat,
      (∀ v1 v2 st1 st2 j1 j2 st1' st2', jsize v1 ≤ N →
        structEq v1 v2 = true →
        wfNames v1 = true → wfNames v2 = true →
        regOK reg v1 = true → regOK reg v2 = true →
        (oids v1).Nodup → (oids v2).Nodup →
        (∀ o ∈ oids v1, o ∉ EncState.ibids st1) →
        (∀ o ∈ oids v2, o ∉ EncState.ibids st2) →
        (∀ p ∈ EncState.slotMap st1, p.1 ∈ EncState.ibids st1) →
        (∀ p ∈ EncState.slotMap st2, p.1 ∈ EncState.ibids st2) →
        (EncState.slots st1).length = (EncState.slots st2).length →
        EncState.errorCount st1 = EncState.errorCount st2 →
        encode reg vts mn v1 st1 = .ok (j1, st1') →
        encode reg vts mn v2 st2 = .ok (j2, st2') →
        j1 = j2 ∧ st1'.slots.length = st2'.slots.length ∧
          st1'.errorCount = st2'.errorCount) ∧
      (∀ f1 f2 names st1 st2 jfs1 jfs2 st1' st2',
        fsize f1 + names.length ≤ N →
        fieldsSub f1 f2 = true →
        nodupStr (f1.map Prod.fst) = true →
        nodupStr (f2.map Prod.fst) = true →
        wfNamesF f1 = true → wfNamesF f2 = true →
        regOKF reg f1 = true → regOKF reg f2 = true →
        (oidsF f1).Nodup → (oidsF f2).Nodup →
        names.Nodup →
        (∀ n ∈ names, ∀ w, lookupV f1 n = some w →
          ∀ o ∈ oids w, o ∉ EncState.ibids st1) →
        (∀ n ∈ names, ∀ w, lookupV f2 n = some w →
          ∀ o ∈ oids w, o ∉ EncState.ibids st2) →
        (∀ p ∈ EncState.slotMap st1, p.1 ∈ EncState.ibids st1) →
        (∀ p ∈ EncState.slotMap st2, p.1 ∈ EncState.ibids st2) →
        (EncState.slots st1).length = (EncState.slots st2).length →
        EncState.errorCount st1 = EncState.errorCount st2 →
        encodeNamedFields reg vts mn f1 names st1 = .ok (jfs1, st1') →
        encodeNamedFields reg vts mn f2 names st2 = .ok (jfs2, st2') →
        jfs1 = jfs2 ∧ st1'.slots.length = st2'.slots.length ∧
          st1'.errorCount = st2'.errorCount) ∧
      (∀ e1 e2 st1 st2 js1 js2 st1' st2', lsize e1 ≤ N →
        structEqList e1 e2 = true →
        wfNamesL e1 = true → wfNamesL e2 = true →
        regOKL reg e1 = true → regOKL reg e2 = true →
        (oidsL e1).Nodup → (oidsL e2).Nodup →
        (∀ o ∈ oidsL e1, o ∉ EncState.ibids st1) →
        (∀ o ∈ oidsL e2, o ∉ EncState.ibids st2) →
        (∀ p ∈ EncState.slotMap st1, p.1 ∈ EncState.ibids st1) →
        (∀ p ∈ EncState.slotMap st2, p.1 ∈ EncState.ibids st2) →
        (EncState.slots st1).length = (EncState.slots st2).length →
        EncState.errorCount st1 = EncState.errorCount st2 →
        encodeList reg vts mn e1 st1 = .ok (js1, st1') →
        encodeList reg vts mn e2 st2 = .ok (js2, st2') →
        js1 = js2 ∧ st1'.slots.length = st2'.slots.length ∧
          st1'.errorCount = st2'.errorCount) := by
  intro N
  induction N using Nat.strong_induction_on with
  | _ N IH =>
  refine ⟨?_, ?_, ?_⟩
  · intro v1 v2 st1 st2 j1 j2 st1' st2' hsz hse hwf1 hwf2 hrg1 hrg2 hnd1
      hnd2 hfresh1 hfresh2 hsm1 hsm2 hlen herr h1 h2
    cases v1 with
    | undef =>
      cases v2 <;> simp [structEq] at hse
      simp only [encode, passStyleOf, Except.ok.injEq, Prod.mk.injEq] at h1 h2
      exact ⟨h1.1.symm.trans h2.1, by rw [← h1.2, ← h2.2]; exact hlen,
        by rw [← h1.2, ← h2.2]; exact herr⟩
    | nullV =>
      cases v2 <;> simp [structEq] at hse
      simp only [encode, passStyleOf, Except.ok.injEq, Prod.mk.injEq] at h1 h2
      exact ⟨h1.1.symm.trans h2.1, by rw [← h1.2, ← h2.2]; exact hlen,
        by rw [← h1.2, ← h2.2]; exact herr⟩
    | bool b1 =>
      cases v2 <;> simp [structEq] at hse
      subst hse
      simp only [encode, passStyleOf, Except.ok.injEq, Prod.mk.injEq] at h1 h2
      exact ⟨h1.1.symm.trans h2.1, by rw [← h1.2, ← h2.2]; exact hlen,
        by rw [← h1.2, ← h2.2]; exact herr⟩
    | num n1 =>
      cases v2 <;> simp [structEq] at hse
      case num n2 =>
        subst hse
        simp only [encode, passStyleOf, Except.ok.injEq, Prod.mk.injEq]
          at h1 h2
        exact ⟨h1.1.symm.trans h2.1, by rw [← h1.2, ← h2.2]; exact hlen,
          by rw [← h1.2, ← h2.2]; exact herr⟩
      case negZero =>
        subst hse
        simp only [encode, passStyleOf, Except.ok.injEq, Prod.mk.injEq]
          at h1 h2
        exact ⟨h1.1.symm.trans h2.1, by rw [← h1.2, ← h2.2]; exact hlen,
          by rw [← h1.2, ← h2.2]; exact herr⟩
    | nan =>
      cases v2 <;> simp [structEq] at hse
      simp only [encode, passStyleOf, Except.ok.injEq, Prod.mk.injEq] at h1 h2
      exact ⟨h1.1.symm.trans h2.1, by rw [← h1.2, ← h2.2]; exact hlen,
        by rw [← h1.2, ← h2.2]; exact herr⟩
    | posInf =>
      cases v2 <;> simp [structEq] at hse
      simp only [encode, passStyleOf, Except.ok.injEq, Prod.mk.injEq] at h1 h2
      exact ⟨h1.1.symm.trans h2.1, by rw [← h1.2, ← h2.2]; exact hlen,
        by rw [← h1.2, ← h2.2]; exact herr⟩
    | negInf =>
      cases v2 <;> simp [structEq] at hse
      simp only [encode, passStyleOf, Except.ok.injEq, Prod.mk.injEq] at h1 h2
      exact ⟨h1.1.symm.trans h2.1, by rw [← h1.2, ← h2.2]; exact hlen,
        by rw [← h1.2, ← h2.2]; exact herr⟩
    | negZero =>
      cases v2 <;> simp [structEq] at hse
      case negZero =>
        simp only [encode, passStyleOf, Except.ok.injEq, Prod.mk.injEq]
          at h1 h2
        exact ⟨h1.1.symm.trans h2.1, by rw [← h1.2, ← h2.2]; exact hlen,
          by rw [← h1.2, ← h2.2]; exact herr⟩
      case num n2 =>
        subst hse
        simp only [encode, passStyleOf, Except.ok.injEq, Prod.mk.injEq]
          at h1 h2
        exact ⟨h1.1.symm.trans h2.1, by rw [← h1.2, ← h2.2]; exact hlen,
          by rw [← h1.2, ← h2.2]; exact herr⟩
    | bigint i1 =>
      cases v2 <;> simp [structEq] at hse
      subst hse
      simp only [encode, passStyleOf, Except.ok.injEq, Prod.mk.injEq] at h1 h2
      exact ⟨h1.1.symm.trans h2.1, by rw [← h1.2, ← h2.2]; exact hlen,
        by rw [← h1.2, ← h2.2]; exact herr⟩
    | str s1 =>
      cases v2 <;> simp [structEq] at hse
      subst hse
      simp only [encode, passStyleOf, Except.ok.injEq, Prod.mk.injEq] at h1 h2
      exact ⟨h1.1.symm.trans h2.1, by rw [← h1.2, ← h2.2]; exact hlen,
        by rw [← h1.2, ← h2.2]; exact herr⟩
    | symAsync =>
      cases v2 <;> simp [structEq] at hse
      simp only [encode, passStyleOf, Except.ok.injEq, Prod.mk.injEq] at h1 h2
      exact ⟨h1.1.symm.trans h2.1, by rw [← h1.2, ← h2.2]; exact hlen,
        by rw [← h1.2, ← h2.2]; exact herr⟩
    | cycleRef i1 =>
      simp only [encode, passStyleOf] at h1
      exact absurd h1 (by simp)
    | methodsObj oid fr methods =>
      cases v2 <;> simp [structEq] at hse
      obtain ⟨⟨rfl, rfl⟩, rfl⟩ := hse
      cases hps : passStyleOf reg (.methodsObj oid fr methods) with
      | error e =>
        simp only [encode, hps] at h1
        exact absurd h1 (by simp)
      | ok ps =>
        have hrs := passStyleOf_methodsObj_style hps
        subst hrs
        simp only [encode, hps, oidOf] at h1 h2
        have hc1 : st1.ibids.contains oid = false :=
          contains_eq_false_nat (hfresh1 oid (by simp [oids]))
        have hc2 : st2.ibids.contains oid = false :=
          contains_eq_false_nat (hfresh2 oid (by simp [oids]))
        simp only [hc1, Bool.false_eq_true, if_false] at h1
        simp only [hc2, Bool.false_eq_true, if_false] at h2
        have hnn1 : lookupNN st1.slotMap oid = none :=
          lookupNN_none_of_keys fun p hp he =>
            (hfresh1 oid (by simp [oids])) (he ▸ hsm1 p hp)
        have hnn2 : lookupNN st2.slotMap oid = none :=
          lookupNN_none_of_keys fun p hp he =>
            (hfresh2 oid (by simp [oids])) (he ▸ hsm2 p hp)
        obtain ⟨hj1, hs1⟩ := pair_eq_parts (Except.ok.inj h1)
        obtain ⟨hj2, hs2⟩ := pair_eq_parts (Except.ok.inj h2)
        obtain ⟨hjeq, hleneq⟩ := serializeSlot_sim vts
          (.methodsObj oid fr methods) (.methodsObj oid fr methods) oid oid
          (getInterfaceOf reg (.methodsObj oid fr methods))
          { st1 with ibids := st1.ibids ++ [oid] }
          { st2 with ibids := st2.ibids ++ [oid] } hnn1 hnn2 hlen
        refine ⟨by rw [← hj1, ← hj2]; exact hjeq,
          by rw [← hs1, ← hs2]; exact hleneq, ?_⟩
        rw [← hs1, ← hs2,
          (serializeSlot_state vts _ oid _ _).2,
          (serializeSlot_state vts _ oid _ _).2]
        exact herr
    | promise oid fr =>
      cases v2 <;> simp [structEq] at hse
      obtain ⟨rfl, rfl⟩ := hse
      cases hps : passStyleOf reg (.promise oid fr) with
      | error e =>
        simp only [encode, hps] at h1
        exact absurd h1 (by simp)
      | ok ps =>
        have hnn1 : lookupNN st1.slotMap oid = none :=
          lookupNN_none_of_keys fun p hp he =>
            (hfresh1 oid (by simp [oids])) (he ▸ hsm1 p hp)
        have hnn2 : lookupNN st2.slotMap oid = none :=
          lookupNN_none_of_keys fun p hp he =>
            (hfresh2 oid (by simp [oids])) (he ▸ hsm2 p hp)
        have hc1 : st1.ibids.contains oid = false :=
          contains_eq_false_nat (hfresh1 oid (by simp [oids]))
        have hc2 : st2.ibids.contains oid = false :=
          contains_eq_false_nat (hfresh2 oid (by simp [oids]))
        rcases passStyleOf_promise_style hps with hrs | hrs <;> subst hrs <;>
          simp only [encode, hps, oidOf] at h1 h2 <;>
          simp only [hc1, Bool.false_eq_true, if_false] at h1 <;>
          simp only [hc2, Bool.false_eq_true, if_false] at h2
        · obtain ⟨hj1, hs1⟩ := pair_eq_parts (Except.ok.inj h1)
          obtain ⟨hj2, hs2⟩ := pair_eq_parts (Except.ok.inj h2)
          obtain ⟨hjeq, hleneq⟩ := serializeSlot_sim vts
            (.promise oid fr) (.promise oid fr) oid oid
            (getInterfaceOf reg (.promise oid fr))
            { st1 with ibids := st1.ibids ++ [oid] }
            { st2 with ibids := st2.ibids ++ [oid] } hnn1 hnn2 hlen
          refine ⟨by rw [← hj1, ← hj2]; exact hjeq,
            by rw [← hs1, ← hs2]; exact hleneq, ?_⟩
          rw [← hs1, ← hs2,
            (serializeSlot_state vts _ oid _ _).2,
            (serializeSlot_state vts _ oid _ _).2]
          exact herr
        · obtain ⟨hj1, hs1⟩ := pair_eq_parts (Except.ok.inj h1)
          obtain ⟨hj2, hs2⟩ := pair_eq_parts (Except.ok.inj h2)
          obtain ⟨hjeq, hleneq⟩ := serializeSlot_sim vts
            (.promise oid fr) (.promise oid fr) oid oid none
            { st1 with ibids := st1.ibids ++ [oid] }
            { st2 with ibids := st2.ibids ++ [oid] } hnn1 hnn2 hlen
          refine ⟨by rw [← hj1, ← hj2]; exact hjeq,
            by rw [← hs1, ← hs2]; exact hleneq, ?_⟩
          rw [← hs1, ← hs2,
            (serializeSlot_state vts _ oid _ _).2,
            (serializeSlot_state vts _ oid _ _).2]
          exact herr
    | errObj oid1 fr1 name1 msg1 =>
      cases v2 <;> simp [structEq] at hse
      rename_i oid2 fr2 name2 msg2
      obtain ⟨rfl, rfl⟩ := hse
      simp only [regOK] at hrg1 hrg2
      have hregn1 : lookupNS reg oid1 = none :=
        Option.isNone_iff_eq_none.mp hrg1
      have hregn2 : lookupNS reg oid2 = none :=
        Option.isNone_iff_eq_none.mp hrg2
      cases hps1 : passStyleOf reg (.errObj oid1 fr1 name1 msg1) with
      | error e =>
        simp only [encode, hps1] at h1
        exact absurd h1 (by simp)
      | ok ps1 =>
      cases hps2 : passStyleOf reg (.errObj oid2 fr2 name1 msg1) with
      | error e =>
        simp only [encode, hps2] at h2
        exact absurd h2 (by simp)
      | ok ps2 =>
      obtain ⟨hfra, -, hcp1⟩ := passStyleOf_errObj_facts hregn1 hps1
      obtain ⟨hfrb, -, hcp2⟩ := passStyleOf_errObj_facts hregn2 hps2
      subst hfra hfrb hcp1 hcp2
      have hc1 : st1.ibids.contains oid1 = false :=
        contains_eq_false_nat (hfresh1 oid1 (by simp [oids]))
      have hc2 : st2.ibids.contains oid2 = false :=
        contains_eq_false_nat (hfresh2 oid2 (by simp [oids]))
      simp only [encode, hps1, oidOf] at h1
      simp only [encode, hps2, oidOf] at h2
      simp only [hc1, Bool.false_eq_true, if_false] at h1
      simp only [hc2, Bool.false_eq_true, if_false] at h2
      simp only [Except.ok.injEq, Prod.mk.injEq] at h1 h2
      obtain ⟨hj1, hs1⟩ := h1
      obtain ⟨hj2, hs2⟩ := h2
      refine ⟨?_, ?_, ?_⟩
      · rw [← hj1, ← hj2]
        simp [herr]
      · rw [← hs1, ← hs2]
        simpa using hlen
      · rw [← hs1, ← hs2]
        simpa using herr
    | record oid1 fr1 f1 =>
      cases v2 <;> simp [structEq] at hse
      rename_i oid2 fr2 f2
      obtain ⟨hlenf, hsub⟩ := hse
      simp only [regOK, Bool.and_eq_true] at hrg1 hrg2
      have hregn1 : lookupNS reg oid1 = none :=
        Option.isNone_iff_eq_none.mp hrg1.1
      have hregn2 : lookupNS reg oid2 = none :=
        Option.isNone_iff_eq_none.mp hrg2.1
      simp only [wfNames, Bool.and_eq_true] at hwf1 hwf2
      cases hps1 : passStyleOf reg (.record oid1 fr1 f1) with
      | error e =>
        simp only [encode, hps1] at h1
        exact absurd h1 (by simp)
      | ok ps1 =>
      cases hps2 : passStyleOf reg (.record oid2 fr2 f2) with
      | error e =>
        simp only [encode, hps2] at h2
        exact absurd h2 (by simp)
      | ok ps2 =>
      obtain ⟨hq1, hfra, hstyle1⟩ := passStyleOf_record_facts hregn1 hps1
      obtain ⟨hq2, hfrb, hstyle2⟩ := passStyleOf_record_facts hregn2 hps2
      subst hfra hfrb
      have hc1 : st1.ibids.contains oid1 = false :=
        contains_eq_false_nat (hfresh1 oid1 (by simp [oids]))
      have hc2 : st2.ibids.contains oid2 = false :=
        contains_eq_false_nat (hfresh2 oid2 (by simp [oids]))
      rcases hstyle1 with ⟨he1, rfl⟩ | ⟨he1, rfl⟩
      · have hf1nil : f1 = [] := by
          cases f1 with
          | nil => rfl
          | cons a l => simp [List.isEmpty] at he1
        subst hf1nil
        have hf2nil : f2 = [] := by
          cases f2 with
          | nil => rfl
          | cons a l => simp at hlenf
        subst hf2nil
        rcases hstyle2 with ⟨he2, rfl⟩ | ⟨he2, rfl⟩
        · simp only [encode, hps1, oidOf] at h1
          simp only [encode, hps2, oidOf] at h2
          simp only [hc1, Bool.false_eq_true, if_false] at h1
          simp only [hc2, Bool.false_eq_true, if_false] at h2
          have hif1 : getInterfaceOf reg (.record oid1 true []) = none := by
            simp [getInterfaceOf, oidOf, hregn1]
          have hif2 : getInterfaceOf reg (.record oid2 true []) = none := by
            simp [getInterfaceOf, oidOf, hregn2]
          rw [hif1] at h1
          rw [hif2] at h2
          have hnn1 : lookupNN st1.slotMap oid1 = none :=
            lookupNN_none_of_keys fun p hp he =>
              (hfresh1 oid1 (by simp [oids])) (he ▸ hsm1 p hp)
          have hnn2 : lookupNN st2.slotMap oid2 = none :=
            lookupNN_none_of_keys fun p hp he =>
              (hfresh2 oid2 (by simp [oids])) (he ▸ hsm2 p hp)
          obtain ⟨hj1, hs1⟩ := pair_eq_parts (Except.ok.inj h1)
          obtain ⟨hj2, hs2⟩ := pair_eq_parts (Except.ok.inj h2)
          obtain ⟨hjeq, hleneq⟩ := serializeSlot_sim vts
            (.record oid1 true []) (.record oid2 true []) oid1 oid2 none
            { st1 with ibids := st1.ibids ++ [oid1] }
            { st2 with ibids := st2.ibids ++ [oid2] } hnn1 hnn2 hlen
          refine ⟨by rw [← hj1, ← hj2]; exact hjeq,
            by rw [← hs1, ← hs2]; exact hleneq, ?_⟩
          rw [← hs1, ← hs2,
            (serializeSlot_state vts _ oid1 _ _).2,
            (serializeSlot_state vts _ oid2 _ _).2]
          exact herr
        · simp at he2
      · rcases hstyle2 with ⟨he2, rfl⟩ | ⟨he2, rfl⟩
        · exfalso
          have h2nil : f2 = [] := by
            cases f2 with
            | nil => rfl
            | cons a l => simp [List.isEmpty] at he2
          subst h2nil
          have h1nil : f1 = [] := by
            cases f1 with
            | nil => rfl
            | cons a l => simp at hlenf
          subst h1nil
          simp [List.isEmpty] at he1
        · simp only [encode, hps1, oidOf] at h1
          simp only [encode, hps2, oidOf] at h2
          simp only [hc1, Bool.false_eq_true, if_false] at h1
          simp only [hc2, Bool.false_eq_true, if_false] at h2
          cases henc1 : encodeNamedFields reg vts mn f1
              (sortNames (f1.map Prod.fst))
              { st1 with ibids := st1.ibids ++ [oid1] } with
          | error e =>
            rw [henc1] at h1
            exact absurd h1 (by simp)
          | ok p1 =>
          obtain ⟨jfs1, stB1⟩ := p1
          rw [henc1] at h1
          simp only [Except.ok.injEq, Prod.mk.injEq] at h1
          obtain ⟨hj1, hs1⟩ := h1
          cases henc2 : encodeNamedFields reg vts mn f2
              (sortNames (f2.map Prod.fst))
              { st2 with ibids := st2.ibids ++ [oid2] } with
          | error e =>
            rw [henc2] at h2
            exact absurd h2 (by simp)
          | ok p2 =>
          obtain ⟨jfs2, stB2⟩ := p2
          rw [henc2] at h2
          simp only [Except.ok.injEq, Prod.mk.injEq] at h2
          obtain ⟨hj2, hs2⟩ := h2
          have hnd1n : (f1.map Prod.fst).Nodup := (nodupStr_iff _).mp hwf1.1
          have hnd2n : (f2.map Prod.fst).Nodup := (nodupStr_iff _).mp hwf2.1
          have hsubset : f1.map Prod.fst ⊆ f2.map Prod.fst := by
            intro n hn
            obtain ⟨x, hx⟩ := lookupV_of_mem_names hn
            obtain ⟨y, hy, -⟩ := fieldsSub_lookup hsub (lookupV_mem hx)
            exact List.mem_map_of_mem Prod.fst (lookupV_mem hy)
          have hperm : List.Perm (f1.map Prod.fst) (f2.map Prod.fst) :=
            (hnd1n.subperm hsubset).perm_of_length_le (by simp [hlenf])
          have hnames : sortNames (f1.map Prod.fst) =
              sortNames (f2.map Prod.fst) := sortNames_eq_of_perm hperm
          rw [← hnames] at henc2
          simp only [oids, List.nodup_cons] at hnd1 hnd2
          have hsort_nd : (sortNames (f1.map Prod.fst)).Nodup :=
            ((sortNames_perm _).nodup_iff).mpr hnd1n
          have hmeas : fsize f1 + (sortNames (f1.map Prod.fst)).length ≤
              N - 1 := by
            have ha := length_le_fsize f1
            have hb : (sortNames (f1.map Prod.fst)).length = f1.length := by
              rw [sortNames_length, List.length_map]
            simp only [jsize] at hsz
            omega
          have hN : N - 1 < N := by
            have := jsize_pos (JSVal.record oid1 true f1)
            omega
          have hfreshF1 : ∀ n ∈ sortNames (f1.map Prod.fst), ∀ w,
              lookupV f1 n = some w → ∀ o ∈ oids w,
              o ∉ st1.ibids ++ [oid1] := by
            intro n hn w hw o ho
            have hsubo : o ∈ oidsF f1 := oids_lookup_sub hw ho
            simp only [List.mem_append, List.mem_singleton]
            rintro (hin | rfl)
            · exact hfresh1 o (by simp [oids, hsubo]) hin
            · exact hnd1.1 hsubo
          have hfreshF2 : ∀ n ∈ sortNames (f1.map Prod.fst), ∀ w,
              lookupV f2 n = some w → ∀ o ∈ oids w,
              o ∉ st2.ibids ++ [oid2] := by
            intro n hn w hw o ho
            have hsubo : o ∈ oidsF f2 := oids_lookup_sub hw ho
            simp only [List.mem_append, List.mem_singleton]
            rintro (hin | rfl)
            · exact hfresh2 o (by simp [oids, hsubo]) hin
            · exact hnd2.1 hsubo
          obtain ⟨hjeq, hlenB, herrB⟩ := ((IH (N - 1) hN).2.1) f1 f2
            (sortNames (f1.map Prod.fst))
            { st1 with ibids := st1.ibids ++ [oid1] }
            { st2 with ibids := st2.ibids ++ [oid2] }
            jfs1 jfs2 stB1 stB2 hmeas hsub hwf1.1 hwf2.1 hwf1.2 hwf2.2
            hrg1.2 hrg2.2 hnd1.2 hnd2.2 hsort_nd hfreshF1 hfreshF2
            (fun p hp => List.mem_append.mpr (Or.inl (hsm1 p hp)))
            (fun p hp => List.mem_append.mpr (Or.inl (hsm2 p hp)))
            hlen herr henc1 henc2
          exact ⟨by rw [← hj1, ← hj2, hjeq],
            by rw [← hs1, ← hs2]; exact hlenB,
            by rw [← hs1, ← hs2]; exact herrB⟩
    | arr oid1 fr1 e1 =>
      cases v2 <;> simp [structEq] at hse
      rename_i oid2 fr2 e2
      simp only [regOK, Bool.and_eq_true] at hrg1 hrg2
      have hregn1 : lookupNS reg oid1 = none :=
        Option.isNone_iff_eq_none.mp hrg1.1
      have hregn2 : lookupNS reg oid2 = none :=
        Option.isNone_iff_eq_none.mp hrg2.1
      simp only [wfNames] at hwf1 hwf2
      cases hps1 : passStyleOf reg (.arr oid1 fr1 e1) with
      | error e =>
        simp only [encode, hps1] at h1
        exact absurd h1 (by simp)
      | ok ps1 =>
      cases hps2 : passStyleOf reg (.arr oid2 fr2 e2) with
      | error e =>
        simp only [encode, hps2] at h2
        exact absurd h2 (by simp)
      | ok ps2 =>
      obtain ⟨hfra, hcp1⟩ := passStyleOf_arr_facts hregn1 hps1
      obtain ⟨hfrb, hcp2⟩ := passStyleOf_arr_facts hregn2 hps2
      subst hfra hfrb hcp1 hcp2
      have hc1 : st1.ibids.contains oid1 = false :=
        contains_eq_false_nat (hfresh1 oid1 (by simp [oids]))
      have hc2 : st2.ibids.contains oid2 = false :=
        contains_eq_false_nat (hfresh2 oid2 (by simp [oids]))
      simp only [encode, hps1, oidOf] at h1
      simp only [encode, hps2, oidOf] at h2
      simp only [hc1, Bool.false_eq_true, if_false] at h1
      simp only [hc2, Bool.false_eq_true, if_false] at h2
      cases henc1 : encodeList reg vts mn e1
          { st1 with ibids := st1.ibids ++ [oid1] } with
      | error e =>
        rw [henc1] at h1
        exact absurd h1 (by simp)
      | ok p1 =>
      obtain ⟨js1, stB1⟩ := p1
      rw [henc1] at h1
      simp only [Except.ok.injEq, Prod.mk.injEq] at h1
      obtain ⟨hj1, hs1⟩ := h1
      cases henc2 : encodeList reg vts mn e2
          { st2 with ibids := st2.ibids ++ [oid2] } with
      | error e =>
        rw [henc2] at h2
        exact absurd h2 (by simp)
      | ok p2 =>
      obtain ⟨js2, stB2⟩ := p2
      rw [henc2] at h2
      simp only [Except.ok.injEq, Prod.mk.injEq] at h2
      obtain ⟨hj2, hs2⟩ := h2
      simp only [oids, List.nodup_cons] at hnd1 hnd2
      have hN : N - 1 < N := by
        have := jsize_pos (JSVal.arr oid1 true e1)
        omega
      have hfreshL1 : ∀ o ∈ oidsL e1, o ∉ st1.ibids ++ [oid1] := by
        intro o ho
        simp only [List.mem_append, List.mem_singleton]
        rintro (hin | rfl)
        · exact hfresh1 o (by simp [oids, ho]) hin
        · exact hnd1.1 ho
      have hfreshL2 : ∀ o ∈ oidsL e2, o ∉ st2.ibids ++ [oid2] := by
        intro o ho
        simp only [List.mem_append, List.mem_singleton]
        rintro (hin | rfl)
        · exact hfresh2 o (by simp [oids, ho]) hin
        · exact hnd2.1 ho
      obtain ⟨hjeq, hlenB, herrB⟩ := ((IH (N - 1) hN).2.2) e1 e2
        { st1 with ibids := st1.ibids ++ [oid1] }
        { st2 with ibids := st2.ibids ++ [oid2] }
        js1 js2 stB1 stB2 (by simp only [jsize] at hsz; omega) hse
        hwf1 hwf2 hrg1.2 hrg2.2 hnd1.2 hnd2.2 hfreshL1 hfreshL2
        (fun p hp => List.mem_append.mpr (Or.inl (hsm1 p hp)))
        (fun p hp => List.mem_append.mpr (Or.inl (hsm2 p hp)))
        hlen herr henc1 henc2
      exact ⟨by rw [← hj1, ← hj2, hjeq],
        by rw [← hs1, ← hs2]; exact hlenB,
        by rw [← hs1, ← hs2]; exact herrB⟩
  · intro f1 f2 names st1 st2 jfs1 jfs2 st1' st2' hsz hsub hndn1 hndn2
      hwfF1 hwfF2 hrgF1 hrgF2 hoid1 hoid2 hnamesnd hfreshH1 hfreshH2
      hsm1 hsm2 hlen herr h1 h2
    cases names with
    | nil =>
      simp only [encodeNamedFields, Except.ok.injEq, Prod.mk.injEq] at h1 h2
      exact ⟨h1.1.symm.trans h2.1, by rw [← h1.2, ← h2.2]; exact hlen,
        by rw [← h1.2, ← h2.2]; exact herr⟩
    | cons n rest =>
      rw [encodeNamedFields] at h1 h2
      cases hw1 : lookupV f1 n with
      | none =>
        rw [hw1] at h1
        simp only [] at h1
        exact absurd h1 (by simp)
      | some x =>
      rw [hw1] at h1
      simp only [] at h1
      cases hw2 : lookupV f2 n with
      | none =>
        rw [hw2] at h2
        simp only [] at h2
        exact absurd h2 (by simp)
      | some y =>
      rw [hw2] at h2
      simp only [] at h2
      cases henc1 : encode reg vts mn x st1 with
      | error e =>
        rw [henc1] at h1
        exact absurd h1 (by simp)
      | ok p1 =>
      obtain ⟨jx1, stA1⟩ := p1
      rw [henc1] at h1
      simp only [] at h1
      cases hrest1 : encodeNamedFields reg vts mn f1 rest stA1 with
      | error e =>
        rw [hrest1] at h1
        exact absurd h1 (by simp)
      | ok q1 =>
      obtain ⟨jr1, stB1⟩ := q1
      rw [hrest1] at h1
      simp only [Except.ok.injEq, Prod.mk.injEq] at h1
      obtain ⟨hj1, hs1⟩ := h1
      cases henc2 : encode reg vts mn y st2 with
      | error e =>
        rw [henc2] at h2
        exact absurd h2 (by simp)
      | ok p2 =>
      obtain ⟨jx2, stA2⟩ := p2
      rw [henc2] at h2
      simp only [] at h2
      cases hrest2 : encodeNamedFields reg vts mn f2 rest stA2 with
      | error e =>
        rw [hrest2] at h2
        exact absurd h2 (by simp)
      | ok q2 =>
      obtain ⟨jr2, stB2⟩ := q2
      rw [hrest2] at h2
      simp only [Except.ok.injEq, Prod.mk.injEq] at h2
      obtain ⟨hj2, hs2⟩ := h2
      obtain ⟨y', hy', hxy⟩ := fieldsSub_lookup hsub (lookupV_mem hw1)
      have hyy : y' = y := Option.some.inj (hy'.symm.trans hw2)
      rw [hyy] at hxy
      have hszw := lookupV_jsize_lt hw1
      have hN : N - 1 < N := by
        simp only [List.length_cons] at hsz
        omega
      obtain ⟨hjx, hlenA, herrA⟩ := ((IH (N - 1) hN).1) x y st1 st2 jx1 jx2
        stA1 stA2 (by simp only [List.length_cons] at hsz; omega) hxy
        (wfNamesF_mem hwfF1 (lookupV_mem hw1))
        (wfNamesF_mem hwfF2 (lookupV_mem hw2))
        (regOKF_mem hrgF1 (lookupV_mem hw1))
        (regOKF_mem hrgF2 (lookupV_mem hw2))
        (oidsF_nodup_lookup hoid1 hw1) (oidsF_nodup_lookup hoid2 hw2)
        (hfreshH1 n (List.mem_cons_self _ _) x hw1)
        (hfreshH2 n (List.mem_cons_self _ _) y hw2)
        hsm1 hsm2 hlen herr henc1 henc2
      obtain ⟨δ1, hδ1, hδsub1⟩ := ((encode_growth reg vts mn (jsize x)).1)
        x st1 jx1 stA1 le_rfl henc1
      obtain ⟨δ2, hδ2, hδsub2⟩ := ((encode_growth reg vts mn (jsize y)).1)
        y st2 jx2 stA2 le_rfl henc2
      have hfreshR1 : ∀ m ∈ rest, ∀ w, lookupV f1 m = some w →
          ∀ o ∈ oids w, o ∉ stA1.ibids := by
        intro m hm w hw o ho
        rw [hδ1]
        simp only [List.mem_append]
        rintro (hin | hδin)
        · exact hfreshH1 m (List.mem_cons_of_mem _ hm) w hw o ho hin
        · have hne : m ≠ n := by
            rintro rfl
            exact (List.nodup_cons.mp hnamesnd).1 hm
          exact lookup_oids_disjoint hndn1 hoid1 hne hw hw1 o ho
            (hδsub1 o hδin)
      have hfreshR2 : ∀ m ∈ rest, ∀ w, lookupV f2 m = some w →
          ∀ o ∈ oids w, o ∉ stA2.ibids := by
        intro m hm w hw o ho
        rw [hδ2]
        simp only [List.mem_append]
        rintro (hin | hδin)
        · exact hfreshH2 m (List.mem_cons_of_mem _ hm) w hw o ho hin
        · have hne : m ≠ n := by
            rintro rfl
            exact (List.nodup_cons.mp hnamesnd).1 hm
          exact lookup_oids_disjoint hndn2 hoid2 hne hw hw2 o ho
            (hδsub2 o hδin)
      obtain ⟨hjr, hlenB, herrB⟩ := ((IH (N - 1) hN).2.1) f1 f2 rest stA1
        stA2 jr1 jr2 stB1 stB2
        (by simp only [List.length_cons] at hsz; have := jsize_pos x; omega)
        hsub hndn1 hndn2 hwfF1 hwfF2 hrgF1 hrgF2 hoid1 hoid2
        (List.nodup_cons.mp hnamesnd).2 hfreshR1 hfreshR2
        (encode_smOK henc1 hsm1) (encode_smOK henc2 hsm2)
        hlenA herrA hrest1 hrest2
      exact ⟨by rw [← hj1, ← hj2, hjx, hjr],
        by rw [← hs1, ← hs2]; exact hlenB,
        by rw [← hs1, ← hs2]; exact herrB⟩
  · intro e1 e2 st1 st2 js1 js2 st1' st2' hsz hse hwfL1 hwfL2 hrgL1 hrgL2
      hoid1 hoid2 hfreshL1 hfreshL2 hsm1 hsm2 hlen herr h1 h2
    cases e1 with
    | nil =>
      cases e2 with
      | cons a l => simp [structEqList] at hse
      | nil =>
        simp only [encodeList, Except.ok.injEq, Prod.mk.injEq] at h1 h2
        exact ⟨h1.1.symm.trans h2.1, by rw [← h1.2, ← h2.2]; exact hlen,
          by rw [← h1.2, ← h2.2]; exact herr⟩
    | cons x r1 =>
      cases e2 with
      | nil => simp [structEqList] at hse
      | cons y r2 =>
      simp only [structEqList, Bool.and_eq_true] at hse
      simp only [wfNamesL, Bool.and_eq_true] at hwfL1 hwfL2
      simp only [regOKL, Bool.and_eq_true] at hrgL1 hrgL2
      simp only [oidsL, List.nodup_append] at hoid1 hoid2
      rw [encodeList] at h1 h2
      cases henc1 : encode reg vts mn x st1 with
      | error e =>
        rw [henc1] at h1
        exact absurd h1 (by simp)
      | ok p1 =>
      obtain ⟨jx1, stA1⟩ := p1
      rw [henc1] at h1
      simp only [] at h1
      cases hrest1 : encodeList reg vts mn r1 stA1 with
      | error e =>
        rw [hrest1] at h1
        exact absurd h1 (by simp)
      | ok q1 =>
      obtain ⟨jr1, stB1⟩ := q1
      rw [hrest1] at h1
      simp only [Except.ok.injEq, Prod.mk.injEq] at h1
      obtain ⟨hj1, hs1⟩ := h1
      cases henc2 : encode reg vts mn y st2 with
      | error e =>
        rw [henc2] at h2
        exact absurd h2 (by simp)
      | ok p2 =>
      obtain ⟨jx2, stA2⟩ := p2
      rw [henc2] at h2
      simp only [] at h2
      cases hrest2 : encodeList reg vts mn r2 stA2 with
      | error e =>
        rw [hrest2] at h2
        exact absurd h2 (by simp)
      | ok q2 =>
      obtain ⟨jr2, stB2⟩ := q2
      rw [hrest2] at h2
      simp only [Except.ok.injEq, Prod.mk.injEq] at h2
      obtain ⟨hj2, hs2⟩ := h2
      have hN : N - 1 < N := by
        simp only [lsize] at hsz
        have := jsize_pos x
        omega
      obtain ⟨hjx, hlenA, herrA⟩ := ((IH (N - 1) hN).1) x y st1 st2 jx1 jx2
        stA1 stA2 (by simp only [lsize] at hsz; omega) hse.1
        hwfL1.1 hwfL2.1 hrgL1.1 hrgL2.1 hoid1.1 hoid2.1
        (fun o ho => hfreshL1 o (by simp [oidsL, ho]))
        (fun o ho => hfreshL2 o (by simp [oidsL, ho]))
        hsm1 hsm2 hlen herr henc1 henc2
      obtain ⟨δ1, hδ1, hδsub1⟩ := ((encode_growth reg vts mn (jsize x)).1)
        x st1 jx1 stA1 le_rfl henc1
      obtain ⟨δ2, hδ2, hδsub2⟩ := ((encode_growth reg vts mn (jsize y)).1)
        y st2 jx2 stA2 le_rfl henc2
      have hfreshR1 : ∀ o ∈ oidsL r1, o ∉ stA1.ibids := by
        intro o ho
        rw [hδ1]
        simp only [List.mem_append]
        rintro (hin | hδin)
        · exact hfreshL1 o (by simp [oidsL, ho]) hin
        · exact hoid1.2.2 (hδsub1 o hδin) ho
      have hfreshR2 : ∀ o ∈ oidsL r2, o ∉ stA2.ibids := by
        intro o ho
        rw [hδ2]
        simp only [List.mem_append]
        rintro (hin | hδin)
        · exact hfreshL2 o (by simp [oidsL, ho]) hin
        · exact hoid2.2.2 (hδsub2 o hδin) ho
      obtain ⟨hjr, hlenB, herrB⟩ := ((IH (N - 1) hN).2.2) r1 r2 stA1 stA2
        jr1 jr2 stB1 stB2
        (by simp only [lsize] at hsz; have := jsize_pos x; omega)
        hse.2 hwfL1.2 hwfL2.2 hrgL1.2 hrgL2.2 hoid1.2.1 hoid2.2.1
        hfreshR1 hfreshR2
        (encode_smOK henc1 hsm1) (encode_smOK henc2 hsm2)
        hlenA herrA hrest1 hrest2
      exact ⟨by rw [← hj1, ← hj2, hjx, hjr],
        by rw [← hs1, ← hs2]; exact hlenB,
        by rw [← hs1, ← hs2]; exact herrB⟩

/-- C1: for every value containing no remote-style object and no future
(pure data: so no registered objects, no all-method objects, no promises,
and no empty records — the classifier makes those remote-style), decoding
the serialization with the identity translators rebuilds a graph
structurally equal to the input under sameValueZero semantics (negative
zero and zero identified, NaN equal to NaN), for every cycle policy. The
value is taken from an oid-consistent heap — two object occurrences with
the same object id are the same object, which every real JS object graph
satisfies by construction — so shared substructure is allowed and
round-trips through the ibid encode/decode path; the textual body step
between the two halves is the host's JSON.stringify and JSON.parse, the
identity on these trees. -/
theorem unserialize_serialize_pure_roundtrip :
    ∀ (reg : Registry) (v : JSVal) (policy : String),
      pureVal reg v = true →
      (∀ p ∈ allOccs v, ∀ q ∈ allOccs v, p.1 = q.1 → p.2 = q.2) →
      ∃ t out,
        serializeTree reg defaultValToSlot "anon-marshal" v = .ok (t, []) ∧
        unserialize defaultSlotToVal t [] policy = .ok out ∧
        structEq out v = true := by
  intro reg v policy hpure hcons
  obtain ⟨j, st1, δenv, henc, hslots, -, -, -, hdec⟩ :=
    (encode_pure_roundtrip reg defaultValToSlot "anon-marshal" (jsize v)).1
      v initEncState (jsize v) [] le_rfl le_rfl hpure hcons (by simp) rfl
  obtain ⟨w, dst1, hrev, hseq, -, -, -⟩ :=
    hdec defaultSlotToVal [] policy initDecState rfl
      (by intro k w h; simp [initDecState] at h)
      (by intro k h; simp [initDecState] at h)
  refine ⟨j, w, ?_, ?_, hseq⟩
  · simp only [serializeTree, henc]
    rw [hslots]
    rfl
  · simp only [unserialize, hrev]

/-- Witness for C1 at a concrete pure value with shared substructure: the
record with object id 5 occurs twice (once as a field, once inside an
array), so its second occurrence serializes as an ibid backreference and
the decode resolves it through the reviver ibid table; the value also
exercises unsorted insertion order, bigints, negative zero, NaN and a
copy error. -/
theorem pure_roundtrip_witness :
    pureVal [] (.record 1 true [("b", .bigint (-42)),
      ("a", .record 5 true [("p", .num 1), ("q", .negZero)]),
      ("c", .arr 6 true [.num 3,
        .record 5 true [("p", .num 1), ("q", .negZero)], .nan]),
      ("d", .errObj 7 true "TypeError" "boom")]) = true ∧
    (∃ t out,
      serializeTree [] defaultValToSlot "anon-marshal"
        (.record 1 true [("b", .bigint (-42)),
          ("a", .record 5 true [("p", .num 1), ("q", .negZero)]),
          ("c", .arr 6 true [.num 3,
            .record 5 true [("p", .num 1), ("q", .negZero)], .nan]),
          ("d", .errObj 7 true "TypeError" "boom")]) = .ok (t, []) ∧
      unserialize defaultSlotToVal t [] "forbidCycles" = .ok out ∧
      structEq out
        (.record 1 true [("b", .bigint (-42)),
          ("a", .record 5 true [("p", .num 1), ("q", .negZero)]),
          ("c", .arr 6 true [.num 3,
            .record 5 true [("p", .num 1), ("q", .negZero)], .nan]),
          ("d", .errObj 7 true "TypeError" "boom")]) = true) := by
  have hcons : ∀ p ∈ allOccs (.record 1 true [("b", .bigint (-42)),
      ("a", .record 5 true [("p", .num 1), ("q", .negZero)]),
      ("c", .arr 6 true [.num 3,
        .record 5 true [("p", .num 1), ("q", .negZero)], .nan]),
      ("d", .errObj 7 true "TypeError" "boom")]),
      ∀ q ∈ allOccs (.record 1 true [("b", .bigint (-42)),
        ("a", .record 5 true [("p", .num 1), ("q", .negZero)]),
        ("c", .arr 6 true [.num 3,
          .record 5 true [("p", .num 1), ("q", .negZero)], .nan]),
        ("d", .errObj 7 true "TypeError" "boom")]),
      p.1 = q.1 → p.2 = q.2 := by
    intro p hp q hq h
    simp only [allOccs, allOccsF, allOccsL, List.append_nil, List.nil_append,
      List.cons_append, List.mem_cons, List.not_mem_nil, or_false] at hp hq
    rcases hp with rfl | rfl | rfl | rfl | rfl <;>
      rcases hq with rfl | rfl | rfl | rfl | rfl <;> simp_all
  exact ⟨by decide,
    unserialize_serialize_pure_roundtrip []
      (.record 1 true [("b", .bigint (-42)),
        ("a", .record 5 true [("p", .num 1), ("q", .negZero)]),
        ("c", .arr 6 true [.num 3,
          .record 5 true [("p", .num 1), ("q", .negZero)], .nan]),
        ("d", .errObj 7 true "TypeError" "boom")]) "forbidCycles"
      (by decide) hcons⟩

/-- C2 counterexample: structural equality ignores object identity, so
the record whose two fields hold the same shared subobject is
structurally equal to the record holding two distinct but equal
subobjects; the first serializes its second occurrence as an ibid
backreference while the second spells the record out twice, so the two
bodies are not byte-identical. -/
theorem canonical_body_counterexample :
    structEq
      (.record 1 true [("x", .record 5 true [("p", .num 1)]),
                       ("y", .record 5 true [("p", .num 1)])])
      (.record 1 true [("x", .record 5 true [("p", .num 1)]),
                       ("y", .record 6 true [("p", .num 1)])]) = true ∧
    Marshal.serialize [] defaultValToSlot "anon-marshal"
      (.record 1 true [("x", .record 5 true [("p", .num 1)]),
                       ("y", .record 5 true [("p", .num 1)])]) =
      .ok ⟨"\x7b\x22x\x22:\x7b\x22p\x22:1\x7d,\x22y\x22:\x7b\x22@qclass\x22:\x22ibid\x22,\x22index\x22:1\x7d\x7d", []⟩ ∧
    Marshal.serialize [] defaultValToSlot "anon-marshal"
      (.record 1 true [("x", .record 5 true [("p", .num 1)]),
                       ("y", .record 6 true [("p", .num 1)])]) =
      .ok ⟨"\x7b\x22x\x22:\x7b\x22p\x22:1\x7d,\x22y\x22:\x7b\x22p\x22:1\x7d\x7d", []⟩ ∧
    "\x7b\x22x\x22:\x7b\x22p\x22:1\x7d,\x22y\x22:\x7b\x22@qclass\x22:\x22ibid\x22,\x22index\x22:1\x7d\x7d" ≠
      "\x7b\x22x\x22:\x7b\x22p\x22:1\x7d,\x22y\x22:\x7b\x22p\x22:1\x7d\x7d" := by
  refine ⟨by decide, ?_, ?_, by decide⟩ <;>
    (simp [serialize, serializeTree, encode, encodeNamedFields, passStyleOf,
           lookupNS, lookupV, QCLASS, initEncState, idxOfNat, oidOf, sortNames,
           insertName, strLeB, listCharLe, serializeSlot, lookupNN,
           getInterfaceOf, defaultValToSlot]
     try rfl)

/-- C2 amended: encoding is canonical on unaliased object graphs. If two
values are structurally equal, each has pairwise-distinct object ids
(so neither aliases a subobject, the situation in which the ibid
mechanism makes the body depend on sharing), each has unique property
names at every record level, and no copy-shaped object of either is
registered as a remotable, then whenever both serialize calls succeed
the two bodies are byte-identical; in particular the encoder emits each
copyRecord's fields in ascending sort order of their property names,
independent of insertion order. -/
theorem canonical_body_for_unaliased (reg : Registry) (vts : JSVal → JSVal)
    (mn : String) (v1 v2 : JSVal) (c1 c2 : CapData)
    (hse : structEq v1 v2 = true)
    (hwf1 : wfNames v1 = true) (hwf2 : wfNames v2 = true)
    (hrg1 : regOK reg v1 = true) (hrg2 : regOK reg v2 = true)
    (hnd1 : (oids v1).Nodup) (hnd2 : (oids v2).Nodup)
    (h1 : Marshal.serialize reg vts mn v1 = .ok c1)
    (h2 : Marshal.serialize reg vts mn v2 = .ok c2) :
    c1.body = c2.body := by
  simp only [serialize] at h1 h2
  cases hst1 : serializeTree reg vts mn v1 with
  | error e =>
    rw [hst1] at h1
    exact absurd h1 (by simp)
  | ok p1 =>
  obtain ⟨t1, sl1⟩ := p1
  rw [hst1] at h1
  simp only [] at h1
  have hc1 := Except.ok.inj h1
  cases hst2 : serializeTree reg vts mn v2 with
  | error e =>
    rw [hst2] at h2
    exact absurd h2 (by simp)
  | ok p2 =>
  obtain ⟨t2, sl2⟩ := p2
  rw [hst2] at h2
  simp only [] at h2
  have hc2 := Except.ok.inj h2
  simp only [serializeTree] at hst1 hst2
  cases henc1 : encode reg vts mn v1 initEncState with
  | error e =>
    rw [henc1] at hst1
    exact absurd hst1 (by simp)
  | ok q1 =>
  obtain ⟨j1, st1e⟩ := q1
  rw [henc1] at hst1
  simp only [] at hst1
  have ht1 : j1 = t1 := congrArg Prod.fst (Except.ok.inj hst1)
  cases henc2 : encode reg vts mn v2 initEncState with
  | error e =>
    rw [henc2] at hst2
    exact absurd hst2 (by simp)
  | ok q2 =>
  obtain ⟨j2, st2e⟩ := q2
  rw [henc2] at hst2
  simp only [] at hst2
  have ht2 : j2 = t2 := congrArg Prod.fst (Except.ok.inj hst2)
  obtain ⟨hjeq, -, -⟩ := (encode_structEq_sim reg vts mn (jsize v1)).1 v1 v2
    initEncState initEncState j1 j2 st1e st2e le_rfl hse hwf1 hwf2 hrg1 hrg2
    hnd1 hnd2 (by simp [initEncState]) (by simp [initEncState])
    (by simp [initEncState]) (by simp [initEncState]) rfl rfl henc1 henc2
  rw [← hc1, ← hc2]
  show stringify t1 = stringify t2
  rw [← ht1, ← ht2, hjeq]

/-- Witness for the amended C2 at two records holding the same fields in
opposite insertion orders: both bodies come out with the fields in
ascending name order and are byte-identical. -/
theorem canonical_body_for_unaliased_witness :
    structEq (.record 1 true [("b", .num 2), ("a", .num 1)])
      (.record 7 true [("a", .num 1), ("b", .num 2)]) = true ∧
    Marshal.serialize [] defaultValToSlot "anon-marshal"
      (.record 1 true [("b", .num 2), ("a", .num 1)]) =
      .ok ⟨"\x7b\x22a\x22:1,\x22b\x22:2\x7d", []⟩ ∧
    Marshal.serialize [] defaultValToSlot "anon-marshal"
      (.record 7 true [("a", .num 1), ("b", .num 2)]) =
      .ok ⟨"\x7b\x22a\x22:1,\x22b\x22:2\x7d", []⟩ ∧
    CapData.body ⟨"\x7b\x22a\x22:1,\x22b\x22:2\x7d", []⟩ =
      CapData.body ⟨"\x7b\x22a\x22:1,\x22b\x22:2\x7d", []⟩ := by
  have hs1 : Marshal.serialize [] defaultValToSlot "anon-marshal"
      (.record 1 true [("b", .num 2), ("a", .num 1)]) =
      .ok ⟨"\x7b\x22a\x22:1,\x22b\x22:2\x7d", []⟩ := by
    simp [serialize, serializeTree, encode, encodeNamedFields, passStyleOf,
          lookupNS, lookupV, QCLASS, initEncState, idxOfNat, oidOf, sortNames,
          insertName, strLeB, listCharLe, serializeSlot, lookupNN,
          getInterfaceOf, defaultValToSlot]
    rfl
  have hs2 : Marshal.serialize [] defaultValToSlot "anon-marshal"
      (.record 7 true [("a", .num 1), ("b", .num 2)]) =
      .ok ⟨"\x7b\x22a\x22:1,\x22b\x22:2\x7d", []⟩ := by
    simp [serialize, serializeTree, encode, encodeNamedFields, passStyleOf,
          lookupNS, lookupV, QCLASS, initEncState, idxOfNat, oidOf, sortNames,
          insertName, strLeB, listCharLe, serializeSlot, lookupNN,
          getInterfaceOf, defaultValToSlot]
    rfl
  exact ⟨by decide, hs1, hs2,
    canonical_body_for_unaliased [] defaultValToSlot "anon-marshal"
      (.record 1 true [("b", .num 2), ("a", .num 1)])
      (.record 7 true [("a", .num 1), ("b", .num 2)])
      ⟨"\x7b\x22a\x22:1,\x22b\x22:2\x7d", []⟩
      ⟨"\x7b\x22a\x22:1,\x22b\x22:2\x7d", []⟩
      (by decide) (by decide) (by decide) (by decide) (by decide)
      (by decide) (by decide) hs1 hs2⟩

/-- C3 counterexample: with the registered remotable r occurring twice in
\x7ba:r,b:r\x7d, the second occurrence serializes as an ibid backreference
(index 1, the remotable's ibid index), not as another slot envelope, and
the slot envelope that is emitted orders its fields @qclass, iface, index;
so the body differs from the one the claim requires. -/
theorem serialize_duplicate_remotable_counterexample :
    Marshal.serializeTree [(5, "Remotable")] defaultValToSlot "anon-marshal"
      (.record 1 true [("a", .methodsObj 5 true ["hello"]),
                       ("b", .methodsObj 5 true ["hello"])]) =
      .ok (.obj [("a", .obj [(QCLASS, .str "slot"), ("iface", .str "Remotable"),
                             ("index", .num 0)]),
                 ("b", .obj [(QCLASS, .str "ibid"), ("index", .num 1)])],
           [.methodsObj 5 true ["hello"]]) ∧
    Marshal.serialize [(5, "Remotable")] defaultValToSlot "anon-marshal"
      (.record 1 true [("a", .methodsObj 5 true ["hello"]),
                       ("b", .methodsObj 5 true ["hello"])]) =
      .ok ⟨"\x7b\x22a\x22:\x7b\x22@qclass\x22:\x22slot\x22,\x22iface\x22:\x22Remotable\x22,\x22index\x22:0\x7d,\x22b\x22:\x7b\x22@qclass\x22:\x22ibid\x22,\x22index\x22:1\x7d\x7d",
           [.methodsObj 5 true ["hello"]]⟩ ∧
    "\x7b\x22a\x22:\x7b\x22@qclass\x22:\x22slot\x22,\x22iface\x22:\x22Remotable\x22,\x22index\x22:0\x7d,\x22b\x22:\x7b\x22@qclass\x22:\x22ibid\x22,\x22index\x22:1\x7d\x7d" ≠
      "\x7b\x22a\x22:\x7b\x22@qclass\x22:\x22slot\x22,\x22index\x22:0,\x22iface\x22:\x22Remotable\x22\x7d,\x22b\x22:\x7b\x22@qclass\x22:\x22slot\x22,\x22index\x22:0,\x22iface\x22:\x22Remotable\x22\x7d\x7d" := by
  refine ⟨?_, ?_, by decide⟩ <;>
    (simp [serialize, serializeTree, encode, encodeNamedFields, passStyleOf,
           lookupNS, lookupV, QCLASS, initEncState, idxOfNat, oidOf, sortNames,
           insertName, strLeB, listCharLe, serializeSlot, lookupNN,
           getInterfaceOf, defaultValToSlot]
     try rfl)

/-- C3 amended: serialize(\x7ba:r,b:r\x7d) with registered remotable r
produces slots = [handleOf r]; the first occurrence serializes as the slot
envelope (fields @qclass, iface, index) and every later occurrence as an
ibid backreference to the remotable's ibid index. -/
theorem serialize_duplicate_remotable_ibid :
    Marshal.serialize [(5, "Remotable")] defaultValToSlot "anon-marshal"
      (.record 1 true [("a", .methodsObj 5 true ["hello"]),
                       ("b", .methodsObj 5 true ["hello"])]) =
      .ok ⟨"\x7b\x22a\x22:\x7b\x22@qclass\x22:\x22slot\x22,\x22iface\x22:\x22Remotable\x22,\x22index\x22:0\x7d,\x22b\x22:\x7b\x22@qclass\x22:\x22ibid\x22,\x22index\x22:1\x7d\x7d",
           [.methodsObj 5 true ["hello"]]⟩ := by
  simp [serialize, serializeTree, encode, encodeNamedFields, passStyleOf,
        lookupNS, lookupV, QCLASS, initEncState, idxOfNat, oidOf, sortNames,
        insertName, strLeB, listCharLe, serializeSlot, lookupNN,
        getInterfaceOf, defaultValToSlot]
  rfl

/-- C4 counterexample: the empty record a is remote-style (C8), so in
serialize(\x7bx:a,y:a\x7d) the first occurrence of a becomes a slot
envelope and the second an ibid with index 1, not the body the claim
expects (a literal empty object and ibid index 2). -/
theorem serialize_shared_empty_record_counterexample :
    Marshal.serialize [] defaultValToSlot "anon-marshal"
      (.record 1 true [("x", .record 2 true []), ("y", .record 2 true [])]) =
      .ok ⟨"\x7b\x22x\x22:\x7b\x22@qclass\x22:\x22slot\x22,\x22index\x22:0\x7d,\x22y\x22:\x7b\x22@qclass\x22:\x22ibid\x22,\x22index\x22:1\x7d\x7d",
           [.record 2 true []]⟩ ∧
    "\x7b\x22x\x22:\x7b\x22@qclass\x22:\x22slot\x22,\x22index\x22:0\x7d,\x22y\x22:\x7b\x22@qclass\x22:\x22ibid\x22,\x22index\x22:1\x7d\x7d" ≠
      "\x7b\x22x\x22:\x7b\x7d,\x22y\x22:\x7b\x22@qclass\x22:\x22ibid\x22,\x22index\x22:2\x7d\x7d" := by
  refine ⟨?_, by decide⟩
  simp [serialize, serializeTree, encode, encodeNamedFields, passStyleOf,
        lookupNS, lookupV, QCLASS, initEncState, idxOfNat, oidOf, sortNames,
        insertName, strLeB, listCharLe, serializeSlot, lookupNN,
        getInterfaceOf, defaultValToSlot]
  rfl

/-- C4 amended: for a = \x7b\x7d (remote-style) and b = \x7bx:a,y:a\x7d,
serialize(b) yields slots = [a] and the body in which x is the slot
envelope of index 0 and y the ibid backreference of index 1; decoding the
raw tree under allowCycles (any policy would do, the entry is finished)
rebuilds a record whose x and y fields are the same object — the slot
value a itself, so out.x === out.y. -/
theorem shared_subobject_slot_and_ibid_roundtrip :
    Marshal.serializeTree [] defaultValToSlot "anon-marshal"
      (.record 1 true [("x", .record 2 true []), ("y", .record 2 true [])]) =
      .ok (.obj [("x", .obj [(QCLASS, .str "slot"), ("index", .num 0)]),
                 ("y", .obj [(QCLASS, .str "ibid"), ("index", .num 1)])],
           [.record 2 true []]) ∧
    Marshal.unserialize defaultSlotToVal
      (.obj [("x", .obj [(QCLASS, .str "slot"), ("index", .num 0)]),
             ("y", .obj [(QCLASS, .str "ibid"), ("index", .num 1)])])
      [.record 2 true []] "allowCycles" =
      .ok (.record 1000 true [("x", .record 2 true []), ("y", .record 2 true [])]) := by
  refine ⟨?_, rfl⟩
  simp [serializeTree, encode, encodeNamedFields, passStyleOf, lookupNS,
        lookupV, QCLASS, initEncState, idxOfNat, oidOf, sortNames, insertName,
        strLeB, listCharLe, serializeSlot, lookupNN, getInterfaceOf,
        defaultValToSlot]

/-- C6 counterexample: a slot envelope whose index is beyond the slots
list does not fail: `slots[i]` is undefined in JS and the slot translator
receives it, so unserialize succeeds (here with the default translator,
yielding undefined). -/
theorem unserialize_slot_index_out_of_range_succeeds :
    Marshal.unserialize defaultSlotToVal
      (.obj [(QCLASS, .str "slot"), ("index", .num 0)]) [] "forbidCycles" =
      .ok .undef := rfl

/-- C6 amended: unserialize fails on an ibid envelope whose index is at or
beyond the ibid entries registered so far, on a bigint envelope whose
digits field is not a string, on an error envelope whose name or message
is not a string, and on an unrecognized sentinel tag; but a slot envelope
with an out-of-range index does not fail — the slot translator is applied
to undefined. -/
theorem unserialize_malformed_envelope_failures :
    (∀ (policy : String) (dst : DecState) (k : Int), 0 ≤ k →
        dst.ibids.length ≤ k.toNat →
        ibidGet policy dst k = .error "ibid out of range") ∧
    (∀ (s2v : JSVal → Option JSON → JSVal) (slots : List JSVal)
        (policy : String) (k : Int), 0 ≤ k →
        unserialize s2v (.obj [(QCLASS, .str "ibid"), ("index", .num k)])
          slots policy = .error "ibid out of range") ∧
    (∀ (s2v : JSVal → Option JSON → JSVal) (slots : List JSVal)
        (policy : String) (d : JSON), (∀ s, d ≠ .str s) →
        unserialize s2v (.obj [(QCLASS, .str "bigint"), ("digits", d)])
          slots policy = .error "invalid digits typeof") ∧
    (∀ (s2v : JSVal → Option JSON → JSVal) (slots : List JSVal)
        (policy : String) (nm : JSON), (∀ s, nm ≠ .str s) →
        unserialize s2v (.obj [(QCLASS, .str "error"), ("name", nm),
                               ("message", .str "m")]) slots policy =
          .error "invalid error name typeof") ∧
    (∀ (s2v : JSVal → Option JSON → JSVal) (slots : List JSVal)
        (policy : String) (msgJ : JSON), (∀ s, msgJ ≠ .str s) →
        unserialize s2v (.obj [(QCLASS, .str "error"), ("name", .str "Error"),
                               ("message", msgJ)]) slots policy =
          .error "invalid error message typeof") ∧
    (∀ (s2v : JSVal → Option JSON → JSVal) (slots : List JSVal)
        (policy : String) (tag : String),
        tag ∉ (["undefined", "NaN", "Infinity", "-Infinity", "bigint",
                "@@asyncIterator", "ibid", "error", "slot"] : List String) →
        unserialize s2v (.obj [(QCLASS, .str tag)]) slots policy =
          .error ("unrecognized @qclass " ++ tag)) := by
  refine ⟨?_, ?_, ?_, ?_, ?_, ?_⟩
  · intro policy dst k hk hlen
    have hneg : ¬(k < 0) := by omega
    have hget : dst.ibids[k.toNat]? = none := by
      rw [List.getElem?_eq_none_iff]
      exact hlen
    simp [ibidGet, hneg, hget]
  · intro s2v slots policy k hk
    have hneg : ¬(k < 0) := by omega
    simp [unserialize, fullRevive, lookupF, QCLASS, ibidGet, initDecState, hneg]
  · intro s2v slots policy d hd
    cases d <;>
      simp_all [unserialize, fullRevive, lookupF, QCLASS]
  · intro s2v slots policy nm hnm
    cases nm <;>
      simp_all [unserialize, fullRevive, lookupF, QCLASS]
  · intro s2v slots policy msgJ hmsg
    cases msgJ <;>
      simp_all [unserialize, fullRevive, lookupF, QCLASS]
  · intro s2v slots policy tag htag
    simp only [List.mem_cons, List.mem_singleton, not_or] at htag
    obtain ⟨h1, h2, h3, h4, h5, h6, h7, h8, h9⟩ := htag
    simp [unserialize, fullRevive, lookupF, QCLASS, h1, h2, h3, h4, h5, h6,
          h7, h8, h9]

/-- Witness for the amended C6 theorem at concrete inputs: ibid index 3 on
an empty table, numeric digits, numeric error name, numeric error message
and the unknown tag frob all fail as stated. -/
theorem unserialize_malformed_envelope_failures_witness :
    unserialize defaultSlotToVal
        (.obj [(QCLASS, .str "ibid"), ("index", .num 3)]) [] "forbidCycles" =
      .error "ibid out of range" ∧
    unserialize defaultSlotToVal
        (.obj [(QCLASS, .str "bigint"), ("digits", .num 1)]) [] "forbidCycles" =
      .error "invalid digits typeof" ∧
    unserialize defaultSlotToVal
        (.obj [(QCLASS, .str "error"), ("name", .num 1), ("message", .str "m")])
        [] "forbidCycles" = .error "invalid error name typeof" ∧
    unserialize defaultSlotToVal
        (.obj [(QCLASS, .str "error"), ("name", .str "Error"),
               ("message", .num 1)]) [] "forbidCycles" =
      .error "invalid error message typeof" ∧
    unserialize defaultSlotToVal (.obj [(QCLASS, .str "frob")]) []
        "forbidCycles" = .error "unrecognized @qclass frob" :=
  ⟨unserialize_malformed_envelope_failures.2.1 defaultSlotToVal [] "forbidCycles"
     3 (by omega),
   unserialize_malformed_envelope_failures.2.2.1 defaultSlotToVal []
     "forbidCycles" (.num 1) (fun s h => JSON.noConfusion h),
   unserialize_malformed_envelope_failures.2.2.2.1 defaultSlotToVal []
     "forbidCycles" (.num 1) (fun s h => JSON.noConfusion h),
   unserialize_malformed_envelope_failures.2.2.2.2.1 defaultSlotToVal []
     "forbidCycles" (.num 1) (fun s h => JSON.noConfusion h),
   unserialize_malformed_envelope_failures.2.2.2.2.2 defaultSlotToVal []
     "forbidCycles" "frob" (by decide)⟩

/-- C7 counterexample: an unknown cycle policy does not make unserialize
fail on capdata whose decoding never dereferences an unfinished ibid
entry; here the body null decodes successfully under the policy bogus. -/
theorem unserialize_unknown_policy_harmless :
    Marshal.unserialize defaultSlotToVal .null [] "bogus" = .ok .nullV := rfl

/-- C7 amended: the cycle policy is consulted only when an ibid lookup
reaches an entry whose construction is unfinished; exactly there an
unknown policy fails (while the known policies allow, warn or forbid).
So unserialize under an unknown policy fails precisely on capdata whose
decoding dereferences an in-construction backreference, such as the
self-referential body \x7bx: ibid 0\x7d. -/
theorem unknown_cycle_policy_fails_on_unfinished_ibid :
    ∀ policy : String,
      policy ∉ (["allowCycles", "warnOfCycles", "forbidCycles"] : List String) →
      (∀ (dst : DecState) (k : Int), 0 ≤ k →
          dst.ibids.get? k.toNat = some none →
          ibidGet policy dst k =
            .error ("unrecognized cycle policy: " ++ policy)) ∧
      (∀ (s2v : JSVal → Option JSON → JSVal) (slots : List JSVal),
          unserialize s2v
            (.obj [("x", .obj [(QCLASS, .str "ibid"), ("index", .num 0)])])
            slots policy =
          .error ("unrecognized cycle policy: " ++ policy)) := by
  intro policy hpol
  simp only [List.mem_cons, List.mem_singleton, not_or] at hpol
  obtain ⟨h1, h2, h3, -⟩ := hpol
  constructor
  · intro dst k hk hget
    have hneg : ¬(k < 0) := by omega
    have hget2 : dst.ibids[k.toNat]? = some none := by
      simpa [List.get?_eq_getElem?] using hget
    simp [ibidGet, hneg, hget2, h1, h2, h3]
  · intro s2v slots
    simp [unserialize, fullRevive, fullReviveFields, lookupF, QCLASS, ibidGet,
          initDecState, h1, h2, h3]

/-- Witness for the amended C7 theorem at the policy bogus: the ibid-table
lookup of an unfinished entry fails, and so does decoding the
self-referential body. -/
theorem unknown_cycle_policy_fails_witness :
    ibidGet "bogus" ⟨[none], 1001⟩ 0 =
      .error "unrecognized cycle policy: bogus" ∧
    unserialize defaultSlotToVal
      (.obj [("x", .obj [(QCLASS, .str "ibid"), ("index", .num 0)])])
      [] "bogus" = .error "unrecognized cycle policy: bogus" :=
  ⟨(unknown_cycle_policy_fails_on_unfinished_ibid "bogus" (by decide)).1
     ⟨[none], 1001⟩ 0 (by omega) rfl,
   (unknown_cycle_policy_fails_on_unfinished_ibid "bogus" (by decide)).2
     defaultSlotToVal []⟩

/-- C8: an empty frozen plain object is remote-style (registered or not),
and a value classified copyRecord is a record with at least one own
field. -/
theorem empty_record_remote_nonempty_copyRecord :
    (∀ (reg : Registry) (oid : Nat),
        passStyleOf reg (.record oid true []) = .ok .remoteStyle) ∧
    (∀ (reg : Registry) (v : JSVal),
        passStyleOf reg v = .ok .copyRecord →
        ∃ oid frozen fields, v = .record oid frozen fields ∧ fields ≠ []) := by
  constructor
  · intro reg oid
    by_cases h : (lookupNS reg oid).isSome <;> simp [passStyleOf, h, QCLASS]
  · intro reg v h
    cases v with
    | record oid frozen fields =>
      simp only [passStyleOf] at h
      split_ifs at h with hreg hq hfr hne
      · simp at h
      · simp at h
      · exact ⟨oid, frozen, fields, rfl, by simpa using hne⟩
    | arr oid frozen elems =>
      simp only [passStyleOf] at h
      split_ifs at h <;> simp_all
    | errObj oid frozen name msg =>
      simp only [passStyleOf] at h
      split_ifs at h <;> simp_all
    | methodsObj oid frozen methods =>
      simp only [passStyleOf] at h
      split_ifs at h <;> simp_all
    | promise oid frozen =>
      simp only [passStyleOf] at h
      split_ifs at h <;> simp_all
    | _ => simp [passStyleOf] at h

/-- Witness for C8: the empty record with oid 7 is remote-style, and the
one-field record with oid 8 is a non-empty record. -/
theorem empty_record_remote_witness :
    passStyleOf [] (.record 7 true []) = .ok .remoteStyle ∧
    ∃ oid frozen fields,
      JSVal.record 8 true [("a", JSVal.num 1)] = .record oid frozen fields ∧
        fields ≠ [] :=
  ⟨empty_record_remote_nonempty_copyRecord.1 [] 7,
   empty_record_remote_nonempty_copyRecord.2 [] _ rfl⟩

/-- C10: an error envelope with string name and message but no errorId
revives successfully into a hardened error of the matching standard class
(base Error for unknown names) carrying the message, and adding an
errorId field of any type leaves the result unchanged — the field is only
ever used (when a string) for a local annotation. -/
theorem revive_error_envelope_errorId_optional :
    ∀ (s2v : JSVal → Option JSON → JSVal) (slots : List JSVal)
      (policy : String) (name msg : String),
      unserialize s2v (.obj [(QCLASS, .str "error"), ("name", .str name),
                             ("message", .str msg)]) slots policy =
        .ok (.errObj 1000 true ((getErrorConstructor name).getD "Error") msg) ∧
      ∀ eid : JSON,
        unserialize s2v (.obj [(QCLASS, .str "error"), ("errorId", eid),
                               ("name", .str name), ("message", .str msg)])
          slots policy =
        .ok (.errObj 1000 true ((getErrorConstructor name).getD "Error") msg) := by
  intro s2v slots policy name msg
  constructor
  · simp [unserialize, fullRevive, lookupF, QCLASS, initDecState]
  · intro eid
    simp [unserialize, fullRevive, lookupF, QCLASS, initDecState]

/-- C9: getInterfaceOf is total — it is a WeakMap get, returning none on
every primitive (any value without an object identity) and the registry
association for any object, never throwing; and a successful Remotable
registration makes it return the registered interface tag for the
registered object. -/
theorem getInterfaceOf_total_registry :
    (∀ (reg : Registry) (v : JSVal), oidOf v = none →
        getInterfaceOf reg v = none) ∧
    (∀ (reg : Registry) (v : JSVal) (oid : Nat), oidOf v = some oid →
        getInterfaceOf reg v = lookupNS reg oid) ∧
    (∀ (iface : String) (props : List String) (target : JSVal)
        (reg : Registry) (t1 : JSVal) (reg1 : Registry),
        Remotable iface props target reg = .ok (t1, reg1) →
        getInterfaceOf reg1 t1 = some iface) := by
  refine ⟨?_, ?_, ?_⟩
  · intro reg v h
    simp [getInterfaceOf, h]
  · intro reg v oid h
    simp [getInterfaceOf, h]
  · intro iface props target reg t1 reg1 h
    unfold Remotable at h
    split at h
    · exact absurd h (by simp)
    · split at h
      · exact absurd h (by simp)
      · split at h
        · exact absurd h (by simp)
        · rename_i oid hoid
          split at h
          · exact absurd h (by simp)
          · split at h <;>
              (simp only [assertCanBeRemotable] at h
               simp only [Except.ok.injEq, Prod.mk.injEq] at h
               obtain ⟨ht, hr⟩ := h
               subst ht hr
               simp [getInterfaceOf, oidOf, lookupNS])

/-- Witness for C9 at concrete inputs: a number yields none, a registered
object yields its registry entry, and registering the empty object under
the tag Remotable makes getInterfaceOf return that tag. -/
theorem getInterfaceOf_total_registry_witness :
    getInterfaceOf [] (.num 3) = none ∧
    getInterfaceOf [(5, "X")] (.methodsObj 5 true []) = lookupNS [(5, "X")] 5 ∧
    getInterfaceOf [(3, "Remotable")] (.methodsObj 3 true []) =
      some "Remotable" :=
  ⟨getInterfaceOf_total_registry.1 [] (.num 3) rfl,
   getInterfaceOf_total_registry.2.1 [(5, "X")] (.methodsObj 5 true []) 5 rfl,
   getInterfaceOf_total_registry.2.2 "Remotable" [] (.record 3 true []) []
     (.methodsObj 3 true []) [(3, "Remotable")] rfl⟩

end Marshal
